import Mathlib

set_option maxRecDepth 20000

/-!
Verification of the flow comparison engine of D365PythonComparison
(src/flow_comparison.py): canonicalizer, hasher, snapshot builder,
tree differ, action differ and comparison orchestrator.

JSON-compatible trees are modelled by the mutual inductive `Json`
(mappings as association lists with string keys, numbers as integers;
floats are outside the model).  Python strings are modelled as `String`
or `List Char` (code points).  All functions are structurally recursive
(fuel-based where the source recursion is not structural) so that every
definition evaluates inside the kernel.
-/

mutual

/-- A JSON-compatible tree: the values `json.loads` can produce and
`normalize_flow_definition` traverses (numbers restricted to integers). -/
inductive Json where
  | null : Json
  | bool (b : Bool) : Json
  | num (n : Int) : Json
  | str (s : String) : Json
  | arr (xs : JArr) : Json
  | obj (kvs : JObj) : Json
deriving DecidableEq

/-- A list of JSON trees (array elements, in document order). -/
inductive JArr where
  | nil : JArr
  | cons (hd : Json) (tl : JArr) : JArr
deriving DecidableEq

/-- An association list of string keys to JSON trees (a Python dict). -/
inductive JObj where
  | nil : JObj
  | cons (k : String) (v : Json) (tl : JObj) : JObj
deriving DecidableEq

end

/-- The keys of a JSON mapping, in order. -/
def JObj.keys : JObj → List String
  | .nil => []
  | .cons k _ t => k :: JObj.keys t

/-- Membership of a key in a JSON mapping. -/
def JObj.hasKey (o : JObj) (k : String) : Bool :=
  (JObj.keys o).contains k

/-- Python `d[k]` on a dict modelled as an association list (first hit;
real Python dicts never hold a key twice).  Total: returns `Json.null`
when the key is absent, a case the source never exercises. -/
def JObj.getD : JObj → String → Json
  | .nil, _ => Json.null
  | .cons k v t, key => if k = key then v else JObj.getD t key

/-- Python `d[k] = v` on a dict: overwrites the value in place when the
key exists (keeping its position, CPython semantics), else appends. -/
def JObj.set : JObj → String → Json → JObj
  | .nil, key, val => JObj.cons key val JObj.nil
  | .cons k v t, key, val =>
      if k = key then JObj.cons k val t else JObj.cons k v (JObj.set t key val)

/-- Number of values in a JSON mapping. -/
def JObj.length : JObj → Nat
  | .nil => 0
  | .cons _ _ t => 1 + JObj.length t

/-- List of the elements of a JSON array. -/
def JArr.toList : JArr → List Json
  | .nil => []
  | .cons h t => h :: JArr.toList t

/-- Length of a JSON array. -/
def JArr.length : JArr → Nat
  | .nil => 0
  | .cons _ t => 1 + JArr.length t

mutual

/-- Node count of a JSON tree (used as fuel for the tree differ). -/
def jcount : Json → Nat
  | .null => 1
  | .bool _ => 1
  | .num _ => 1
  | .str _ => 1
  | .arr xs => 1 + jcountA xs
  | .obj kvs => 1 + jcountO kvs

/-- Node count of a JSON array. -/
def jcountA : JArr → Nat
  | .nil => 0
  | .cons h t => jcount h + jcountA t

/-- Node count of a JSON mapping. -/
def jcountO : JObj → Nat
  | .nil => 0
  | .cons _ v t => jcount v + jcountO t

end

/-- Is `c` an ASCII hexadecimal digit (the character class
`[0-9a-fA-F]` of the GUID regex in `normalize_flow_definition`)? -/
def hexc (c : Char) : Bool :=
  (('0' ≤ c) && (c ≤ '9')) || (('a' ≤ c) && (c ≤ 'f')) || (('A' ≤ c) && (c ≤ 'F'))

/-- Shape of the GUID regex `[0-9a-fA-F]{8}-[0-9a-fA-F]{4}-[0-9a-fA-F]{4}-[0-9a-fA-F]{4}-[0-9a-fA-F]{12}`:
one entry per character, `true` marking the literal dash positions. -/
def guidPat : List Bool :=
  List.replicate 8 false ++ [true] ++ List.replicate 4 false ++ [true] ++
  List.replicate 4 false ++ [true] ++ List.replicate 4 false ++ [true] ++
  List.replicate 12 false

/-- One character class of the GUID pattern. -/
def patStep (b : Bool) (c : Char) : Bool :=
  if b then c = '-' else hexc c

/-- Does the pattern match an initial segment of the text? -/
def matchPat : List Bool → List Char → Bool
  | [], _ => true
  | _ :: _, [] => false
  | b :: bs, c :: cs => patStep b c && matchPat bs cs

/-- Does a GUID-shaped substring start at the head of `l`?  (A match of
the GUID regex at this position; the pattern is of fixed length 36 with
no backtracking, so this is exactly Python regex-match semantics.) -/
def guidAt (l : List Char) : Bool := matchPat guidPat l

/-- The replacement token of `mask_guids`. -/
def guidTok : List Char := ['<', 'G', 'U', 'I', 'D', '>']

/-- The replacement token of `mask_host_urls`. -/
def envTok : List Char := ['<', 'E', 'N', 'V', '_', 'H', 'O', 'S', 'T', '>']

/-- Fuel-indexed left-to-right scan of `re.sub` with the GUID regex:
at each position, if a GUID-shaped substring starts there, emit the
token and continue after the match, else emit the character and move
one position right.  `fuel ≥ length` makes the fuel branch dead. -/
def maskGuidsF : Nat → List Char → List Char
  | _, [] => []
  | 0, l => l
  | f + 1, c :: cs =>
      if guidAt (c :: cs) then guidTok ++ maskGuidsF f (List.drop 35 cs)
      else c :: maskGuidsF f cs

/-- `mask_guids` of `normalize_flow_definition`: replace every GUID match
with the literal token, scanning left to right (Python `re.sub`). -/
def mask_guids (l : List Char) : List Char := maskGuidsF l.length l

/-- Fuel-indexed scan of Python `str.replace(old, tok)` for non-empty
`old`: replace non-overlapping occurrences left to right. -/
def replaceAllF (old tok : List Char) : Nat → List Char → List Char
  | _, [] => []
  | 0, l => l
  | f + 1, c :: cs =>
      if old.isPrefixOf (c :: cs) && !old.isEmpty then
        tok ++ replaceAllF old tok f (List.drop (old.length - 1) cs)
      else c :: replaceAllF old tok f cs

/-- Python `text.replace(old, tok)` for non-empty `old` (the source only
calls it with a non-empty host, guarded by `if env_host:`). -/
def replaceAll (old tok l : List Char) : List Char := replaceAllF old tok l.length l

/-- `mask_host_urls` of `normalize_flow_definition`: replace every
occurrence of the environment host with the token; identity when the
host is empty (falsy), per the `if env_host:` guard. -/
def mask_host_urls (env_host : String) (text : List Char) : List Char :=
  if env_host.data.isEmpty then text else replaceAll env_host.data envTok text

/-- Both masking passes in source order: GUIDs first, then the host. -/
def maskFull (env_host : String) (text : List Char) : List Char :=
  mask_host_urls env_host (mask_guids text)

/-- No GUID-shaped substring starts at any position of `l`. -/
def guidFree : List Char → Bool
  | [] => true
  | c :: cs => !guidAt (c :: cs) && guidFree cs

/-- No occurrence of `pat` starts at any position of `l`. -/
def noOcc (pat : List Char) : List Char → Bool
  | [] => !pat.isPrefixOf []
  | c :: cs => !pat.isPrefixOf (c :: cs) && noOcc pat cs

/-- The `DEFAULT_IGNORE_KEYS` list of `FlowComparison` (also the value of
`self.ignore_keys` used by `should_ignore`, since `compare_flows` never
alters it). -/
def DEFAULT_IGNORE_KEYS : List String :=
  ["connectionReferences", "runtimeConfiguration", "lastModified", "createdTime",
   "modifiedTime", "etag", "trackedProperties", "workflowid", "flowid"]

/-- Python `re.match(r".*[iI]d$", key)` as a boolean: the pattern is
anchored at the start; `.` does not match a newline, so the text before
the final `id`/`Id` must be newline-free; `$` matches at the end of the
string or just before one final newline. -/
def reMatchIdDollar (s : String) : Bool :=
  (match s.data.reverse with
   | 'd' :: c :: rest => ((c = 'i') || (c = 'I')) && rest.all (fun x => x ≠ '\n')
   | _ => false)
  ||
  (match s.data.reverse with
   | '\n' :: 'd' :: c :: rest => ((c = 'i') || (c = 'I')) && rest.all (fun x => x ≠ '\n')
   | _ => false)

/-- Python `str.lower()`, modelled character-wise (exact on ASCII, which
covers every key pattern the module compares against). -/
def pyLower (s : String) : String := String.mk (s.data.map Char.toLower)

/-- `key.lower().startswith("connection")`. -/
def startsWithConnection (s : String) : Bool :=
  "connection".data.isPrefixOf (pyLower s).data

/-- `should_ignore` of `normalize_flow_definition`: ignore-list members,
keys matching `.*[iI]d$`, and keys whose lower-casing starts with
`connection`. -/
def should_ignore (key : String) : Bool :=
  DEFAULT_IGNORE_KEYS.contains key || reMatchIdDollar key || startsWithConnection key

/-- Lexicographic (code-point) comparison of character lists — Python's
string `<=`. -/
def charListLe : List Char → List Char → Bool
  | [], _ => true
  | _ :: _, [] => false
  | a :: as, b :: bs => if a = b then charListLe as bs else decide (a < b)

/-- Python string comparison `a <= b` (code-point lexicographic). -/
def strLe (a b : String) : Bool := charListLe a.data b.data

/-- Stable insertion of a string into a sorted list (an element goes in
front of the first element that is `≥` it). -/
def insertStr (x : String) : List String → List String
  | [] => [x]
  | y :: l => if strLe x y then x :: y :: l else y :: insertStr x l

/-- Python `sorted` on a list of strings (stable, code-point
lexicographic, which is Lean's linear order on `String`). -/
def sortStrs : List String → List String
  | [] => []
  | x :: l => insertStr x (sortStrs l)

/-- Stable insertion of a key-value pair into a key-sorted mapping. -/
def insertPair (k : String) (v : Json) : JObj → JObj
  | .nil => JObj.cons k v .nil
  | .cons k2 v2 t =>
      if strLe k k2 then JObj.cons k v (JObj.cons k2 v2 t)
      else JObj.cons k2 v2 (insertPair k v t)

/-- Stable sort of a mapping by key (what `json.dumps(_, sort_keys=True)`
does with `sorted(d.items())`; dict keys are unique, so comparison never
reaches the values). -/
def sortObj : JObj → JObj
  | .nil => .nil
  | .cons k v t => insertPair k v (sortObj t)

mutual

/-- Recursively sort every mapping of a tree by key.  `json.dumps` with
`sort_keys=True` is the plain serialization of this tree. -/
def sortAll : Json → Json
  | .null => .null
  | .bool b => .bool b
  | .num n => .num n
  | .str s => .str s
  | .arr xs => .arr (sortAllA xs)
  | .obj kvs => .obj (sortObj (sortAllO kvs))

/-- `sortAll` on each array element (array order is preserved). -/
def sortAllA : JArr → JArr
  | .nil => .nil
  | .cons h t => .cons (sortAll h) (sortAllA t)

/-- `sortAll` on each mapping value. -/
def sortAllO : JObj → JObj
  | .nil => .nil
  | .cons k v t => .cons k (sortAll v) (sortAllO t)

end

/-- The dict-building loop of `traverse` on a mapping node: iterate the
sorted key list, skip ignored keys, and assign
`normalized[key] = traverse(obj[key])` — here `src` already holds the
traversed values, so the assignment is a lookup.  `JObj.set` is the
Python dict assignment. -/
def buildNormAcc (src : JObj) : JObj → List String → JObj
  | acc, [] => acc
  | acc, k :: ks =>
      if should_ignore k then buildNormAcc src acc ks
      else buildNormAcc src (JObj.set acc k (JObj.getD src k)) ks

mutual

/-- The recursive `traverse` of `normalize_flow_definition`: mappings are
rebuilt over their sorted, non-ignored keys with traversed values;
arrays keep their order; strings get GUID masking then host masking;
other scalars pass through.  (The Python loop recurses on `obj[key]` for
each surviving sorted key; traversing the values first and then looking
them up is the same function, stated structurally.) -/
def traverse (env_host : String) : Json → Json
  | .null => .null
  | .bool b => .bool b
  | .num n => .num n
  | .str s => .str (String.mk (maskFull env_host s.data))
  | .arr xs => .arr (traverseA env_host xs)
  | .obj kvs =>
      .obj (buildNormAcc (traverseO env_host kvs) .nil (sortStrs (JObj.keys kvs)))

/-- `traverse` on each array element, preserving order. -/
def traverseA (env_host : String) : JArr → JArr
  | .nil => .nil
  | .cons h t => .cons (traverse env_host h) (traverseA env_host t)

/-- `traverse` on each mapping value (keys untouched). -/
def traverseO (env_host : String) : JObj → JObj
  | .nil => .nil
  | .cons k v t => .cons k (traverse env_host v) (traverseO env_host t)

end

/-- Hex digit characters, lowercase (Python `%x` / `json` escapes). -/
def hexDigitChar (n : Nat) : Char :=
  if n < 10 then Char.ofNat (48 + n) else Char.ofNat (87 + n)

/-- Four-digit lowercase hex of `n < 0x10000` (the `\uXXXX` payload). -/
def toHex4 (n : Nat) : List Char :=
  [hexDigitChar (n / 4096 % 16), hexDigitChar (n / 256 % 16),
   hexDigitChar (n / 16 % 16), hexDigitChar (n % 16)]

/-- `json.dumps` escaping of one character with `ensure_ascii=True`:
quote and backslash escaped, the five short control escapes, `\uXXXX`
for other control or non-ASCII characters, surrogate pairs above the
BMP; printable ASCII passes through. -/
def escapeChar (c : Char) : List Char :=
  if c = '"' then ['\\', '"']
  else if c = '\\' then ['\\', '\\']
  else if c = '\x08' then ['\\', 'b']
  else if c = '\x09' then ['\\', 't']
  else if c = '\x0a' then ['\\', 'n']
  else if c = '\x0c' then ['\\', 'f']
  else if c = '\x0d' then ['\\', 'r']
  else if c.toNat < 32 then '\\' :: 'u' :: toHex4 c.toNat
  else if c.toNat < 128 then [c]
  else if c.toNat < 65536 then '\\' :: 'u' :: toHex4 c.toNat
  else
    ('\\' :: 'u' :: toHex4 (55296 + (c.toNat - 65536) / 1024)) ++
    ('\\' :: 'u' :: toHex4 (56320 + (c.toNat - 65536) % 1024))

/-- A JSON string literal: quoted, character-wise escaped. -/
def serStr (s : String) : List Char :=
  '"' :: (s.data.map escapeChar).flatten ++ ['"']

/-- Decimal digits of `n` (fuel-indexed; `fuel ≥ n` is plenty since one
unit of fuel is spent per digit). -/
def natDigitsF : Nat → Nat → List Char
  | 0, n => [Char.ofNat (48 + n % 10)]
  | f + 1, n =>
      if n < 10 then [Char.ofNat (48 + n)]
      else natDigitsF f (n / 10) ++ [Char.ofNat (48 + n % 10)]

/-- Decimal representation of a natural number. -/
def natRepr (n : Nat) : List Char := natDigitsF n n

/-- Python `repr` of an integer (what `json.dumps` emits for ints). -/
def intRepr : Int → List Char
  | .ofNat n => natRepr n
  | .negSucc m => '-' :: natRepr (m + 1)

mutual

/-- Plain compact JSON serialization with separators `(',', ':')` and
`ensure_ascii=True` — mappings are emitted in stored order, so
`json.dumps(x, sort_keys=True, separators=(',', ':'))` is
`serJson (sortAll x)`. -/
def serJson : Json → List Char
  | .bool false => ['f', 'a', 'l', 's', 'e']
  | .bool true => ['t', 'r', 'u', 'e']
  | .null => ['n', 'u', 'l', 'l']
  | .num n => intRepr n
  | .str s => serStr s
  | .arr xs => '[' :: serArr xs ++ [']']
  | .obj kvs => '\x7b' :: serObjItems kvs ++ ['\x7d']

/-- Comma-joined serialization of array elements. -/
def serArr : JArr → List Char
  | .nil => []
  | .cons h .nil => serJson h
  | .cons h t => serJson h ++ ',' :: serArr t

/-- Comma-joined `"key":value` serialization of mapping items. -/
def serObjItems : JObj → List Char
  | .nil => []
  | .cons k v .nil => serStr k ++ ':' :: serJson v
  | .cons k v t => serStr k ++ ':' :: serJson v ++ ',' :: serObjItems t

end

/-- `normalize_flow_definition`: traverse (ignore keys, sort keys, mask
GUIDs and the environment host in strings), then serialize to canonical
JSON with sorted keys and no insignificant whitespace. -/
def normalize_flow_definition (flow_json : Json) (env_host : String) : String :=
  String.mk (serJson (sortAll (traverse env_host flow_json)))

/-- Two to the 32: the word modulus of SHA-256 arithmetic. -/
def M32 : Nat := 4294967296

/-- Reduce modulo the SHA-256 word size. -/
def u32 (n : Nat) : Nat := n % M32

/-- Right rotation of a 32-bit word by `n` places. -/
def rotr32 (n w : Nat) : Nat := u32 (w / 2 ^ n + w % 2 ^ n * 2 ^ (32 - n))

/-- Bitwise complement of a 32-bit word. -/
def not32 (w : Nat) : Nat := M32 - 1 - w % M32

/-- SHA-256 choice function. -/
def shaCh (x y z : Nat) : Nat := (x &&& y) ^^^ (not32 x &&& z)

/-- SHA-256 majority function. -/
def shaMaj (x y z : Nat) : Nat := (x &&& y) ^^^ (x &&& z) ^^^ (y &&& z)

/-- SHA-256 big sigma 0. -/
def bsig0 (x : Nat) : Nat := rotr32 2 x ^^^ rotr32 13 x ^^^ rotr32 22 x

/-- SHA-256 big sigma 1. -/
def bsig1 (x : Nat) : Nat := rotr32 6 x ^^^ rotr32 11 x ^^^ rotr32 25 x

/-- SHA-256 small sigma 0. -/
def ssig0 (x : Nat) : Nat := rotr32 7 x ^^^ rotr32 18 x ^^^ (x / 8)

/-- SHA-256 small sigma 1. -/
def ssig1 (x : Nat) : Nat := rotr32 17 x ^^^ rotr32 19 x ^^^ (x / 1024)

/-- The 64 SHA-256 round constants. -/
def K64 : List Nat :=
  [1116352408, 1899447441, 3049323471, 3921009573, 961987163, 1508970993,
   2453635748, 2870763221, 3624381080, 310598401, 607225278, 1426881987,
   1925078388, 2162078206, 2614888103, 3248222580, 3835390401, 4022224774,
   264347078, 604807628, 770255983, 1249150122, 1555081692, 1996064986,
   2554220882, 2821834349, 2952996808, 3210313671, 3336571891, 3584528711,
   113926993, 338241895, 666307205, 773529912, 1294757372, 1396182291,
   1695183700, 1986661051, 2177026350, 2456956037, 2730485921, 2820302411,
   3259730800, 3345764771, 3516065817, 3600352804, 4094571909, 275423344,
   430227734, 506948616, 659060556, 883997877, 958139571, 1322822218,
   1537002063, 1747873779, 1955562222, 2024104815, 2227730452, 2361852424,
   2428436474, 2756734187, 3204031479, 3329325298]

/-- The initial SHA-256 hash state. -/
def sha256Init : List Nat :=
  [1779033703, 3144134277, 1013904242, 2773480762,
   1359893119, 2600822924, 528734635, 1541459225]

/-- Iterate a function `n` times. -/
def iterN : Nat → (α → α) → α → α
  | 0, _, a => a
  | n + 1, f, a => iterN n f (f a)

/-- One message-schedule extension step: append
`σ1(w[t-2]) + w[t-7] + σ0(w[t-15]) + w[t-16]` modulo 2^32. -/
def extendStep (ws : List Nat) : List Nat :=
  ws ++ [u32 (ssig1 (ws.getD (ws.length - 2) 0) + ws.getD (ws.length - 7) 0 +
              ssig0 (ws.getD (ws.length - 15) 0) + ws.getD (ws.length - 16) 0)]

/-- One SHA-256 round on the working variables `[a,b,c,d,e,f,g,h]`. -/
def compressStep (st : List Nat) (wk : Nat × Nat) : List Nat :=
  match st with
  | [a, b, c, d, e, f, g, h] =>
      let t1 := h + bsig1 e + shaCh e f g + wk.2 + wk.1
      let t2 := bsig0 a + shaMaj a b c
      [u32 (t1 + t2), a, b, c, u32 (d + t1), e, f, g]
  | other => other

/-- Process one 16-word chunk: extend the schedule to 64 words, run the
64 rounds, add the result into the hash state modulo 2^32. -/
def sha256Chunk (hs chunk : List Nat) : List Nat :=
  let w := iterN 48 extendStep chunk
  let st := (w.zip K64).foldl compressStep hs
  List.zipWith (fun a b => u32 (a + b)) hs st

/-- Big-endian 4-byte groups to 32-bit words. -/
def bytesToWords : List Nat → List Nat
  | a :: b :: c :: d :: rest => (a * 16777216 + b * 65536 + c * 256 + d) :: bytesToWords rest
  | _ => []

/-- The 8-byte big-endian bit-length trailer of SHA-256 padding. -/
def lenBytes8 (n : Nat) : List Nat :=
  [n / 2 ^ 56 % 256, n / 2 ^ 48 % 256, n / 2 ^ 40 % 256, n / 2 ^ 32 % 256,
   n / 2 ^ 24 % 256, n / 2 ^ 16 % 256, n / 2 ^ 8 % 256, n % 256]

/-- SHA-256 padding: append `0x80`, zeros to 56 mod 64, then the message
bit length. -/
def shaPad (msg : List Nat) : List Nat :=
  msg ++ 128 :: List.replicate ((119 - msg.length % 64) % 64) 0 ++ lenBytes8 (8 * msg.length)

/-- Split a word list into 16-word chunks (fuel-indexed; `fuel ≥ length`
is plenty). -/
def shaChunksF : Nat → List Nat → List (List Nat)
  | 0, _ => []
  | _ + 1, [] => []
  | f + 1, ws => ws.take 16 :: shaChunksF f (ws.drop 16)

/-- A 32-bit word as 4 big-endian bytes. -/
def wordBytes (w : Nat) : List Nat :=
  [w / 16777216 % 256, w / 65536 % 256, w / 256 % 256, w % 256]

/-- SHA-256 of a byte string, as the 32 digest bytes. -/
def sha256 (msg : List Nat) : List Nat :=
  let padded := shaPad msg
  let ws := bytesToWords padded
  ((shaChunksF ws.length ws).foldl sha256Chunk sha256Init).flatMap wordBytes

/-- UTF-8 encoding of one character. -/
def utf8Bytes (c : Char) : List Nat :=
  let n := c.toNat
  if n < 128 then [n]
  else if n < 2048 then [192 + n / 64, 128 + n % 64]
  else if n < 65536 then [224 + n / 4096, 128 + n / 64 % 64, 128 + n % 64]
  else [240 + n / 262144, 128 + n / 4096 % 64, 128 + n / 64 % 64, 128 + n % 64]

/-- Lowercase hex of a byte string (`hashlib`'s `hexdigest`). -/
def bytesToHexStr (bs : List Nat) : List Char :=
  bs.flatMap (fun b => [hexDigitChar (b / 16 % 16), hexDigitChar (b % 16)])

/-- `compute_hash`: the SHA-256 hex digest of the UTF-8 encoding of the
canonical JSON string. -/
def compute_hash (canonical_json : String) : String :=
  String.mk (bytesToHexStr (sha256 (canonical_json.data.flatMap utf8Bytes)))

/-- JSON whitespace (the characters `json.loads` skips between tokens). -/
def isWs (c : Char) : Bool :=
  c = ' ' || c = '\x09' || c = '\x0a' || c = '\x0d'

/-- Drop leading JSON whitespace. -/
def skipWs : List Char → List Char
  | [] => []
  | c :: cs => if isWs c then skipWs cs else c :: cs

/-- Value of a hex digit character, if it is one. -/
def hexVal (c : Char) : Option Nat :=
  if ('0' ≤ c) && (c ≤ '9') then some (c.toNat - 48)
  else if ('a' ≤ c) && (c ≤ 'f') then some (c.toNat - 87)
  else if ('A' ≤ c) && (c ≤ 'F') then some (c.toNat - 55)
  else none

/-- Prepend a parsed character to a string-parser result. -/
def consParsed (c : Char) :
    Except String (List Char × List Char) → Except String (List Char × List Char)
  | .ok (cs, r) => .ok (c :: cs, r)
  | .error e => .error e

/-- The body of a JSON string literal after the opening quote: consume
characters up to the closing quote, decoding backslash escapes,
combining `\uXXXX` surrogate pairs, and rejecting raw control
characters.  (Python `json.loads` additionally tolerates unpaired
`\uXXXX` surrogates, which Lean strings cannot represent; those inputs
are mapped to an error here and never arise from `json.dumps` output of
this model.) -/
def parseStrChars : List Char → Except String (List Char × List Char)
  | [] => .error "Unterminated string"
  | '"' :: rest => .ok ([], rest)
  | '\\' :: rest =>
    (match rest with
     | '"' :: r => consParsed '"' (parseStrChars r)
     | '\\' :: r => consParsed '\\' (parseStrChars r)
     | '/' :: r => consParsed '/' (parseStrChars r)
     | 'b' :: r => consParsed '\x08' (parseStrChars r)
     | 'f' :: r => consParsed '\x0c' (parseStrChars r)
     | 'n' :: r => consParsed '\x0a' (parseStrChars r)
     | 'r' :: r => consParsed '\x0d' (parseStrChars r)
     | 't' :: r => consParsed '\x09' (parseStrChars r)
     | 'u' :: a :: b :: c :: d :: r =>
       (match hexVal a, hexVal b, hexVal c, hexVal d with
        | some ha, some hb, some hc, some hd =>
          let h := 4096 * ha + 256 * hb + 16 * hc + hd
          if 55296 ≤ h ∧ h < 56320 then
            match r with
            | '\\' :: 'u' :: a2 :: b2 :: c2 :: d2 :: r2 =>
              (match hexVal a2, hexVal b2, hexVal c2, hexVal d2 with
               | some la, some lb, some lc, some ld =>
                 let lo := 4096 * la + 256 * lb + 16 * lc + ld
                 if 56320 ≤ lo ∧ lo < 57344 then
                   consParsed (Char.ofNat (65536 + (h - 55296) * 1024 + (lo - 56320)))
                     (parseStrChars r2)
                 else .error "Unpaired surrogate"
               | _, _, _, _ => .error "Invalid hex escape")
            | _ => .error "Unpaired surrogate"
          else if 56320 ≤ h ∧ h < 57344 then .error "Unpaired surrogate"
          else consParsed (Char.ofNat h) (parseStrChars r)
        | _, _, _, _ => .error "Invalid hex escape")
     | _ => .error "Invalid escape")
  | c :: rest =>
      if c.toNat < 32 then .error "Invalid control character"
      else consParsed c (parseStrChars rest)

/-- Maximal leading run of decimal digits. -/
def takeDigits : List Char → List Char × List Char
  | [] => ([], [])
  | c :: cs =>
      if c.isDigit then
        let p := takeDigits cs
        (c :: p.1, p.2)
      else ([], c :: cs)

/-- Numeric value of a digit run. -/
def digitsVal (ds : List Char) : Nat :=
  ds.foldl (fun acc c => 10 * acc + (c.toNat - 48)) 0

/-- A JSON integer literal: optional minus, a digit run without a
leading zero, not followed by a fraction or exponent (floats are outside
this model; canonical strings only ever hold integers). -/
def parseNumber (l : List Char) : Except String (Json × List Char) :=
  let sign : Bool := match l with
    | '-' :: _ => true
    | _ => false
  let l2 := match l with
    | '-' :: r => r
    | _ => l
  let p := takeDigits l2
  match p.1 with
  | [] => .error "Expecting value"
  | d :: ds =>
      if d = '0' ∧ ds ≠ [] then .error "Leading zero"
      else
        match p.2 with
        | c :: _ =>
            if c = '.' || c = 'e' || c = 'E' then .error "Float literal outside model"
            else .ok (.num (if sign then -(digitsVal (d :: ds) : Int) else (digitsVal (d :: ds) : Int)), p.2)
        | [] => .ok (.num (if sign then -(digitsVal (d :: ds) : Int) else (digitsVal (d :: ds) : Int)), p.2)

mutual

/-- Recursive-descent `json.loads` value parser (fuel-indexed; one unit
of fuel per nesting step and per aggregate element, so any fuel above
the input length is plenty).  Returns the value and the unconsumed
rest. -/
def parseValue : Nat → List Char → Except String (Json × List Char)
  | 0, _ => .error "Fuel exhausted"
  | f + 1, l =>
    (match skipWs l with
     | 'f' :: 'a' :: 'l' :: 's' :: 'e' :: r => .ok (.bool false, r)
     | 't' :: 'r' :: 'u' :: 'e' :: r => .ok (.bool true, r)
     | 'n' :: 'u' :: 'l' :: 'l' :: r => .ok (.null, r)
     | '"' :: r =>
       (match parseStrChars r with
        | .ok (cs, r2) => .ok (.str (String.mk cs), r2)
        | .error e => .error e)
     | '[' :: r =>
       (match skipWs r with
        | ']' :: r2 => .ok (.arr .nil, r2)
        | r2 =>
          (match parseArrItems f r2 with
           | .ok (items, r3) => .ok (.arr items, r3)
           | .error e => .error e))
     | '\x7b' :: r =>
       (match skipWs r with
        | '\x7d' :: r2 => .ok (.obj .nil, r2)
        | r2 => parseObjItems f r2 .nil)
     | c :: r =>
         if c = '-' || c.isDigit then parseNumber (c :: r) else .error "Expecting value"
     | [] => .error "Expecting value")

/-- Array elements after `[` (first element's text already at the
head): value, then `,` and more elements or `]`. -/
def parseArrItems : Nat → List Char → Except String (JArr × List Char)
  | 0, _ => .error "Fuel exhausted"
  | f + 1, l =>
    (match parseValue f l with
     | .ok (v, r) =>
       (match skipWs r with
        | ',' :: r2 =>
          (match parseArrItems f r2 with
           | .ok (tl, r3) => .ok (JArr.cons v tl, r3)
           | .error e => .error e)
        | ']' :: r2 => .ok (JArr.cons v .nil, r2)
        | _ => .error "Expecting comma or bracket")
     | .error e => .error e)

/-- Object members after `{` (whitespace already skipped): a quoted key,
`:`, a value — assigned into the accumulator dict exactly like the
Python dict build, overwriting duplicates in place — then `,` and more
members or `}`. -/
def parseObjItems : Nat → List Char → JObj → Except String (Json × List Char)
  | 0, _, _ => .error "Fuel exhausted"
  | f + 1, l, acc =>
    (match l with
     | '"' :: r =>
       (match parseStrChars r with
        | .ok (kcs, r2) =>
          (match skipWs r2 with
           | ':' :: r3 =>
             (match parseValue f r3 with
              | .ok (v, r4) =>
                (match skipWs r4 with
                 | ',' :: r5 => parseObjItems f (skipWs r5) (JObj.set acc (String.mk kcs) v)
                 | '\x7d' :: r5 => .ok (.obj (JObj.set acc (String.mk kcs) v), r5)
                 | _ => .error "Expecting comma or brace")
              | .error e => .error e)
           | _ => .error "Expecting colon")
        | .error e => .error e)
     | _ => .error "Expecting property name")

end

/-- `json.loads` restricted to the model: parse one value, then require
only whitespace to remain. -/
def json_loads (s : String) : Except String Json :=
  match parseValue (s.length + 1) s.data with
  | .ok (v, rest) => if (skipWs rest).isEmpty then .ok v else .error "Extra data"
  | .error e => .error e

/-- Decidable equality of `Except` results (needed to state concrete
evaluations of fallible model functions). -/
instance exceptDecEq {ε α : Type} [DecidableEq ε] [DecidableEq α] : DecidableEq (Except ε α) :=
  fun a b =>
    match a, b with
    | .ok x, .ok y =>
        if h : x = y then .isTrue (by rw [h]) else .isFalse (fun hh => h (Except.ok.inj hh))
    | .error e, .error e2 =>
        if h : e = e2 then .isTrue (by rw [h]) else .isFalse (fun hh => h (Except.error.inj hh))
    | .ok _, .error _ => .isFalse (fun hh => Except.noConfusion hh)
    | .error _, .ok _ => .isFalse (fun hh => Except.noConfusion hh)

/-- A flow record as fetched from the workflows entity: the three fields
`build_snapshot` reads via `flow.get`, each possibly absent. -/
structure FlowRecord where
  workflowid : Option String
  name : Option String
  clientdata : Option Json
deriving DecidableEq

/-- A per-flow snapshot (the dict `build_snapshot` returns). -/
structure Snapshot where
  flow_id : String
  name : String
  environment : String
  canonical_json : String
  hash : String
  error : Option String
deriving DecidableEq

/-- Python truthiness of a JSON value (`not clientdata`). -/
def isFalsy : Json → Bool
  | .null => true
  | .bool b => !b
  | .num n => n = 0
  | .str s => s = ""
  | .arr .nil => true
  | .arr (.cons _ _) => false
  | .obj .nil => true
  | .obj (.cons _ _ _) => false

/-- `build_snapshot`: error snapshot when `clientdata` is falsy; parse a
string `clientdata` as JSON (errors captured); otherwise canonicalize
and hash, never raising. -/
def build_snapshot (flow : FlowRecord) (env_host : String) : Snapshot :=
  let flow_id := flow.workflowid.getD ""
  let flow_name := flow.name.getD ""
  match flow.clientdata with
  | none => ⟨flow_id, flow_name, env_host, "", "", some "clientdata missing or empty"⟩
  | some cd =>
    if isFalsy cd then ⟨flow_id, flow_name, env_host, "", "", some "clientdata missing or empty"⟩
    else
      match (match cd with
             | .str s => json_loads s
             | j => .ok j) with
      | .error e => ⟨flow_id, flow_name, env_host, "", "", some e⟩
      | .ok flow_json =>
          let canonical := normalize_flow_definition flow_json env_host
          ⟨flow_id, flow_name, env_host, canonical, compute_hash canonical, none⟩

/-- One `changed` entry of a diff: path plus stringified values. -/
structure ChangedEntry where
  path : String
  source_value : String
  target_value : String
deriving DecidableEq

/-- The result dict of `compute_diff`. -/
structure DiffRes where
  added : List String
  removed : List String
  changed : List ChangedEntry
deriving DecidableEq

/-- The Python runtime type tag used by `type(a) != type(b)` (bool is
not int in Python, and this model keeps floats out, so tags are exactly
the six JSON constructors). -/
def pyType : Json → Nat
  | .null => 0
  | .bool _ => 1
  | .num _ => 2
  | .str _ => 3
  | .arr _ => 4
  | .obj _ => 5

/-- Escape one character for Python `repr` of a string with quote
character `q`. -/
def pyReprEscChar (q c : Char) : List Char :=
  if c = '\\' then ['\\', '\\']
  else if c = q then ['\\', q]
  else if c = '\x0a' then ['\\', 'n']
  else if c = '\x0d' then ['\\', 'r']
  else if c = '\x09' then ['\\', 't']
  else if c.toNat < 32 || c.toNat = 127 then
    ['\\', 'x', hexDigitChar (c.toNat / 16), hexDigitChar (c.toNat % 16)]
  else [c]

/-- The apostrophe character (Python's preferred string quote). -/
def aposChar : Char := Char.ofNat 39

/-- Python `repr` of a string: single-quoted, or double-quoted when the
text holds an apostrophe but no double quote. -/
def pyReprStr (s : String) : List Char :=
  let q := if s.data.contains aposChar && !s.data.contains '"' then '"' else aposChar
  q :: (s.data.map (pyReprEscChar q)).flatten ++ [q]

mutual

/-- Python `repr` of a JSON-compatible value (used by `str` on
containers). -/
def pyRepr : Json → List Char
  | .null => ['N', 'o', 'n', 'e']
  | .bool true => ['T', 'r', 'u', 'e']
  | .bool false => ['F', 'a', 'l', 's', 'e']
  | .num n => intRepr n
  | .str s => pyReprStr s
  | .arr xs => '[' :: pyReprArr xs ++ [']']
  | .obj kvs => '\x7b' :: pyReprObj kvs ++ ['\x7d']

/-- `repr` of list elements, comma-space separated. -/
def pyReprArr : JArr → List Char
  | .nil => []
  | .cons h .nil => pyRepr h
  | .cons h t => pyRepr h ++ ',' :: ' ' :: pyReprArr t

/-- `repr` of dict items, comma-space separated. -/
def pyReprObj : JObj → List Char
  | .nil => []
  | .cons k v .nil => pyReprStr k ++ ':' :: ' ' :: pyRepr v
  | .cons k v t => pyReprStr k ++ ':' :: ' ' :: pyRepr v ++ ',' :: ' ' :: pyReprObj t

end

/-- Python `str()` of a JSON-compatible value (strings unquoted, other
values via `repr`). -/
def pyStr (j : Json) : String :=
  match j with
  | .str s => s
  | other => String.mk (pyRepr other)

/-- Sorted deduplication of a sorted list (adjacent duplicates
collapsed). -/
def dedupSorted : List String → List String
  | [] => []
  | [x] => [x]
  | x :: y :: t => if x = y then dedupSorted (y :: t) else x :: dedupSorted (y :: t)

/-- A Python `set` of strings, modelled as a sorted duplicate-free list.
CPython iterates sets in an implementation-defined order; this model
fixes the deterministic ascending order. -/
def pySet (l : List String) : List String := dedupSorted (sortStrs l)

/-- Set difference `a - b` on set models, iterated in order. -/
def setMinus (a b : List String) : List String := a.filter (fun x => !b.contains x)

/-- Set intersection `a & b` on set models, iterated in order. -/
def setInter (a b : List String) : List String := a.filter (fun x => b.contains x)

/-- Concatenate diff results componentwise (list appends in the order
the Python closure appends to the shared accumulators). -/
def diffAppend (x y : DiffRes) : DiffRes :=
  ⟨x.added ++ y.added, x.removed ++ y.removed, x.changed ++ y.changed⟩

mutual

/-- The recursive `compare_elements` closure of `compute_diff`
(fuel-indexed; each recursive step spends one unit, so the node count of
the inputs is plenty): type mismatch gives a `changed` entry; mappings
diff by key sets and recurse on common keys (set iteration in the sorted
order of the model); sequences recurse index-wise and report extra
indices; scalars compare by equality. -/
def cmpElemsF : Nat → Json → Json → String → DiffRes
  | 0, _, _, _ => ⟨[], [], []⟩
  | f + 1, a, b, path =>
    if pyType a ≠ pyType b then ⟨[], [], [⟨path, pyStr a, pyStr b⟩]⟩
    else
      match a, b with
      | .obj oa, .obj ob =>
          let ka := pySet (JObj.keys oa)
          let kb := pySet (JObj.keys ob)
          let own : DiffRes :=
            ⟨(setMinus kb ka).map (fun k => path ++ "." ++ k),
             (setMinus ka kb).map (fun k => path ++ "." ++ k), []⟩
          diffAppend own (cmpCommonF f (setInter ka kb) oa ob path)
      | .arr xa, .arr xb => cmpListsF f (JArr.toList xa) (JArr.toList xb) path 0
      | x, y => if x ≠ y then ⟨[], [], [⟨path, pyStr x, pyStr y⟩]⟩ else ⟨[], [], []⟩

/-- Diff of the values at the common keys, in iteration order. -/
def cmpCommonF : Nat → List String → JObj → JObj → String → DiffRes
  | 0, _, _, _, _ => ⟨[], [], []⟩
  | _ + 1, [], _, _, _ => ⟨[], [], []⟩
  | f + 1, k :: ks, oa, ob, path =>
      diffAppend (cmpElemsF f (JObj.getD oa k) (JObj.getD ob k) (path ++ "." ++ k))
        (cmpCommonF f ks oa ob path)

/-- Index-wise diff of two sequences: extra indices of `b` are `added`,
extra indices of `a` are `removed`, shared indices recurse. -/
def cmpListsF : Nat → List Json → List Json → String → Nat → DiffRes
  | 0, _, _, _, _ => ⟨[], [], []⟩
  | _ + 1, [], [], _, _ => ⟨[], [], []⟩
  | f + 1, [], _ :: bs, path, i =>
      diffAppend ⟨[path ++ "[" ++ String.mk (natRepr i) ++ "]"], [], []⟩
        (cmpListsF f [] bs path (i + 1))
  | f + 1, _ :: as2, [], path, i =>
      diffAppend ⟨[], [path ++ "[" ++ String.mk (natRepr i) ++ "]"], []⟩
        (cmpListsF f as2 [] path (i + 1))
  | f + 1, a :: as2, b :: bs, path, i =>
      diffAppend (cmpElemsF f a b (path ++ "[" ++ String.mk (natRepr i) ++ "]"))
        (cmpListsF f as2 bs path (i + 1))

end

/-- `compare_elements(a, b, "$")` with enough fuel to run to
completion. -/
def compare_elements (a b : Json) : DiffRes :=
  cmpElemsF (jcount a + jcount b) a b "$"

/-- `compute_diff`: parse both JSON strings (parse errors propagate, as
the Python exceptions would) and run the recursive comparison. -/
def compute_diff (json_a json_b : String) : Except String DiffRes :=
  match json_loads json_a with
  | .error e => .error e
  | .ok a =>
    match json_loads json_b with
    | .error e => .error e
    | .ok b => .ok (compare_elements a b)

/-- First value stored under a key, if any (Python dict subscript on a
key known to be present). -/
def JObj.find? : JObj → String → Option Json
  | .nil, _ => none
  | .cons k v t, key => if k = key then some v else JObj.find? t key

/-- Does the array contain this string as an element (Python `in` on a
list; `==` between a string and a non-string is `False`)? -/
def arrContainsStr : JArr → String → Bool
  | .nil, _ => false
  | .cons (.str x) t, needle => x = needle || arrContainsStr t needle
  | .cons _ t, needle => arrContainsStr t needle

/-- Is `pat` a substring of `l` (Python `in` on strings; the needles
used here are non-empty)? -/
def containsSub (pat l : List Char) : Bool := !noOcc pat l

/-- Python `needle in j`: key test on dicts, element test on lists,
substring test on strings; `none` models the `TypeError` that `in`
raises on other values (caught by `extract_actions`). -/
def pyInOpt (needle : String) : Json → Option Bool
  | .obj o => some (o.hasKey needle)
  | .arr xs => some (arrContainsStr xs needle)
  | .str s => some (containsSub needle.data s.data)
  | _ => none

/-- Python `j[key]`: succeeds only on dicts holding the key; `none`
models the `TypeError`/`KeyError` otherwise (caught by
`extract_actions`). -/
def pyGetKey (j : Json) (key : String) : Option Json :=
  match j with
  | .obj o => JObj.find? o key
  | _ => none

/-- The second probe of `extract_actions`: `definition.actions`.
`Except.error ()` models a raised exception (mapped to `None` by the
enclosing `try`), `.ok none` the fall-through to `return None`. -/
def probeDefActions (obj : Json) : Except Unit (Option Json) :=
  match pyInOpt "definition" obj with
  | none => .error ()
  | some false => .ok none
  | some true =>
    match pyGetKey obj "definition" with
    | none => .error ()
    | some dv =>
      match pyInOpt "actions" dv with
      | none => .error ()
      | some false => .ok none
      | some true =>
        match pyGetKey dv "actions" with
        | none => .error ()
        | some av => .ok (some av)

/-- The first probe of `extract_actions`:
`properties.definition.actions`, falling through to the second probe
when a membership test is false. -/
def probePropDefActions (obj : Json) : Except Unit (Option Json) :=
  match pyInOpt "properties" obj with
  | none => .error ()
  | some false => probeDefActions obj
  | some true =>
    match pyGetKey obj "properties" with
    | none => .error ()
    | some pv =>
      match pyInOpt "definition" pv with
      | none => .error ()
      | some false => probeDefActions obj
      | some true =>
        match pyGetKey pv "definition" with
        | none => .error ()
        | some dv =>
          match pyInOpt "actions" dv with
          | none => .error ()
          | some false => probeDefActions obj
          | some true =>
            match pyGetKey dv "actions" with
            | none => .error ()
            | some av => .ok (some av)

/-- `extract_actions`: parse, probe `properties.definition.actions` then
`definition.actions`; any exception inside the `try` yields `None`. -/
def extract_actions (flow_json : String) : Option Json :=
  match json_loads flow_json with
  | .error _ => none
  | .ok obj =>
    match probePropDefActions obj with
    | .error _ => none
    | .ok r => r

mutual

/-- `json.dumps` with default separators `(', ', ': ')` (as used on the
per-action subtrees); mappings emitted in stored order, so the
`sort_keys=True` call is this after `sortAll`. -/
def serJsonSp : Json → List Char
  | .bool false => ['f', 'a', 'l', 's', 'e']
  | .bool true => ['t', 'r', 'u', 'e']
  | .null => ['n', 'u', 'l', 'l']
  | .num n => intRepr n
  | .str s => serStr s
  | .arr xs => '[' :: serArrSp xs ++ [']']
  | .obj kvs => '\x7b' :: serObjItemsSp kvs ++ ['\x7d']

/-- Spaced comma-joined serialization of array elements. -/
def serArrSp : JArr → List Char
  | .nil => []
  | .cons h .nil => serJsonSp h
  | .cons h t => serJsonSp h ++ ',' :: ' ' :: serArrSp t

/-- Spaced comma-joined `"key": value` serialization of mapping items. -/
def serObjItemsSp : JObj → List Char
  | .nil => []
  | .cons k v .nil => serStr k ++ ':' :: ' ' :: serJsonSp v
  | .cons k v t => serStr k ++ ':' :: ' ' :: serJsonSp v ++ ',' :: ' ' :: serObjItemsSp t

end

/-- `json.dumps(x, sort_keys=True)` with default separators. -/
def pyDumpsSorted (j : Json) : String := String.mk (serJsonSp (sortAll j))

/-- One entry of the `compute_action_differences` result. -/
structure ActionDifference where
  action_name : String
  status : String
  changed_properties : List ChangedEntry
deriving DecidableEq

/-- The per-common-action loop of `compute_action_differences`: skip
actions with equal sorted serializations; otherwise run `compute_diff`
on the serializations (whose parse errors would propagate out of the
Python function) and flatten its `changed`, `added` and `removed` into
`changed_properties`. -/
def changedActionLoop (A B : JObj) : List String → Except String (List ActionDifference)
  | [] => .ok []
  | n :: ns =>
      let aj := pyDumpsSorted (JObj.getD A n)
      let bj := pyDumpsSorted (JObj.getD B n)
      if aj ≠ bj then
        match compute_diff aj bj with
        | .error e => .error e
        | .ok diff =>
            let props := diff.changed.map (fun c => (⟨c.path, c.source_value, c.target_value⟩ : ChangedEntry))
              ++ diff.added.map (fun p => (⟨p, "(missing)", "(added)"⟩ : ChangedEntry))
              ++ diff.removed.map (fun p => (⟨p, "(removed)", "(missing)"⟩ : ChangedEntry))
            match changedActionLoop A B ns with
            | .error e => .error e
            | .ok rest => .ok (⟨n, "changed", props⟩ :: rest)
      else changedActionLoop A B ns

/-- Python `x or {}` on the result of `extract_actions`. -/
def actionsOrEmpty : Option Json → Json
  | none => .obj .nil
  | some v => if isFalsy v then .obj .nil else v

/-- `compute_action_differences`: names only in the first action set are
`removed`, names only in the second are `added` (both with empty
`changed_properties`), names in both with differing sorted
serializations are `changed`; a non-mapping action collection makes
`set(actions.keys())` raise `AttributeError`, modelled as an error
result (set iteration in the sorted order of the model). -/
def compute_action_differences (json_a json_b : String) :
    Except String (List ActionDifference) :=
  let actions_a := actionsOrEmpty (extract_actions json_a)
  let actions_b := actionsOrEmpty (extract_actions json_b)
  match actions_a, actions_b with
  | .obj A, .obj B =>
      let ka := pySet (JObj.keys A)
      let kb := pySet (JObj.keys B)
      let removed := (setMinus ka kb).map
        (fun n => (⟨n, "removed", []⟩ : ActionDifference))
      let added := (setMinus kb ka).map
        (fun n => (⟨n, "added", []⟩ : ActionDifference))
      match changedActionLoop A B (setInter ka kb) with
      | .error e => .error e
      | .ok changed => .ok (removed ++ added ++ changed)
  | _, _ => .error "AttributeError: object has no attribute keys"

/-- One entry of the orchestrator's `comparisons` list. -/
structure FlowComparisonEntry where
  name : String
  source : Snapshot
  target : Option Snapshot
  identical : Bool
  status : String
  diff : Option DiffRes
  action_differences : Option (List ActionDifference)
deriving DecidableEq

/-- The aggregate result dict of `compare_flows`. -/
structure CompareFlowsResult where
  source_url : String
  target_url : String
  source_snapshots : List Snapshot
  target_snapshots : List Snapshot
  comparisons : List FlowComparisonEntry
  identical_flows : List String
  non_identical_flows : List String
  missing_in_target_count : Nat
  missing_in_target : List String
  error_count : Nat
  errors : List String
  source_count : Nat
  target_count : Nat
deriving DecidableEq

/-- Assignment into a name-keyed snapshot dict: overwrite in place when
the name exists (CPython dict semantics), else append. -/
def snapMapSet : List (String × Snapshot) → String → Snapshot → List (String × Snapshot)
  | [], key, s => [(key, s)]
  | (k, v) :: t, key, s =>
      if k = key then (k, s) :: t else (k, v) :: snapMapSet t key s

/-- Dict lookup by flow name (`target_snapshots.get(name)`). -/
def snapLookup : List (String × Snapshot) → String → Option Snapshot
  | [], _ => none
  | (k, v) :: t, key => if k = key then some v else snapLookup t key

/-- The snapshot-building loop of `compare_flows`:
`snapshots[snapshot["name"]] = snapshot` over the fetched flows. -/
def buildSnapshotMap (flows : List FlowRecord) (host : String) : List (String × Snapshot) :=
  flows.foldl (fun m f =>
    let s := build_snapshot f host
    snapMapSet m s.name s) []

/-- Host extraction of `compare_flows`:
`url.replace("https://", "").replace("http://", "").split('/')[0]`. -/
def hostFromUrl (url : String) : String :=
  let a := replaceAll "https://".data [] url.data
  let b := replaceAll "http://".data [] a
  String.mk (b.takeWhile (fun c => c ≠ '/'))

/-- The classification loop of `compare_flows` over the source snapshot
items: absent target name is `missing_in_target`; an error on either
side is `error`; equal hashes are `identical`; otherwise `different`,
with `compute_diff` and `compute_action_differences` run when
`include_diff_details` (their exceptions propagate and abort the whole
loop, as in Python).  Returns `(comparisons, identical_flows,
non_identical_flows, missing_in_target, errors)`. -/
def compareLoop (include_diff_details : Bool) (tmap : List (String × Snapshot)) :
    List (String × Snapshot) →
    Except String (List FlowComparisonEntry × List String × List String × List String × List String)
  | [] => .ok ([], [], [], [], [])
  | (name, source_snap) :: rest =>
    match snapLookup tmap name with
    | none =>
      (match compareLoop include_diff_details tmap rest with
       | .error e => .error e
       | .ok (cs, ids, nids, miss, errs) =>
           .ok (⟨name, source_snap, none, false, "missing_in_target", none, none⟩ :: cs,
                ids, nids, name :: miss, errs))
    | some target_snap =>
      if source_snap.error.isSome || target_snap.error.isSome then
        (match compareLoop include_diff_details tmap rest with
         | .error e => .error e
         | .ok (cs, ids, nids, miss, errs) =>
             .ok (⟨name, source_snap, some target_snap, false, "error", none, none⟩ :: cs,
                  ids, nids, miss, name :: errs))
      else
        let identical := source_snap.hash = target_snap.hash
        if identical then
          (match compareLoop include_diff_details tmap rest with
           | .error e => .error e
           | .ok (cs, ids, nids, miss, errs) =>
               .ok (⟨name, source_snap, some target_snap, true, "identical", none, none⟩ :: cs,
                    name :: ids, nids, miss, errs))
        else
          if include_diff_details then
            match compute_diff source_snap.canonical_json target_snap.canonical_json with
            | .error e => .error e
            | .ok d =>
              match compute_action_differences source_snap.canonical_json target_snap.canonical_json with
              | .error e => .error e
              | .ok ad =>
                (match compareLoop include_diff_details tmap rest with
                 | .error e => .error e
                 | .ok (cs, ids, nids, miss, errs) =>
                     .ok (⟨name, source_snap, some target_snap, false, "different", some d, some ad⟩ :: cs,
                          ids, name :: nids, miss, errs))
          else
            (match compareLoop include_diff_details tmap rest with
             | .error e => .error e
             | .ok (cs, ids, nids, miss, errs) =>
                 .ok (⟨name, source_snap, some target_snap, false, "different", none, none⟩ :: cs,
                      ids, name :: nids, miss, errs))

/-- `compare_flows` after the two fetches (the fetch collaborator is
external): extract hosts, build both name-keyed snapshot maps, classify
every source name, and aggregate counts. -/
def compare_flows_core (source_flows target_flows : List FlowRecord)
    (source_url target_url : String) (include_diff_details : Bool) :
    Except String CompareFlowsResult :=
  let source_host := hostFromUrl source_url
  let target_host := hostFromUrl target_url
  let smap := buildSnapshotMap source_flows source_host
  let tmap := buildSnapshotMap target_flows target_host
  match compareLoop include_diff_details tmap smap with
  | .error e => .error e
  | .ok (cs, ids, nids, miss, errs) =>
      .ok ⟨source_url, target_url, smap.map (fun p => p.2), tmap.map (fun p => p.2),
           cs, ids, nids, miss.length, miss, errs.length, errs, smap.length, tmap.length⟩

/-- Is the string exactly one GUID-shaped token (a full match of the
GUID regex)? -/
def isExactGuid (s : String) : Bool := s.data.length == 36 && guidAt s.data

mutual

/-- The GUID/host-substitution relation of the canonicalization
invariance property, at string-leaf granularity: both trees have the
same shape; corresponding string leaves are either two (possibly
different) exact GUIDs, or the two respective environment hosts, or one
identical string that both maskings leave unchanged; all other leaves
and all mapping keys coincide. -/
def relJ (hA hB : String) : Json → Json → Bool
  | .null, .null => true
  | .bool a, .bool b => a == b
  | .num a, .num b => a == b
  | .str a, .str b =>
      (isExactGuid a && isExactGuid b) ||
      (a == hA && b == hB) ||
      (a == b && maskFull hA a.data == a.data && maskFull hB b.data == b.data)
  | .arr a, .arr b => relA hA hB a b
  | .obj a, .obj b => relO hA hB a b
  | _, _ => false

/-- Pointwise `relJ` on arrays of equal length. -/
def relA (hA hB : String) : JArr → JArr → Bool
  | .nil, .nil => true
  | .cons x xs, .cons y ys => relJ hA hB x y && relA hA hB xs ys
  | _, _ => false

/-- Pointwise `relJ` on mappings with identical key sequences. -/
def relO (hA hB : String) : JObj → JObj → Bool
  | .nil, .nil => true
  | .cons k v t, .cons k2 v2 t2 => k == k2 && relJ hA hB v v2 && relO hA hB t t2
  | _, _ => false

end

/-- Does the host string avoid every character of the replacement token
`<ENV_HOST>` (true of real hostnames, which are lowercase)? -/
def hostAvoidsEnvTok (h : String) : Bool :=
  h.data.all (fun c => !envTok.contains c)

/-- Are the keys of a mapping pairwise distinct (always true of a real
Python dict)? -/
def nodupKeysB : JObj → Bool
  | .nil => true
  | .cons k _ t => !(JObj.keys t).contains k && nodupKeysB t

mutual

/-- Well-formedness of a tree as the image of a Python value: every
mapping has duplicate-free keys. -/
def wfJson : Json → Bool
  | .null => true
  | .bool _ => true
  | .num _ => true
  | .str _ => true
  | .arr xs => wfA xs
  | .obj kvs => nodupKeysB kvs && wfO kvs

/-- `wfJson` on array elements. -/
def wfA : JArr → Bool
  | .nil => true
  | .cons h t => wfJson h && wfA t

/-- `wfJson` on mapping values. -/
def wfO : JObj → Bool
  | .nil => true
  | .cons _ v t => wfJson v && wfO t

end

/-- Strict code-point comparison of strings. -/
def strLt (a b : String) : Bool := strLe a b && !(a == b)

/-- Are the keys of a mapping in strictly ascending order? -/
def adjSortedKeys : JObj → Bool
  | .nil => true
  | .cons _ _ .nil => true
  | .cons k _ (.cons k2 v2 t) => strLt k k2 && adjSortedKeys (.cons k2 v2 t)

mutual

/-- Is every mapping of the tree strictly key-sorted (the shape of
canonical output)? -/
def normObjs : Json → Bool
  | .null => true
  | .bool _ => true
  | .num _ => true
  | .str _ => true
  | .arr xs => normObjsA xs
  | .obj kvs => adjSortedKeys kvs && normObjsO kvs

/-- `normObjs` on array elements. -/
def normObjsA : JArr → Bool
  | .nil => true
  | .cons h t => normObjs h && normObjsA t

/-- `normObjs` on mapping values. -/
def normObjsO : JObj → Bool
  | .nil => true
  | .cons _ v t => normObjs v && normObjsO t

end

/-- The exclusion predicate as the specification words it: membership in
the ignore set, or a key that case-insensitively ends with `id`, or a
key that case-insensitively starts with `connection`. -/
def specExcludedCI (key : String) : Bool :=
  DEFAULT_IGNORE_KEYS.contains key ||
  (match (pyLower key).data.reverse with
   | 'd' :: 'i' :: _ => true
   | _ => false) ||
  "connection".data.isPrefixOf (pyLower key).data

/-- Concatenation of two mappings. -/
def objAppend : JObj → JObj → JObj
  | .nil, b => b
  | .cons k v t, b => JObj.cons k v (objAppend t b)

/-- The mapping the normalization loop produces over a fresh
accumulator: one entry per surviving key, holding the (already
traversed) value looked up in `src`. -/
def gatherNorm (src : JObj) : List String → JObj
  | [] => .nil
  | k :: ks =>
      if should_ignore k then gatherNorm src ks
      else JObj.cons k (JObj.getD src k) (gatherNorm src ks)

/-- The key-exclusion condition actually implemented by `should_ignore`,
spelled out: ignore-list membership; or the key ends in `id` or `Id`
(lowercase `d`) with no newline before it, optionally followed by one
final newline (the `$` of the regex); or the lower-cased key starts with
`connection`. -/
def excludedKeyAmended (k : String) : Prop :=
  k ∈ DEFAULT_IGNORE_KEYS ∨
  (∃ p c, k.data = p ++ [c, 'd'] ∧ (c = 'i' ∨ c = 'I') ∧ '\n' ∉ p) ∨
  (∃ p c, k.data = p ++ [c, 'd', '\n'] ∧ (c = 'i' ∨ c = 'I') ∧ '\n' ∉ p) ∨
  "connection".data.isPrefixOf (k.data.map Char.toLower)

/-- The last record of a flow list whose snapshot name is a given name
(the record whose snapshot the name-keyed dict retains). -/
def lastNamed (host n : String) : List FlowRecord → Option FlowRecord
  | [] => none
  | f :: t =>
      match lastNamed host n t with
      | some g => some g
      | none => if (build_snapshot f host).name = n then some f else none

/-- A flow definition whose action collection is a mapping (used as a
concrete orchestrator input). -/
def mkActionFlow (wid name : String) (actions : JObj) : FlowRecord :=
  ⟨some wid, some name,
   some (.obj (.cons "properties"
     (.obj (.cons "definition" (.obj (.cons "actions" (.obj actions) .nil)) .nil))
     .nil))⟩

/-- Source-side concrete flow for the orchestrator evaluations. -/
def c9SrcFlow : FlowRecord :=
  mkActionFlow "w1" "ApprovalFlow" (.cons "Step1" (.obj (.cons "type" (.str "Http") .nil)) .nil)

/-- Target-side concrete flow differing in one action property. -/
def c9TgtFlow : FlowRecord :=
  mkActionFlow "w2" "ApprovalFlow" (.cons "Step1" (.obj (.cons "type" (.str "Wait") .nil)) .nil)

/-- A fallback aggregate (never reached on the concrete inputs). -/
def emptyCompareResult : CompareFlowsResult :=
  ⟨"", "", [], [], [], [], [], 0, [], 0, [], 0, 0⟩

/-- The orchestrator result on the concrete differing pair. -/
def c9Result : CompareFlowsResult :=
  match compare_flows_core [c9SrcFlow] [c9TgtFlow]
      "https://s.crm.dynamics.com" "https://t.crm.dynamics.com" true with
  | .ok r => r
  | .error _ => emptyCompareResult

/-- A fallback snapshot (never reached on the concrete inputs). -/
def emptySnapshot : Snapshot := ⟨"", "", "", "", "", none⟩

/-- The single comparison entry of the concrete run. -/
def c9Entry : FlowComparisonEntry :=
  (c9Result.comparisons.head?).getD ⟨"", emptySnapshot, none, false, "", none, none⟩

/-- The target snapshot of that entry. -/
def c9Target : Snapshot := c9Entry.target.getD emptySnapshot

/-- A flow whose `definition.actions` is a JSON array, not a mapping
(legal JSON the canonicalizer passes through untouched). -/
def crashFlowA : FlowRecord :=
  ⟨some "w1", some "F",
   some (.obj (.cons "definition" (.obj (.cons "actions" (.arr (.cons (.num 1) .nil)) .nil)) .nil))⟩

/-- The same flow with a different array element, so the hashes differ
and the orchestrator reaches the action differ. -/
def crashFlowB : FlowRecord :=
  ⟨some "w2", some "F",
   some (.obj (.cons "definition" (.obj (.cons "actions" (.arr (.cons (.num 2) .nil)) .nil)) .nil))⟩

/-- Concrete first flow definition string for the action differ. -/
def c6JsonA : String :=
  "\x7b\"definition\":\x7b\"actions\":\x7b\"Common\":\x7b\"type\":\"Http\"\x7d,\"Gone\":\x7b\"type\":\"Wait\"\x7d,\"Same\":\x7b\"type\":\"Noop\"\x7d\x7d\x7d\x7d"

/-- Concrete second flow definition string for the action differ. -/
def c6JsonB : String :=
  "\x7b\"definition\":\x7b\"actions\":\x7b\"Common\":\x7b\"type\":\"Mail\"\x7d,\"New\":\x7b\"type\":\"Post\"\x7d,\"Same\":\x7b\"type\":\"Noop\"\x7d\x7d\x7d\x7d"

/-- The action-difference list of the concrete pair. -/
def c6List : List ActionDifference :=
  match compute_action_differences c6JsonA c6JsonB with
  | .ok l => l
  | .error _ => []

/-- The first action mapping of the concrete pair. -/
def c6A : JObj :=
  match actionsOrEmpty (extract_actions c6JsonA) with
  | .obj o => o
  | _ => .nil

/-- The second action mapping of the concrete pair. -/
def c6B : JObj :=
  match actionsOrEmpty (extract_actions c6JsonB) with
  | .obj o => o
  | _ => .nil


/-- Two source flows sharing one name: the dict keeps only the later
record, whose content matches the target. -/
def c10SrcFlows : List FlowRecord :=
  [mkActionFlow "w1" "Dup" (.cons "A" (.num 1) .nil),
   mkActionFlow "w2" "Dup" (.cons "A" (.num 2) .nil)]

/-- One target flow with the shared name, equal to the later source
record. -/
def c10TgtFlows : List FlowRecord :=
  [mkActionFlow "w3" "Dup" (.cons "A" (.num 2) .nil)]

/-- The orchestrator result on the duplicate-name inventories. -/
def c10Result : CompareFlowsResult :=
  match compare_flows_core c10SrcFlows c10TgtFlows
      "https://s.crm.dynamics.com" "https://t.crm.dynamics.com" true with
  | .ok r => r
  | .error _ => emptyCompareResult


/-- Source-side tree of the GUID/host-invariance witness: a plain leaf,
an exact GUID leaf, and a leaf holding exactly the source host. -/
def c1TreeA : Json :=
  .obj (.cons "flow" (.str "My Flow")
    (.cons "g" (.str "aaaaaaaa-aaaa-aaaa-aaaa-aaaaaaaaaaaa")
      (.cons "h" (.str "src.crm.dynamics.com") .nil)))

/-- Target-side tree of the witness: same shape with a different GUID
and the target host. -/
def c1TreeB : Json :=
  .obj (.cons "flow" (.str "My Flow")
    (.cons "g" (.str "bbbbbbbb-bbbb-bbbb-bbbb-bbbbbbbbbbbb")
      (.cons "h" (.str "tgt.crm.dynamics.com") .nil)))


/-- Does `should_ignore` keep every key of the mapping? -/
def keysNotIgnored : JObj → Bool
  | .nil => true
  | .cons k _ t => !should_ignore k && keysNotIgnored t

/-- The values of a mapping, in order. -/
def objValues : JObj → List Json
  | .nil => []
  | .cons _ v t => v :: objValues t

mutual

/-- Canonical form with respect to host `h`: every mapping is strictly
key-sorted and free of ignorable keys, and every string is fixed by both
masking passes.  `traverse` maps well-formed trees into this form and is
the identity on it. -/
def canonicalP (h : String) : Json → Bool
  | .null => true
  | .bool _ => true
  | .num _ => true
  | .str s => maskFull h s.data == s.data
  | .arr xs => canonicalPA h xs
  | .obj kvs => adjSortedKeys kvs && keysNotIgnored kvs && canonicalPO h kvs

/-- `canonicalP` on array elements. -/
def canonicalPA (h : String) : JArr → Bool
  | .nil => true
  | .cons x t => canonicalP h x && canonicalPA h t

/-- `canonicalP` on mapping values. -/
def canonicalPO (h : String) : JObj → Bool
  | .nil => true
  | .cons _ v t => canonicalP h v && canonicalPO h t

end


/-- Characters that may legally follow a serialized value inside a
larger serialized document: a separator, a closing bracket or brace, or
the end of input.  (What the number parser may see after a digit run.) -/
def goodFollow : List Char → Bool
  | [] => true
  | c :: _ => c = ',' || c = ']' || c = '\x7d'


theorem natDigitsF_ne_nil : ∀ f n, natDigitsF f n ≠ [] := by
  intro f n
  cases f with
  | zero => simp [natDigitsF]
  | succ f =>
    unfold natDigitsF
    by_cases h : n < 10 <;> simp [h]

theorem intRepr_ne_nil : ∀ n, intRepr n ≠ [] := by
  intro n
  cases n with
  | ofNat m => simpa [intRepr, natRepr] using natDigitsF_ne_nil m m
  | negSucc m => simp [intRepr]

theorem serJson_ne_nil (j : Json) : serJson j ≠ [] := by
  cases j with
  | null => simp [serJson]
  | bool b => cases b <;> simp [serJson]
  | num n => simpa [serJson] using intRepr_ne_nil n
  | str s => simp [serJson, serStr]
  | arr xs => simp [serJson]
  | obj kvs => simp [serJson]

theorem string_mk_ne_empty {l : List Char} (h : l ≠ []) : String.mk l ≠ "" := by
  intro he
  apply h
  have : (String.mk l).data = ("" : String).data := by rw [he]
  simpa using this

theorem normalize_ne_empty (j : Json) (env_host : String) :
    normalize_flow_definition j env_host ≠ "" := by
  unfold normalize_flow_definition
  exact string_mk_ne_empty (serJson_ne_nil _)

theorem compressStep_length (st : List Nat) (wk : Nat × Nat) :
    (compressStep st wk).length = st.length := by
  unfold compressStep
  split <;> simp_all

theorem foldl_compressStep_length (l : List (Nat × Nat)) :
    ∀ st : List Nat, (l.foldl compressStep st).length = st.length := by
  induction l with
  | nil => intro st; rfl
  | cons x t ih =>
    intro st
    simp only [List.foldl_cons]
    rw [ih, compressStep_length]

theorem sha256Chunk_length (hs chunk : List Nat) (h : hs.length = 8) :
    (sha256Chunk hs chunk).length = 8 := by
  unfold sha256Chunk
  rw [List.length_zipWith, foldl_compressStep_length, h]
  simp

theorem foldl_sha256Chunk_length (l : List (List Nat)) :
    ∀ hs : List Nat, hs.length = 8 → (l.foldl sha256Chunk hs).length = 8 := by
  induction l with
  | nil => intro hs h; simpa using h
  | cons x t ih =>
    intro hs h
    simp only [List.foldl_cons]
    exact ih _ (sha256Chunk_length _ _ h)

theorem flatMap_wordBytes_length : ∀ l : List Nat, (l.flatMap wordBytes).length = 4 * l.length := by
  intro l
  induction l with
  | nil => simp
  | cons a t ih => simp [wordBytes, ih]; omega

theorem sha256_length (msg : List Nat) : (sha256 msg).length = 32 := by
  unfold sha256
  dsimp only
  rw [flatMap_wordBytes_length, foldl_sha256Chunk_length _ sha256Init (by rfl)]

theorem sha256_ne_nil (msg : List Nat) : sha256 msg ≠ [] := by
  intro h
  have := sha256_length msg
  rw [h] at this
  simp at this

theorem bytesToHexStr_ne_nil {bs : List Nat} (h : bs ≠ []) : bytesToHexStr bs ≠ [] := by
  match bs with
  | [] => exact absurd rfl h
  | b :: t => simp [bytesToHexStr]

theorem compute_hash_ne_empty (s : String) : compute_hash s ≠ "" := by
  unfold compute_hash
  exact string_mk_ne_empty (bytesToHexStr_ne_nil (sha256_ne_nil _))

/-- C4.  Every snapshot `build_snapshot` returns satisfies the
exclusive-or invariant: either the canonical JSON and the hash are both
non-empty and the error is null, or both are empty and the error is
non-null — never a mixture. -/
theorem c4_snapshot_invariant (flow : FlowRecord) (env_host : String) :
    ((build_snapshot flow env_host).canonical_json ≠ "" ∧
     (build_snapshot flow env_host).hash ≠ "" ∧
     (build_snapshot flow env_host).error = none) ∨
    ((build_snapshot flow env_host).canonical_json = "" ∧
     (build_snapshot flow env_host).hash = "" ∧
     (build_snapshot flow env_host).error ≠ none) := by
  unfold build_snapshot
  cases flow.clientdata with
  | none => right; simp
  | some cd =>
    by_cases hf : isFalsy cd = true
    · right; simp [hf]
    · simp only [hf, Bool.false_eq_true, if_false]
      split
      · right; simp
      · left
        refine ⟨normalize_ne_empty _ _, compute_hash_ne_empty _, rfl⟩

/-- C8 counterexample.  A flow whose `clientdata` is absent gets the
error string `clientdata missing or empty` — not the
`definition missing or empty` the specification states. -/
theorem c8_counterexample :
    (build_snapshot ⟨some "w1", some "Flow", none⟩ "host").error
        = some "clientdata missing or empty" ∧
    (build_snapshot ⟨some "w1", some "Flow", none⟩ "host").error
        ≠ some "definition missing or empty" := by
  constructor
  · rfl
  · decide

/-- C8 (amended).  When a flow record's raw definition is absent, null,
or the empty string, `build_snapshot` returns a snapshot whose error is
the string `clientdata missing or empty` and whose canonical JSON and
hash are empty. -/
theorem c8_missing_clientdata (flow : FlowRecord) (env_host : String)
    (h : flow.clientdata = none ∨ flow.clientdata = some Json.null ∨
         flow.clientdata = some (Json.str "")) :
    (build_snapshot flow env_host).error = some "clientdata missing or empty" ∧
    (build_snapshot flow env_host).canonical_json = "" ∧
    (build_snapshot flow env_host).hash = "" := by
  rcases h with h | h | h <;> simp [build_snapshot, h, isFalsy]

/-- C8 witness: the amended statement at a concrete null-definition
record. -/
theorem c8_missing_clientdata_witness :
    ((⟨some "w1", some "Flow", some Json.null⟩ : FlowRecord).clientdata = none ∨
     (⟨some "w1", some "Flow", some Json.null⟩ : FlowRecord).clientdata = some Json.null ∨
     (⟨some "w1", some "Flow", some Json.null⟩ : FlowRecord).clientdata = some (Json.str "")) ∧
    (build_snapshot ⟨some "w1", some "Flow", some Json.null⟩ "host").error
      = some "clientdata missing or empty" := by
  refine ⟨Or.inr (Or.inl rfl), ?_⟩
  exact (c8_missing_clientdata ⟨some "w1", some "Flow", some Json.null⟩ "host"
    (Or.inr (Or.inl rfl))).1

theorem charListLe_total : ∀ a b : List Char, charListLe a b = true ∨ charListLe b a = true := by
  intro a
  induction a with
  | nil => intro b; left; rfl
  | cons x xs ih =>
    intro b
    cases b with
    | nil => right; rfl
    | cons y ys =>
      by_cases h : x = y
      · subst h
        simpa [charListLe] using ih ys
      · rcases lt_trichotomy x y with hlt | heq | hgt
        · left; simp [charListLe, h, hlt]
        · exact absurd heq h
        · right; simp [charListLe, Ne.symm h, hgt]

theorem charListLe_trans : ∀ a b c : List Char,
    charListLe a b = true → charListLe b c = true → charListLe a c = true := by
  intro a
  induction a with
  | nil => intros; rfl
  | cons x xs ih =>
    intro b c hab hbc
    cases b with
    | nil => simp [charListLe] at hab
    | cons y ys =>
      cases c with
      | nil => simp [charListLe] at hbc
      | cons z zs =>
        by_cases hxy : x = y <;> by_cases hyz : y = z
        · subst hxy; subst hyz
          simp only [charListLe, if_pos rfl] at hab hbc ⊢
          exact ih ys zs hab hbc
        · subst hxy
          simp only [charListLe, if_pos rfl] at hab
          simp only [charListLe, if_neg hyz] at hbc
          simp [charListLe, hyz, of_decide_eq_true hbc]
        · subst hyz
          simp only [charListLe, if_neg hxy] at hab
          simp [charListLe, hxy, of_decide_eq_true hab]
        · simp only [charListLe, if_neg hxy] at hab
          simp only [charListLe, if_neg hyz] at hbc
          have hlt := lt_trans (of_decide_eq_true hab) (of_decide_eq_true hbc)
          simp [charListLe, ne_of_lt hlt, hlt]

theorem charListLe_antisymm : ∀ a b : List Char,
    charListLe a b = true → charListLe b a = true → a = b := by
  intro a
  induction a with
  | nil =>
    intro b _ hba
    cases b with
    | nil => rfl
    | cons y ys => simp [charListLe] at hba
  | cons x xs ih =>
    intro b hab hba
    cases b with
    | nil => simp [charListLe] at hab
    | cons y ys =>
      by_cases h : x = y
      · subst h
        simp only [charListLe, if_pos rfl] at hab hba
        rw [ih ys hab hba]
      · simp only [charListLe, if_neg h, if_neg (Ne.symm h)] at hab hba
        exact absurd (of_decide_eq_true hba) (lt_asymm (of_decide_eq_true hab))

theorem strLe_total (a b : String) : strLe a b = true ∨ strLe b a = true :=
  charListLe_total a.data b.data

theorem strLe_trans {a b c : String} (h1 : strLe a b = true) (h2 : strLe b c = true) :
    strLe a c = true :=
  charListLe_trans a.data b.data c.data h1 h2

theorem strLe_antisymm {a b : String} (h1 : strLe a b = true) (h2 : strLe b a = true) :
    a = b := by
  cases a with
  | mk da =>
    cases b with
    | mk db =>
      have := charListLe_antisymm da db h1 h2
      rw [this]

theorem strLe_refl (a : String) : strLe a a = true := by
  rcases strLe_total a a with h | h <;> exact h

theorem mem_insertStr : ∀ (l : List String) (x y : String),
    y ∈ insertStr x l ↔ y = x ∨ y ∈ l := by
  intro l x
  induction l with
  | nil => intro y; simp [insertStr]
  | cons z t ih =>
    intro y
    by_cases h : strLe x z = true
    · simp [insertStr, h]
    · simp only [insertStr, if_neg h, List.mem_cons, ih]
      tauto

theorem insertStr_pairwise : ∀ (l : List String) (x : String),
    l.Pairwise (fun a b => strLe a b = true) →
    (insertStr x l).Pairwise (fun a b => strLe a b = true) := by
  intro l x
  induction l with
  | nil => intro _; simp [insertStr]
  | cons z t ih =>
    intro hp
    rw [List.pairwise_cons] at hp
    obtain ⟨hz, ht⟩ := hp
    by_cases h : strLe x z = true
    · simp only [insertStr, if_pos h]
      rw [List.pairwise_cons]
      refine ⟨?_, ?_⟩
      · intro y hy
        rcases List.mem_cons.mp hy with rfl | hyt
        · exact h
        · exact strLe_trans h (hz y hyt)
      · rw [List.pairwise_cons]
        exact ⟨hz, ht⟩
    · have hzx : strLe z x = true := by
        rcases strLe_total x z with h2 | h2
        · exact absurd h2 h
        · exact h2
      simp only [insertStr, if_neg h]
      rw [List.pairwise_cons]
      refine ⟨?_, ih ht⟩
      intro y hy
      rcases (mem_insertStr t x y).mp hy with rfl | hyt
      · exact hzx
      · exact hz y hyt

theorem mem_sortStrs : ∀ (l : List String) (x : String), x ∈ sortStrs l ↔ x ∈ l := by
  intro l
  induction l with
  | nil => intro x; simp [sortStrs]
  | cons z t ih =>
    intro x
    simp only [sortStrs, mem_insertStr, List.mem_cons, ih]

theorem sortStrs_pairwise (l : List String) :
    (sortStrs l).Pairwise (fun a b => strLe a b = true) := by
  induction l with
  | nil => simp [sortStrs]
  | cons z t ih => exact insertStr_pairwise _ z ih

theorem mem_dedupSorted : ∀ (l : List String) (x : String), x ∈ dedupSorted l ↔ x ∈ l := by
  intro l
  induction l using dedupSorted.induct with
  | case1 => intro x; simp [dedupSorted]
  | case2 y => intro x; simp [dedupSorted]
  | case3 z t ih =>
    intro x
    have he : dedupSorted (z :: z :: t) = dedupSorted (z :: t) := by simp [dedupSorted]
    rw [he, ih x]
    simp only [List.mem_cons]
    tauto
  | case4 y z t hne ih =>
    intro x
    simp only [dedupSorted, if_neg hne, List.mem_cons, ih]

theorem dedupSorted_pairwise : ∀ l : List String,
    l.Pairwise (fun a b => strLe a b = true) →
    (dedupSorted l).Pairwise (fun a b => strLe a b = true ∧ a ≠ b) := by
  intro l
  induction l using dedupSorted.induct with
  | case1 => intro _; simp [dedupSorted]
  | case2 y => intro _; simp [dedupSorted]
  | case3 z t ih =>
    intro hp
    have he : dedupSorted (z :: z :: t) = dedupSorted (z :: t) := by simp [dedupSorted]
    rw [he]
    exact ih (List.Pairwise.sublist (List.sublist_cons_self z (z :: t)) hp)
  | case4 y z t hne ih =>
    intro hp
    rw [List.pairwise_cons] at hp
    obtain ⟨hy, ht⟩ := hp
    simp only [dedupSorted, if_neg hne]
    rw [List.pairwise_cons]
    refine ⟨?_, ih ht⟩
    intro w hw
    have hwzt : w ∈ z :: t := (mem_dedupSorted _ w).mp hw
    refine ⟨hy w hwzt, ?_⟩
    intro hyw
    subst hyw
    rcases List.mem_cons.mp hwzt with h1 | h1
    · exact hne h1
    · rw [List.pairwise_cons] at ht
      have hzy : strLe z y = true := ht.1 y h1
      have hyz : strLe y z = true := hy z (List.mem_cons_self z t)
      exact hne (strLe_antisymm hyz hzy)

theorem sorted_strict_ext : ∀ l1 l2 : List String,
    l1.Pairwise (fun a b => strLe a b = true ∧ a ≠ b) →
    l2.Pairwise (fun a b => strLe a b = true ∧ a ≠ b) →
    (∀ x, x ∈ l1 ↔ x ∈ l2) → l1 = l2 := by
  intro l1
  induction l1 with
  | nil =>
    intro l2 _ _ hm
    cases l2 with
    | nil => rfl
    | cons b t2 => exact absurd ((hm b).mpr (List.mem_cons_self b t2)) (List.not_mem_nil b)
  | cons a t1 ih =>
    intro l2 h1 h2 hm
    cases l2 with
    | nil => exact absurd ((hm a).mp (List.mem_cons_self a t1)) (List.not_mem_nil a)
    | cons b t2 =>
      rw [List.pairwise_cons] at h1 h2
      have hab : a = b := by
        rcases List.mem_cons.mp ((hm a).mp (List.mem_cons_self a t1)) with h | h
        · exact h
        · rcases List.mem_cons.mp ((hm b).mpr (List.mem_cons_self b t2)) with h3 | h3
          · exact h3.symm
          · have hba := h1.1 b h3
            have hab2 := h2.1 a h
            exact absurd (strLe_antisymm hba.1 hab2.1) hba.2
      subst hab
      have htm : ∀ x, x ∈ t1 ↔ x ∈ t2 := by
        intro x
        constructor
        · intro hx
          rcases List.mem_cons.mp ((hm x).mp (List.mem_cons_of_mem a hx)) with h | h
          · exact absurd h.symm (h1.1 x hx).2
          · exact h
        · intro hx
          rcases List.mem_cons.mp ((hm x).mpr (List.mem_cons_of_mem a hx)) with h | h
          · exact absurd h.symm (h2.1 x hx).2
          · exact h
      exact congrArg (List.cons a) (ih t2 h1.2 h2.2 htm)

theorem mem_pySet (l : List String) (x : String) : x ∈ pySet l ↔ x ∈ l := by
  unfold pySet
  rw [mem_dedupSorted, mem_sortStrs]

theorem pySet_pairwise (l : List String) :
    (pySet l).Pairwise (fun a b => strLe a b = true ∧ a ≠ b) :=
  dedupSorted_pairwise _ (sortStrs_pairwise l)

theorem mem_setMinus (a b : List String) (x : String) :
    x ∈ setMinus a b ↔ x ∈ a ∧ x ∉ b := by
  unfold setMinus
  rw [List.mem_filter]
  simp [List.elem_iff]

theorem mem_setInter (a b : List String) (x : String) :
    x ∈ setInter a b ↔ x ∈ a ∧ x ∈ b := by
  unfold setInter
  rw [List.mem_filter]
  simp [List.elem_iff]

theorem setInter_pairwise (a b : List String) :
    (setInter (pySet a) b).Pairwise (fun x y => strLe x y = true ∧ x ≠ y) :=
  List.Pairwise.filter _ (pySet_pairwise a)

theorem setMinus_pairwise (a b : List String) :
    (setMinus (pySet a) b).Pairwise (fun x y => strLe x y = true ∧ x ≠ y) :=
  List.Pairwise.filter _ (pySet_pairwise a)

theorem setInter_comm (a b : List String) :
    setInter (pySet a) (pySet b) = setInter (pySet b) (pySet a) := by
  apply sorted_strict_ext _ _ (setInter_pairwise a (pySet b)) (setInter_pairwise b (pySet a))
  intro x
  rw [mem_setInter, mem_setInter]
  tauto

theorem setMinus_self (s : List String) : setMinus s s = [] := by
  unfold setMinus
  rw [List.filter_eq_nil_iff]
  intro x hx
  simp [List.elem_iff, hx]

theorem diffSymmAux : ∀ f : Nat,
    (∀ a b path, (cmpElemsF f a b path).added = (cmpElemsF f b a path).removed ∧
                 (cmpElemsF f a b path).removed = (cmpElemsF f b a path).added) ∧
    (∀ ks oa ob path,
        (cmpCommonF f ks oa ob path).added = (cmpCommonF f ks ob oa path).removed ∧
        (cmpCommonF f ks oa ob path).removed = (cmpCommonF f ks ob oa path).added) ∧
    (∀ as2 bs path i,
        (cmpListsF f as2 bs path i).added = (cmpListsF f bs as2 path i).removed ∧
        (cmpListsF f as2 bs path i).removed = (cmpListsF f bs as2 path i).added) := by
  intro f
  induction f with
  | zero => simp [cmpElemsF, cmpCommonF, cmpListsF]
  | succ f ih =>
    obtain ⟨ihE, ihC, ihL⟩ := ih
    refine ⟨?_, ?_, ?_⟩
    · intro a b path
      by_cases ht : pyType a = pyType b
      · have ht2 : ¬pyType a ≠ pyType b := by simp [ht]
        have ht3 : ¬pyType b ≠ pyType a := by simp [ht]
        cases a <;> cases b <;> simp [pyType] at ht <;>
          simp only [cmpElemsF, ht2, ht3, if_false]
        case pos.null.null => constructor <;> (split <;> rfl)
        case pos.bool.bool b1 b2 => constructor <;> (split <;> split <;> rfl)
        case pos.num.num n1 n2 => constructor <;> (split <;> split <;> rfl)
        case pos.str.str s1 s2 => constructor <;> (split <;> split <;> rfl)
        case pos.arr.arr xa xb =>
          simpa using ihL (JArr.toList xa) (JArr.toList xb) path 0
        case pos.obj.obj oa ob =>
          rw [setInter_comm]
          have hc := ihC (setInter (pySet (JObj.keys ob)) (pySet (JObj.keys oa))) oa ob path
          simp only [diffAppend]
          constructor <;> simp [hc.1, hc.2]
      · have ht2 : pyType b ≠ pyType a := fun hh => ht hh.symm
        simp [cmpElemsF, ht, ht2]
    · intro ks oa ob path
      cases ks with
      | nil => simp [cmpCommonF]
      | cons k t =>
        have he := ihE (JObj.getD oa k) (JObj.getD ob k) (path ++ "." ++ k)
        have hc := ihC t oa ob path
        simp only [cmpCommonF, diffAppend]
        constructor <;> simp [he.1, he.2, hc.1, hc.2]
    · intro as2 bs path i
      cases as2 with
      | nil =>
        cases bs with
        | nil => simp [cmpListsF]
        | cons b tb =>
          have hl := ihL [] tb path (i + 1)
          simp only [cmpListsF, diffAppend]
          constructor <;> simp [hl.1, hl.2]
      | cons a ta =>
        cases bs with
        | nil =>
          have hl := ihL ta [] path (i + 1)
          simp only [cmpListsF, diffAppend]
          constructor <;> simp [hl.1, hl.2]
        | cons b tb =>
          have he := ihE a b (path ++ "[" ++ String.mk (natRepr i) ++ "]")
          have hl := ihL ta tb path (i + 1)
          simp only [cmpListsF, diffAppend]
          constructor <;> simp [he.1, he.2, hl.1, hl.2]

theorem diffDiagAux : ∀ f : Nat,
    (∀ a path, cmpElemsF f a a path = ⟨[], [], []⟩) ∧
    (∀ ks oa path, cmpCommonF f ks oa oa path = ⟨[], [], []⟩) ∧
    (∀ as2 path i, cmpListsF f as2 as2 path i = ⟨[], [], []⟩) := by
  intro f
  induction f with
  | zero => simp [cmpElemsF, cmpCommonF, cmpListsF]
  | succ f ih =>
    obtain ⟨ihE, ihC, ihL⟩ := ih
    refine ⟨?_, ?_, ?_⟩
    · intro a path
      have htt : ¬pyType a ≠ pyType a := by simp
      cases a <;> simp only [cmpElemsF, htt, if_false]
      case null => simp
      case bool b => simp
      case num n => simp
      case str s => simp
      case arr xs => simpa using ihL (JArr.toList xs) path 0
      case obj kvs =>
        rw [setMinus_self, ihC]
        simp [diffAppend]
    · intro ks oa path
      cases ks with
      | nil => simp [cmpCommonF]
      | cons k t =>
        simp [cmpCommonF, ihE, ihC, diffAppend]
    · intro as2 path i
      cases as2 with
      | nil => simp [cmpListsF]
      | cons a t =>
        simp [cmpListsF, ihE, ihL, diffAppend]

/-- C5.  The tree differ is symmetric — the `added` paths of
`compare_elements(a, b)` are exactly the `removed` paths of
`compare_elements(b, a)` and vice versa — and comparing a tree with
itself yields no `added`, `removed` or `changed` entries.  (Python
iterates the key sets in an implementation-defined set order; the model
fixes the ascending order, under which the path lists coincide
exactly.) -/
theorem c5_diff_symmetry (a b : Json) :
    (compare_elements a b).added = (compare_elements b a).removed ∧
    (compare_elements a b).removed = (compare_elements b a).added ∧
    compare_elements a a = ⟨[], [], []⟩ := by
  unfold compare_elements
  have hsym := (diffSymmAux (jcount a + jcount b)).1 a b "$"
  have hdiag := (diffDiagAux (jcount a + jcount a)).1 a "$"
  rw [Nat.add_comm (jcount b) (jcount a)]
  exact ⟨hsym.1, hsym.2, hdiag⟩

theorem reMatchIdDollar_iff (k : String) :
    reMatchIdDollar k = true ↔
      ((∃ p c, k.data = p ++ [c, 'd'] ∧ (c = 'i' ∨ c = 'I') ∧ '\n' ∉ p) ∨
       (∃ p c, k.data = p ++ [c, 'd', '\n'] ∧ (c = 'i' ∨ c = 'I') ∧ '\n' ∉ p)) := by
  unfold reMatchIdDollar
  rw [Bool.or_eq_true]
  constructor
  · intro h
    rcases h with h | h
    · left
      split at h
      case h_2 => simp at h
      case h_1 c rest heq =>
        rw [Bool.and_eq_true, Bool.or_eq_true] at h
        refine ⟨rest.reverse, c, ?_, ?_, ?_⟩
        · rw [← List.reverse_reverse k.data, heq]
          simp
        · rcases h.1 with h1 | h1
          · left; exact of_decide_eq_true h1
          · right; exact of_decide_eq_true h1
        · rw [List.all_eq_true] at h
          intro hmem
          have := h.2 '\n' (List.mem_reverse.mp hmem)
          simp at this
    · right
      split at h
      case h_2 => simp at h
      case h_1 c rest heq =>
        rw [Bool.and_eq_true, Bool.or_eq_true] at h
        refine ⟨rest.reverse, c, ?_, ?_, ?_⟩
        · rw [← List.reverse_reverse k.data, heq]
          simp
        · rcases h.1 with h1 | h1
          · left; exact of_decide_eq_true h1
          · right; exact of_decide_eq_true h1
        · rw [List.all_eq_true] at h
          intro hmem
          have := h.2 '\n' (List.mem_reverse.mp hmem)
          simp at this
  · intro h
    rcases h with ⟨p, c, hk, hc, hp⟩ | ⟨p, c, hk, hc, hp⟩
    · left
      have hrev : k.data.reverse = 'd' :: c :: p.reverse := by
        rw [hk]; simp
      rw [hrev]
      have hred : (match ('d' :: c :: p.reverse : List Char) with
          | 'd' :: c2 :: rest => (decide (c2 = 'i') || decide (c2 = 'I')) &&
              rest.all fun x => decide (x ≠ '\n')
          | _ => false) = ((decide (c = 'i') || decide (c = 'I')) &&
              p.reverse.all fun x => decide (x ≠ '\n')) := rfl
      rw [hred, Bool.and_eq_true, Bool.or_eq_true]
      refine ⟨?_, ?_⟩
      · rcases hc with hc | hc
        · left; exact decide_eq_true hc
        · right; exact decide_eq_true hc
      · rw [List.all_eq_true]
        intro x hx
        have hxp : x ∈ p := List.mem_reverse.mp hx
        have : x ≠ '\n' := fun he => hp (he ▸ hxp)
        exact decide_eq_true this
    · right
      have hrev : k.data.reverse = '\n' :: 'd' :: c :: p.reverse := by
        rw [hk]; simp
      rw [hrev]
      have hred : (match ('\n' :: 'd' :: c :: p.reverse : List Char) with
          | '\n' :: 'd' :: c2 :: rest => (decide (c2 = 'i') || decide (c2 = 'I')) &&
              rest.all fun x => decide (x ≠ '\n')
          | _ => false) = ((decide (c = 'i') || decide (c = 'I')) &&
              p.reverse.all fun x => decide (x ≠ '\n')) := rfl
      rw [hred, Bool.and_eq_true, Bool.or_eq_true]
      refine ⟨?_, ?_⟩
      · rcases hc with hc | hc
        · left; exact decide_eq_true hc
        · right; exact decide_eq_true hc
      · rw [List.all_eq_true]
        intro x hx
        have hxp : x ∈ p := List.mem_reverse.mp hx
        have : x ≠ '\n' := fun he => hp (he ▸ hxp)
        exact decide_eq_true this

theorem should_ignore_iff (k : String) :
    should_ignore k = true ↔ excludedKeyAmended k := by
  unfold should_ignore excludedKeyAmended
  rw [Bool.or_eq_true, Bool.or_eq_true]
  rw [reMatchIdDollar_iff]
  constructor
  · intro h
    rcases h with (h | h) | h
    · left; exact (List.elem_iff).mp h
    · rcases h with h | h
      · right; left; exact h
      · right; right; left; exact h
    · right; right; right
      unfold startsWithConnection pyLower at h
      exact h
  · intro h
    rcases h with h | h | h | h
    · left; left; exact (List.elem_iff).mpr h
    · left; right; left; exact h
    · left; right; right; exact h
    · right
      unfold startsWithConnection pyLower
      exact h

theorem insertStr_perm (x : String) (l : List String) : List.Perm (insertStr x l) (x :: l) := by
  induction l with
  | nil => simp [insertStr]
  | cons y t ih =>
    by_cases h : strLe x y = true
    · simp [insertStr, h]
    · simp only [insertStr, if_neg h]
      exact List.Perm.trans (List.Perm.cons y ih) (List.Perm.swap x y t)

theorem sortStrs_perm (l : List String) : List.Perm (sortStrs l) l := by
  induction l with
  | nil => simp [sortStrs]
  | cons y t ih =>
    exact List.Perm.trans (insertStr_perm y (sortStrs t)) (List.Perm.cons y ih)

theorem sortStrs_nodup {l : List String} (h : l.Nodup) : (sortStrs l).Nodup :=
  ((sortStrs_perm l).nodup_iff).mpr h

theorem jobjTailInd {motive : JObj → Prop} (h0 : motive .nil)
    (h1 : ∀ k v t, motive t → motive (.cons k v t)) : ∀ o : JObj, motive o
  | .nil => h0
  | .cons k v t => h1 k v t (jobjTailInd h0 h1 t)

theorem jarrTailInd {motive : JArr → Prop} (h0 : motive .nil)
    (h1 : ∀ v t, motive t → motive (.cons v t)) : ∀ a : JArr, motive a
  | .nil => h0
  | .cons v t => h1 v t (jarrTailInd h0 h1 t)

theorem nodupKeysB_nodup : ∀ kvs : JObj, nodupKeysB kvs = true → (JObj.keys kvs).Nodup := by
  intro kvs
  induction kvs using jobjTailInd with
  | h0 => intro _; simp [JObj.keys]
  | h1 k v t ih =>
    intro h
    rw [nodupKeysB, Bool.and_eq_true] at h
    rw [JObj.keys, List.nodup_cons]
    refine ⟨?_, ih h.2⟩
    intro hm
    have := h.1
    simp only [Bool.not_eq_true'] at this
    rw [← List.elem_iff] at hm
    rw [List.contains, hm] at this
    exact Bool.true_eq_false.mp this

theorem objAppend_nil : ∀ a : JObj, objAppend a .nil = a := by
  intro a
  induction a using jobjTailInd with
  | h0 => rfl
  | h1 k v t ih => simp [objAppend, ih]

theorem objAppend_assoc : ∀ a b c : JObj,
    objAppend (objAppend a b) c = objAppend a (objAppend b c) := by
  intro a b c
  induction a using jobjTailInd with
  | h0 => rfl
  | h1 k v t ih => simp [objAppend, ih]

theorem keys_objAppend : ∀ a b : JObj,
    JObj.keys (objAppend a b) = JObj.keys a ++ JObj.keys b := by
  intro a b
  induction a using jobjTailInd with
  | h0 => rfl
  | h1 k v t ih => simp [objAppend, JObj.keys, ih]

theorem set_fresh : ∀ (acc : JObj) (k : String) (v : Json),
    k ∉ JObj.keys acc →
    JObj.set acc k v = objAppend acc (JObj.cons k v .nil) := by
  intro acc k v
  induction acc using jobjTailInd with
  | h0 => intro _; rfl
  | h1 k2 v2 t ih =>
    intro h
    rw [JObj.keys, List.mem_cons] at h
    push_neg at h
    rw [JObj.set, if_neg (fun he => h.1 he.symm), objAppend, ih h.2]

theorem buildNormAcc_eq : ∀ (ks : List String) (acc src : JObj),
    ks.Nodup → (∀ x ∈ ks, x ∉ JObj.keys acc) →
    buildNormAcc src acc ks = objAppend acc (gatherNorm src ks) := by
  intro ks
  induction ks with
  | nil =>
    intro acc src _ _
    rw [buildNormAcc, gatherNorm, objAppend_nil]
  | cons k t ih =>
    intro acc src hnd hfresh
    rw [List.nodup_cons] at hnd
    by_cases h : should_ignore k = true
    · rw [buildNormAcc, if_pos h, gatherNorm, if_pos h]
      exact ih acc src hnd.2 (fun x hx => hfresh x (List.mem_cons_of_mem k hx))
    · rw [buildNormAcc, if_neg h, gatherNorm, if_neg h]
      have hkacc : k ∉ JObj.keys acc := hfresh k (List.mem_cons_self k t)
      rw [set_fresh acc k _ hkacc]
      rw [ih _ src hnd.2 ?hfresh2]
      case hfresh2 =>
        intro x hx
        rw [keys_objAppend]
        rw [List.mem_append]
        push_neg
        refine ⟨hfresh x (List.mem_cons_of_mem k hx), ?_⟩
        simp only [JObj.keys, List.mem_singleton]
        exact fun he => hnd.1 (he ▸ hx)
      rw [objAppend_assoc]
      rfl

theorem keys_gatherNorm : ∀ (ks : List String) (src : JObj),
    JObj.keys (gatherNorm src ks) = ks.filter (fun k => !should_ignore k) := by
  intro ks src
  induction ks with
  | nil => rfl
  | cons k t ih =>
    by_cases h : should_ignore k = true
    · rw [gatherNorm, if_pos h, List.filter_cons]
      simp [h, ih]
    · rw [gatherNorm, if_neg h, List.filter_cons]
      simp only [h, Bool.not_false]
      rw [JObj.keys, ih]
      simp [Bool.not_eq_true] at h
      simp [h]

theorem getD_gatherNorm : ∀ (ks : List String) (src : JObj) (k : String),
    k ∈ JObj.keys (gatherNorm src ks) →
    JObj.getD (gatherNorm src ks) k = JObj.getD src k := by
  intro ks src
  induction ks with
  | nil => intro k h; simp [gatherNorm, JObj.keys] at h
  | cons k0 t ih =>
    intro k h
    by_cases hig : should_ignore k0 = true
    · rw [gatherNorm, if_pos hig] at h ⊢
      exact ih k h
    · rw [gatherNorm, if_neg hig] at h ⊢
      by_cases hk : k0 = k
      · rw [JObj.getD, if_pos hk, hk]
      · rw [JObj.getD, if_neg hk]
        rw [JObj.keys, List.mem_cons] at h
        rcases h with h | h
        · exact absurd h.symm hk
        · exact ih k h

theorem getD_traverseO : ∀ (kvs : JObj) (env_host : String) (k : String),
    JObj.getD (traverseO env_host kvs) k = traverse env_host (JObj.getD kvs k) := by
  intro kvs env_host
  induction kvs using jobjTailInd with
  | h0 => intro k; rfl
  | h1 k0 v t ih =>
    intro k
    by_cases hk : k0 = k
    · show JObj.getD (JObj.cons k0 (traverse env_host v) (traverseO env_host t)) k = _
      rw [JObj.getD, if_pos hk, JObj.getD, if_pos hk]
    · show JObj.getD (JObj.cons k0 (traverse env_host v) (traverseO env_host t)) k = _
      rw [JObj.getD, if_neg hk, JObj.getD, if_neg hk]
      exact ih k

/-- C3 counterexample.  The key `USERID` ends with `id`
case-insensitively, so the claimed exclusion rule discards it, but
`should_ignore` (whose regex requires a lowercase final `d`) keeps it:
the canonicalizer emits the key. -/
theorem c3_counterexample :
    specExcludedCI "USERID" = true ∧
    should_ignore "USERID" = false ∧
    traverse "host" (Json.obj (.cons "USERID" (.num 1) .nil))
      = Json.obj (.cons "USERID" (.num 1) .nil) ∧
    normalize_flow_definition (Json.obj (.cons "USERID" (.num 1) .nil)) "host"
      = "\x7b\"USERID\":1\x7d" := by
  refine ⟨by decide, by decide, by decide, by decide⟩

/-- C3 (amended).  At every mapping node of a well-formed tree the
canonicalizer keeps exactly the keys that are not in the ignore set, do
not match the anchored regex `.*[iI]d$` (ending in `id` or `Id` with a
lowercase `d`, no earlier newline, optionally one trailing newline — not
full case-insensitivity: `ID`/`iD` endings survive), and whose
lower-casing does not start with `connection`; the kept keys appear in
strictly ascending order, each bound to the recursive canonicalization
of its original value. -/
theorem c3_amended (kvs : JObj) (env_host : String) (hwf : nodupKeysB kvs = true) :
    ∃ L : JObj,
      traverse env_host (Json.obj kvs) = Json.obj L ∧
      (JObj.keys L).Pairwise (fun a b => strLe a b = true ∧ a ≠ b) ∧
      (∀ k, k ∈ JObj.keys L ↔ k ∈ JObj.keys kvs ∧ ¬ excludedKeyAmended k) ∧
      (∀ k, k ∈ JObj.keys L → JObj.getD L k = traverse env_host (JObj.getD kvs k)) := by
  have hnd : (JObj.keys kvs).Nodup := nodupKeysB_nodup kvs hwf
  have hnds : (sortStrs (JObj.keys kvs)).Nodup := sortStrs_nodup hnd
  refine ⟨gatherNorm (traverseO env_host kvs) (sortStrs (JObj.keys kvs)), ?_, ?_, ?_, ?_⟩
  · show Json.obj (buildNormAcc (traverseO env_host kvs) .nil (sortStrs (JObj.keys kvs))) = _
    rw [buildNormAcc_eq _ _ _ hnds (by intro x _; simp [JObj.keys])]
    rfl
  · rw [keys_gatherNorm]
    have hle := List.Pairwise.filter (R := fun a b => strLe a b = true)
      (fun k => !should_ignore k) (sortStrs_pairwise (JObj.keys kvs))
    have hne : (List.filter (fun k => !should_ignore k) (sortStrs (JObj.keys kvs))).Pairwise
        (fun a b => a ≠ b) := List.Nodup.filter _ hnds
    exact List.Pairwise.and hle hne
  · intro k
    rw [keys_gatherNorm, List.mem_filter, mem_sortStrs]
    constructor
    · intro ⟨h1, h2⟩
      refine ⟨h1, ?_⟩
      intro hex
      rw [← should_ignore_iff] at hex
      rw [hex] at h2
      simp at h2
    · intro ⟨h1, h2⟩
      refine ⟨h1, ?_⟩
      rw [← should_ignore_iff] at h2
      simp only [Bool.not_eq_true] at h2 ⊢
      rw [Bool.not_eq_true'] 
      exact h2
  · intro k hk
    rw [getD_gatherNorm _ _ _ hk, getD_traverseO]

/-- C3 witness: the amended statement at a concrete mapping. -/
theorem c3_amended_witness :
    nodupKeysB (JObj.cons "workflowid" (Json.num 7)
      (JObj.cons "zeta" Json.null (JObj.cons "alpha" (Json.num 1) .nil))) = true ∧
    (∃ L : JObj,
      traverse "h" (Json.obj (JObj.cons "workflowid" (Json.num 7)
        (JObj.cons "zeta" Json.null (JObj.cons "alpha" (Json.num 1) .nil)))) = Json.obj L ∧
      (JObj.keys L).Pairwise (fun a b => strLe a b = true ∧ a ≠ b) ∧
      (∀ k, k ∈ JObj.keys L ↔ k ∈ JObj.keys (JObj.cons "workflowid" (Json.num 7)
        (JObj.cons "zeta" Json.null (JObj.cons "alpha" (Json.num 1) .nil))) ∧
        ¬ excludedKeyAmended k) ∧
      (∀ k, k ∈ JObj.keys L → JObj.getD L k =
        traverse "h" (JObj.getD (JObj.cons "workflowid" (Json.num 7)
          (JObj.cons "zeta" Json.null (JObj.cons "alpha" (Json.num 1) .nil))) k))) :=
  ⟨by decide, c3_amended _ "h" (by decide)⟩

theorem snapLookup_snapMapSet (m : List (String × Snapshot)) (k : String) (v : Snapshot)
    (n : String) :
    snapLookup (snapMapSet m k v) n = if k = n then some v else snapLookup m n := by
  induction m with
  | nil => simp [snapMapSet, snapLookup]
  | cons p t ih =>
    obtain ⟨k2, v2⟩ := p
    by_cases h : k2 = k
    · subst h
      by_cases h2 : k2 = n <;> simp [snapMapSet, snapLookup, h2]
    · by_cases h2 : k2 = n
      · subst h2
        have hkn : ¬k = k2 := fun he => h he.symm
        simp [snapMapSet, snapLookup, h, hkn]
      · simp [snapMapSet, snapLookup, h, h2, ih]

theorem buildSnapshotMap_eq (flows : List FlowRecord) (host : String) :
    buildSnapshotMap flows host =
      flows.foldl (fun m f => snapMapSet m (build_snapshot f host).name (build_snapshot f host)) [] :=
  rfl

theorem foldl_snapMap_lookup (host : String) : ∀ (flows : List FlowRecord)
    (acc : List (String × Snapshot)) (n : String),
    snapLookup (flows.foldl
      (fun m f => snapMapSet m (build_snapshot f host).name (build_snapshot f host)) acc) n
      = match lastNamed host n flows with
        | some g => some (build_snapshot g host)
        | none => snapLookup acc n := by
  intro flows
  induction flows with
  | nil => intro acc n; simp [lastNamed]
  | cons f t ih =>
    intro acc n
    simp only [List.foldl_cons]
    rw [ih]
    cases hl : lastNamed host n t with
    | some g => simp [lastNamed, hl]
    | none =>
      rw [snapLookup_snapMapSet]
      by_cases hn : (build_snapshot f host).name = n
      · simp [lastNamed, hl, hn]
      · simp [lastNamed, hl, hn]

theorem mem_pair_snapMapSet (m : List (String × Snapshot)) (k : String) (v : Snapshot) :
    ∀ p ∈ snapMapSet m k v, p = (k, v) ∨ p ∈ m := by
  induction m with
  | nil => intro p hp; left; simpa [snapMapSet] using hp
  | cons q t ih =>
    obtain ⟨k2, v2⟩ := q
    intro p hp
    by_cases h : k2 = k
    · subst h
      simp only [snapMapSet, if_true, eq_self_iff_true, List.mem_cons] at hp
      rcases hp with hp | hp
      · left; rw [hp]
      · right; exact List.mem_cons_of_mem _ hp
    · simp only [snapMapSet, if_neg h, List.mem_cons] at hp
      rcases hp with hp | hp
      · right; rw [hp]; exact List.mem_cons_self _ _
      · rcases ih p hp with h2 | h2
        · left; exact h2
        · right; exact List.mem_cons_of_mem _ h2

theorem foldl_snapMap_origin (host : String) : ∀ (flows : List FlowRecord)
    (acc : List (String × Snapshot)),
    (∀ p ∈ acc, ∃ f, p.2 = build_snapshot f host) →
    ∀ p ∈ flows.foldl
      (fun m f => snapMapSet m (build_snapshot f host).name (build_snapshot f host)) acc,
      ∃ f, p.2 = build_snapshot f host := by
  intro flows
  induction flows with
  | nil => intro acc hacc p hp; exact hacc p hp
  | cons f t ih =>
    intro acc hacc p hp
    simp only [List.foldl_cons] at hp
    refine ih _ ?_ p hp
    intro q hq
    rcases mem_pair_snapMapSet acc (build_snapshot f host).name (build_snapshot f host) q hq with
      h | h
    · exact ⟨f, by rw [h]⟩
    · exact hacc q h

theorem snapLookup_mem : ∀ (m : List (String × Snapshot)) (n : String) (v : Snapshot),
    snapLookup m n = some v → (n, v) ∈ m := by
  intro m
  induction m with
  | nil => intro n v h; simp [snapLookup] at h
  | cons p t ih =>
    obtain ⟨k, w⟩ := p
    intro n v h
    by_cases hk : k = n
    · subst hk
      simp only [snapLookup, if_true, eq_self_iff_true, Option.some.injEq] at h
      subst h
      exact List.mem_cons_self _ _
    · simp only [snapLookup, if_neg hk] at h
      exact List.mem_cons_of_mem _ (ih n v h)

theorem buildSnapshotMap_origin (flows : List FlowRecord) (host : String) :
    ∀ p ∈ buildSnapshotMap flows host, ∃ f, p.2 = build_snapshot f host := by
  rw [buildSnapshotMap_eq]
  exact foldl_snapMap_origin host flows [] (by intro p hp; simp at hp)

theorem mem_keys_snapMapSet (m : List (String × Snapshot)) (k : String) (v : Snapshot)
    (n : String) :
    n ∈ (snapMapSet m k v).map Prod.fst ↔ n = k ∨ n ∈ m.map Prod.fst := by
  induction m with
  | nil => simp [snapMapSet]
  | cons p t ih =>
    obtain ⟨k2, v2⟩ := p
    by_cases h : k2 = k
    · subst h
      simp [snapMapSet]
    · simp [snapMapSet, h, ih]
      tauto

theorem nodup_keys_snapMapSet (m : List (String × Snapshot)) (k : String) (v : Snapshot) :
    (m.map Prod.fst).Nodup → ((snapMapSet m k v).map Prod.fst).Nodup := by
  induction m with
  | nil => intro _; simp [snapMapSet]
  | cons p t ih =>
    obtain ⟨k2, v2⟩ := p
    intro h
    simp only [List.map_cons, List.nodup_cons] at h
    by_cases hk : k2 = k
    · subst hk
      simp only [snapMapSet, if_true, eq_self_iff_true, List.map_cons, List.nodup_cons]
      exact h
    · simp only [snapMapSet, if_neg hk, List.map_cons, List.nodup_cons]
      refine ⟨?_, ih h.2⟩
      rw [mem_keys_snapMapSet]
      push_neg
      exact ⟨fun he => hk he, h.1⟩

theorem foldl_snapMap_keys (host : String) : ∀ (flows : List FlowRecord)
    (acc : List (String × Snapshot)),
    ((acc.map Prod.fst).Nodup →
      (((flows.foldl
        (fun m f => snapMapSet m (build_snapshot f host).name (build_snapshot f host)) acc).map
          Prod.fst).Nodup)) ∧
    (∀ n, n ∈ (flows.foldl
        (fun m f => snapMapSet m (build_snapshot f host).name (build_snapshot f host)) acc).map
          Prod.fst ↔
      n ∈ acc.map Prod.fst ∨ n ∈ flows.map (fun f => (build_snapshot f host).name)) := by
  intro flows
  induction flows with
  | nil =>
    intro acc
    constructor
    · intro h; exact h
    · intro n; simp
  | cons f t ih =>
    intro acc
    constructor
    · intro h
      simp only [List.foldl_cons]
      exact (ih _).1 (nodup_keys_snapMapSet _ _ _ h)
    · intro n
      simp only [List.foldl_cons]
      rw [(ih _).2 n, mem_keys_snapMapSet]
      simp only [List.map_cons, List.mem_cons]
      tauto

theorem compareLoop_entries : ∀ (pending : List (String × Snapshot))
    (tmap : List (String × Snapshot)) (incl : Bool)
    (res : List FlowComparisonEntry × List String × List String × List String × List String),
    compareLoop incl tmap pending = .ok res →
    (res.1.map (fun e => (e.name, e.source)) = pending ∧
     ∀ e ∈ res.1,
       (e.status = "missing_in_target" ∧ e.target = none) ∨
       (∃ t, e.target = some t ∧ snapLookup tmap e.name = some t ∧
         ((e.status = "error" ∧ (e.source.error.isSome ∨ t.error.isSome)) ∨
          (e.status = "identical" ∧ e.source.hash = t.hash) ∨
          (e.status = "different" ∧ e.source.hash ≠ t.hash ∧
            (incl = true → e.diff.isSome ∧ e.action_differences.isSome))))) := by
  intro pending
  induction pending with
  | nil =>
    intro tmap incl res h
    rw [compareLoop] at h
    simp only [Except.ok.injEq] at h
    rw [← h]
    exact ⟨rfl, by intro e he; simp at he⟩
  | cons p rest ih =>
    intro tmap incl res h
    obtain ⟨name, s⟩ := p
    rw [compareLoop] at h
    cases hl : snapLookup tmap name with
    | none =>
      rw [hl] at h
      cases hrec : compareLoop incl tmap rest with
      | error e => rw [hrec] at h; simp at h
      | ok tup =>
        rw [hrec] at h
        obtain ⟨cs, ids, nids, miss, errs⟩ := tup
        simp only [Except.ok.injEq] at h
        obtain ⟨hshape, hfacts⟩ := ih tmap incl _ hrec
        rw [← h]
        constructor
        · simp only [List.map_cons]
          rw [hshape]
        · intro e he
          rcases List.mem_cons.mp he with he | he
          · left; rw [he]; exact ⟨rfl, rfl⟩
          · exact hfacts e he
    | some tgt =>
      rw [hl] at h
      dsimp only at h
      by_cases herr : (s.error.isSome || tgt.error.isSome) = true
      · rw [if_pos herr] at h
        cases hrec : compareLoop incl tmap rest with
        | error e => rw [hrec] at h; simp at h
        | ok tup =>
          rw [hrec] at h
          obtain ⟨cs, ids, nids, miss, errs⟩ := tup
          simp only [Except.ok.injEq] at h
          obtain ⟨hshape, hfacts⟩ := ih tmap incl _ hrec
          rw [← h]
          constructor
          · simp only [List.map_cons]
            rw [hshape]
          · intro e he
            rcases List.mem_cons.mp he with he | he
            · right
              refine ⟨tgt, by rw [he], by rw [he]; exact hl, ?_⟩
              left
              refine ⟨by rw [he], ?_⟩
              rw [he]
              simpa using herr
            · exact hfacts e he
      · rw [if_neg herr] at h
        by_cases hid : s.hash = tgt.hash
        · rw [if_pos hid] at h
          cases hrec : compareLoop incl tmap rest with
          | error e => rw [hrec] at h; simp at h
          | ok tup =>
            rw [hrec] at h
            obtain ⟨cs, ids, nids, miss, errs⟩ := tup
            simp only [Except.ok.injEq] at h
            obtain ⟨hshape, hfacts⟩ := ih tmap incl _ hrec
            rw [← h]
            constructor
            · simp only [List.map_cons]
              rw [hshape]
            · intro e he
              rcases List.mem_cons.mp he with he | he
              · right
                refine ⟨tgt, by rw [he], by rw [he]; exact hl, ?_⟩
                right; left
                exact ⟨by rw [he], by rw [he]; exact hid⟩
              · exact hfacts e he
        · rw [if_neg hid] at h
          cases hincl : incl with
          | true =>
            rw [hincl] at h
            simp only [if_true] at h
            cases hd : compute_diff s.canonical_json tgt.canonical_json with
            | error e => rw [hd] at h; simp at h
            | ok d =>
              rw [hd] at h
              cases had : compute_action_differences s.canonical_json tgt.canonical_json with
              | error e => rw [had] at h; simp at h
              | ok ad =>
                rw [had] at h
                cases hrec : compareLoop true tmap rest with
                | error e => rw [hrec] at h; simp at h
                | ok tup =>
                  rw [hrec] at h
                  obtain ⟨cs, ids, nids, miss, errs⟩ := tup
                  simp only [Except.ok.injEq] at h
                  obtain ⟨hshape, hfacts⟩ := ih tmap true _ hrec
                  rw [← h]
                  constructor
                  · simp only [List.map_cons]
                    rw [hshape]
                  · intro e he
                    rcases List.mem_cons.mp he with he | he
                    · right
                      refine ⟨tgt, by rw [he], by rw [he]; exact hl, ?_⟩
                      right; right
                      refine ⟨by rw [he], by rw [he]; exact hid, ?_⟩
                      intro _
                      rw [he]
                      exact ⟨rfl, rfl⟩
                    · exact hfacts e he
          | false =>
            rw [hincl] at h
            simp only [Bool.false_eq_true, if_false] at h
            cases hrec : compareLoop false tmap rest with
            | error e => rw [hrec] at h; simp at h
            | ok tup =>
              rw [hrec] at h
              obtain ⟨cs, ids, nids, miss, errs⟩ := tup
              simp only [Except.ok.injEq] at h
              obtain ⟨hshape, hfacts⟩ := ih tmap false _ hrec
              rw [← h]
              constructor
              · simp only [List.map_cons]
                rw [hshape]
              · intro e he
                rcases List.mem_cons.mp he with he | he
                · right
                  refine ⟨tgt, by rw [he], by rw [he]; exact hl, ?_⟩
                  right; right
                  refine ⟨by rw [he], by rw [he]; exact hid, ?_⟩
                  intro hc
                  simp at hc
                · exact hfacts e he

/-- C10.  Name-keyed snapshot dicts keep only the last record per name:
looking a name up in the source map yields the snapshot of the last
source record carrying it; the comparison entries are exactly the map's
items (one per distinct name, with that retained snapshot); and the
reported counts are the numbers of distinct snapshot names, not of
records. -/
theorem c10_duplicate_names (source_flows target_flows : List FlowRecord)
    (source_url target_url : String) (incl : Bool) (r : CompareFlowsResult)
    (hok : compare_flows_core source_flows target_flows source_url target_url incl = .ok r) :
    (∀ n, snapLookup (buildSnapshotMap source_flows (hostFromUrl source_url)) n
        = Option.map (fun f => build_snapshot f (hostFromUrl source_url))
            (lastNamed (hostFromUrl source_url) n source_flows)) ∧
    r.comparisons.map (fun e => (e.name, e.source))
        = buildSnapshotMap source_flows (hostFromUrl source_url) ∧
    r.source_count
        = ((source_flows.map (fun f => (build_snapshot f (hostFromUrl source_url)).name)).dedup).length ∧
    r.target_count
        = ((target_flows.map (fun f => (build_snapshot f (hostFromUrl target_url)).name)).dedup).length := by
  have hlook : ∀ (flows : List FlowRecord) (host : String) (n : String),
      snapLookup (buildSnapshotMap flows host) n
        = Option.map (fun f => build_snapshot f host) (lastNamed host n flows) := by
    intro flows host n
    rw [buildSnapshotMap_eq, foldl_snapMap_lookup]
    cases lastNamed host n flows with
    | some g => rfl
    | none => rfl
  have hcount : ∀ (flows : List FlowRecord) (host : String),
      (buildSnapshotMap flows host).length
        = ((flows.map (fun f => (build_snapshot f host).name)).dedup).length := by
    intro flows host
    have hkeys := foldl_snapMap_keys host flows []
    have hnodup : ((buildSnapshotMap flows host).map Prod.fst).Nodup := by
      rw [buildSnapshotMap_eq]
      exact hkeys.1 (by simp)
    have hmem : ∀ n, n ∈ (buildSnapshotMap flows host).map Prod.fst ↔
        n ∈ flows.map (fun f => (build_snapshot f host).name) := by
      intro n
      rw [buildSnapshotMap_eq]
      rw [hkeys.2 n]
      simp
    have hperm : List.Perm ((buildSnapshotMap flows host).map Prod.fst)
        ((flows.map (fun f => (build_snapshot f host).name)).dedup) := by
      rw [List.perm_ext_iff_of_nodup hnodup (List.nodup_dedup _)]
      intro n
      rw [hmem n, List.mem_dedup]
    have hlen := hperm.length_eq
    rw [List.length_map] at hlen
    exact hlen
  simp only [compare_flows_core] at hok
  cases hcl : compareLoop incl (buildSnapshotMap target_flows (hostFromUrl target_url))
      (buildSnapshotMap source_flows (hostFromUrl source_url)) with
  | error e => rw [hcl] at hok; simp at hok
  | ok tup =>
    rw [hcl] at hok
    obtain ⟨cs, ids, nids, miss, errs⟩ := tup
    simp only [Except.ok.injEq] at hok
    have hshape := (compareLoop_entries _ _ _ _ hcl).1
    refine ⟨fun n => hlook source_flows (hostFromUrl source_url) n, ?_, ?_, ?_⟩
    · rw [← hok]
      exact hshape
    · rw [← hok]
      exact hcount source_flows (hostFromUrl source_url)
    · rw [← hok]
      exact hcount target_flows (hostFromUrl target_url)

/-- C10 witness: two source records named `Dup` — only the later one's
snapshot is kept and compared. -/
theorem c10_duplicate_names_witness :
    (compare_flows_core c10SrcFlows c10TgtFlows
        "https://s.crm.dynamics.com" "https://t.crm.dynamics.com" true = .ok c10Result) ∧
    ((∀ n, snapLookup (buildSnapshotMap c10SrcFlows (hostFromUrl "https://s.crm.dynamics.com")) n
        = Option.map (fun f => build_snapshot f (hostFromUrl "https://s.crm.dynamics.com"))
            (lastNamed (hostFromUrl "https://s.crm.dynamics.com") n c10SrcFlows)) ∧
     c10Result.comparisons.map (fun e => (e.name, e.source))
        = buildSnapshotMap c10SrcFlows (hostFromUrl "https://s.crm.dynamics.com") ∧
     c10Result.source_count
        = ((c10SrcFlows.map (fun f =>
            (build_snapshot f (hostFromUrl "https://s.crm.dynamics.com")).name)).dedup).length ∧
     c10Result.target_count
        = ((c10TgtFlows.map (fun f =>
            (build_snapshot f (hostFromUrl "https://t.crm.dynamics.com")).name)).dedup).length) :=
  ⟨by decide,
   c10_duplicate_names c10SrcFlows c10TgtFlows
     "https://s.crm.dynamics.com" "https://t.crm.dynamics.com" true c10Result (by decide)⟩

/-- C9.  In a completed comparison run with diff details enabled, every
entry whose two snapshots both carry non-empty, unequal hashes is
classified `different` and holds both a computed diff and a computed
action-difference list. -/
theorem c9_different_classification (source_flows target_flows : List FlowRecord)
    (source_url target_url : String) (r : CompareFlowsResult)
    (hok : compare_flows_core source_flows target_flows source_url target_url true = .ok r)
    (e : FlowComparisonEntry) (he : e ∈ r.comparisons) (t : Snapshot)
    (ht : e.target = some t) (hs1 : e.source.hash ≠ "") (ht1 : t.hash ≠ "")
    (hsh : e.source.hash ≠ t.hash) :
    e.status = "different" ∧ e.diff.isSome ∧ e.action_differences.isSome := by
  simp only [compare_flows_core] at hok
  cases hcl : compareLoop true (buildSnapshotMap target_flows (hostFromUrl target_url))
      (buildSnapshotMap source_flows (hostFromUrl source_url)) with
  | error err => rw [hcl] at hok; simp at hok
  | ok tup =>
    rw [hcl] at hok
    obtain ⟨cs, ids, nids, miss, errs⟩ := tup
    simp only [Except.ok.injEq] at hok
    obtain ⟨hshape, hfacts⟩ := compareLoop_entries _ _ _ _ hcl
    have hecs : e ∈ cs := by
      have : r.comparisons = cs := by rw [← hok]
      rw [← this]
      exact he
    rcases hfacts e hecs with ⟨_, hnone⟩ | ⟨t2, ht2, htl, hcase⟩
    · rw [ht] at hnone; exact absurd hnone (by simp)
    · have htt : t2 = t := by
        rw [ht] at ht2
        exact (Option.some.injEq _ _ ▸ ht2).symm
      subst htt
      rcases hcase with ⟨_, herr⟩ | ⟨_, hid⟩ | ⟨hst, _, hdiffs⟩
      · exfalso
        rcases herr with herr | herr
        · have hsrcmem : (e.name, e.source) ∈
              buildSnapshotMap source_flows (hostFromUrl source_url) := by
            rw [← hshape]
            exact List.mem_map_of_mem (fun x => (x.name, x.source)) hecs
          obtain ⟨f, hf⟩ := buildSnapshotMap_origin _ _ _ hsrcmem
          rcases c4_snapshot_invariant f (hostFromUrl source_url) with h4 | h4
          · rw [← hf] at h4
            rw [h4.2.2] at herr
            simp at herr
          · rw [← hf] at h4
            exact hs1 h4.2.1
        · obtain ⟨f, hf⟩ := buildSnapshotMap_origin _ _ _ (snapLookup_mem _ _ _ htl)
          rcases c4_snapshot_invariant f (hostFromUrl target_url) with h4 | h4
          · rw [← hf] at h4
            rw [h4.2.2] at herr
            simp at herr
          · rw [← hf] at h4
            exact ht1 h4.2.1
      · exact absurd hid hsh
      · exact ⟨hst, (hdiffs rfl).1, (hdiffs rfl).2⟩

/-- C9 witness: a concrete pair of flows with the same name and
different action bodies — the entry is `different` with both diff
artifacts present. -/
theorem c9_different_classification_witness :
    (compare_flows_core [c9SrcFlow] [c9TgtFlow]
        "https://s.crm.dynamics.com" "https://t.crm.dynamics.com" true = .ok c9Result) ∧
    c9Entry ∈ c9Result.comparisons ∧
    c9Entry.target = some c9Target ∧
    c9Entry.source.hash ≠ "" ∧ c9Target.hash ≠ "" ∧ c9Entry.source.hash ≠ c9Target.hash ∧
    (c9Entry.status = "different" ∧ c9Entry.diff.isSome ∧ c9Entry.action_differences.isSome) :=
  ⟨by decide, by decide, by decide, by decide, by decide, by decide,
   c9_different_classification [c9SrcFlow] [c9TgtFlow]
     "https://s.crm.dynamics.com" "https://t.crm.dynamics.com" c9Result (by decide)
     c9Entry (by decide) c9Target (by decide) (by decide) (by decide) (by decide)⟩

/-- C7.  The snapshot builder itself never raises — parse and shape
failures land in the error field (both concrete snapshots here are
error-free) — but the comparison loop does not produce a classified
result for every matched name: a differing pair whose
`definition.actions` is a JSON array makes `compute_action_differences`
call `.keys()` on a list, and the exception aborts the whole run. -/
theorem c7_loop_aborts_on_nondict_actions :
    (build_snapshot crashFlowA "s.crm.dynamics.com").error = none ∧
    (build_snapshot crashFlowB "t.crm.dynamics.com").error = none ∧
    compare_flows_core [crashFlowA] [crashFlowB]
        "https://s.crm.dynamics.com" "https://t.crm.dynamics.com" true
      = .error "AttributeError: object has no attribute keys" := by
  refine ⟨by decide, by decide, by decide⟩

theorem changedActionLoop_ok : ∀ (ns : List String) (A B : JObj) (ch : List ActionDifference),
    changedActionLoop A B ns = .ok ch →
    (∀ d ∈ ch, d.status = "changed") ∧
    (∀ n, (∃ d ∈ ch, d.action_name = n) ↔
      (n ∈ ns ∧ pyDumpsSorted (JObj.getD A n) ≠ pyDumpsSorted (JObj.getD B n))) := by
  intro ns
  induction ns with
  | nil =>
    intro A B ch h
    rw [changedActionLoop] at h
    simp only [Except.ok.injEq] at h
    rw [← h]
    refine ⟨by intro d hd; simp at hd, ?_⟩
    intro n
    simp
  | cons n0 t ih =>
    intro A B ch h
    rw [changedActionLoop] at h
    by_cases hne : pyDumpsSorted (JObj.getD A n0) ≠ pyDumpsSorted (JObj.getD B n0)
    · rw [if_pos hne] at h
      cases hd : compute_diff (pyDumpsSorted (JObj.getD A n0)) (pyDumpsSorted (JObj.getD B n0)) with
      | error e => rw [hd] at h; simp at h
      | ok diff =>
        rw [hd] at h
        cases hrec : changedActionLoop A B t with
        | error e => rw [hrec] at h; simp at h
        | ok rest =>
          rw [hrec] at h
          simp only [Except.ok.injEq] at h
          obtain ⟨ihst, ihmem⟩ := ih A B rest hrec
          rw [← h]
          constructor
          · intro d hd2
            rcases List.mem_cons.mp hd2 with hd2 | hd2
            · rw [hd2]
            · exact ihst d hd2
          · intro n
            constructor
            · intro ⟨d, hdmem, hdname⟩
              rcases List.mem_cons.mp hdmem with hd2 | hd2
              · rw [hd2] at hdname
                simp only at hdname
                rw [← hdname]
                exact ⟨List.mem_cons_self _ _, hne⟩
              · obtain ⟨hnt, hnne⟩ := (ihmem n).mp ⟨d, hd2, hdname⟩
                exact ⟨List.mem_cons_of_mem _ hnt, hnne⟩
            · intro ⟨hnmem, hnne⟩
              rcases List.mem_cons.mp hnmem with hnn | hnt
              · subst hnn
                exact ⟨_, List.mem_cons_self _ _, rfl⟩
              · obtain ⟨d, hd2, hdn⟩ := (ihmem n).mpr ⟨hnt, hnne⟩
                exact ⟨d, List.mem_cons_of_mem _ hd2, hdn⟩
    · rw [if_neg hne] at h
      push_neg at hne
      obtain ⟨ihst, ihmem⟩ := ih A B ch h
      refine ⟨ihst, ?_⟩
      intro n
      rw [ihmem n]
      constructor
      · intro ⟨hnt, hnne⟩
        exact ⟨List.mem_cons_of_mem _ hnt, hnne⟩
      · intro ⟨hnmem, hnne⟩
        rcases List.mem_cons.mp hnmem with hnn | hnt
        · subst hnn
          exact absurd hne hnne
        · exact ⟨hnt, hnne⟩

/-- C6.  When `compute_action_differences` returns a list: the names
with status `removed` are exactly those present only in the first
action set and the names with status `added` exactly those present only
in the second, both with empty `changed_properties`; every entry is
`removed`, `added` or `changed`; and the union of both action-name sets
is covered exactly by the entries' names together with the names
present in both whose sorted serializations coincide (the
untouched-identical actions, which are omitted). -/
theorem c6_action_diff_characterization (json_a json_b : String) (A B : JObj)
    (hA : actionsOrEmpty (extract_actions json_a) = .obj A)
    (hB : actionsOrEmpty (extract_actions json_b) = .obj B)
    (l : List ActionDifference)
    (hok : compute_action_differences json_a json_b = .ok l) :
    (∀ n, (∃ d ∈ l, d.status = "removed" ∧ d.action_name = n) ↔
        (n ∈ JObj.keys A ∧ n ∉ JObj.keys B)) ∧
    (∀ n, (∃ d ∈ l, d.status = "added" ∧ d.action_name = n) ↔
        (n ∈ JObj.keys B ∧ n ∉ JObj.keys A)) ∧
    (∀ d ∈ l, (d.status = "removed" ∨ d.status = "added") → d.changed_properties = []) ∧
    (∀ d ∈ l, d.status = "removed" ∨ d.status = "added" ∨ d.status = "changed") ∧
    (∀ n, (n ∈ JObj.keys A ∨ n ∈ JObj.keys B) ↔
        ((∃ d ∈ l, d.action_name = n) ∨
         (n ∈ JObj.keys A ∧ n ∈ JObj.keys B ∧
           pyDumpsSorted (JObj.getD A n) = pyDumpsSorted (JObj.getD B n)))) := by
  rw [compute_action_differences, hA, hB] at hok
  dsimp only at hok
  cases hch : changedActionLoop A B (setInter (pySet (JObj.keys A)) (pySet (JObj.keys B))) with
  | error e => rw [hch] at hok; simp at hok
  | ok ch =>
    rw [hch] at hok
    simp only [Except.ok.injEq] at hok
    obtain ⟨hchst, hchmem⟩ := changedActionLoop_ok _ A B ch hch
    have hmemA : ∀ n, n ∈ pySet (JObj.keys A) ↔ n ∈ JObj.keys A := fun n => mem_pySet _ n
    have hmemB : ∀ n, n ∈ pySet (JObj.keys B) ↔ n ∈ JObj.keys B := fun n => mem_pySet _ n
    have hmemrem : ∀ d : ActionDifference, d ∈ l ↔
        (d ∈ (setMinus (pySet (JObj.keys A)) (pySet (JObj.keys B))).map
          (fun n => (⟨n, "removed", []⟩ : ActionDifference)) ∨
         d ∈ (setMinus (pySet (JObj.keys B)) (pySet (JObj.keys A))).map
          (fun n => (⟨n, "added", []⟩ : ActionDifference)) ∨
         d ∈ ch) := by
      intro d
      rw [← hok]
      simp [List.mem_append]
    refine ⟨?_, ?_, ?_, ?_, ?_⟩
    · intro n
      constructor
      · intro ⟨d, hd, hst, hname⟩
        rcases (hmemrem d).mp hd with hd2 | hd2 | hd2
        · obtain ⟨m, hm, hdm⟩ := List.mem_map.mp hd2
          rw [← hdm] at hname
          simp only at hname
          rw [← hname]
          have := (mem_setMinus _ _ m).mp hm
          rw [hmemA, hmemB] at this
          exact this
        · obtain ⟨m, hm, hdm⟩ := List.mem_map.mp hd2
          rw [← hdm] at hst
          simp at hst
        · have := hchst d hd2
          rw [this] at hst
          simp at hst
      · intro ⟨hin, hout⟩
        have hm : n ∈ setMinus (pySet (JObj.keys A)) (pySet (JObj.keys B)) := by
          rw [mem_setMinus, hmemA, hmemB]
          exact ⟨hin, hout⟩
        refine ⟨⟨n, "removed", []⟩, ?_, rfl, rfl⟩
        rw [hmemrem]
        left
        exact List.mem_map_of_mem _ hm
    · intro n
      constructor
      · intro ⟨d, hd, hst, hname⟩
        rcases (hmemrem d).mp hd with hd2 | hd2 | hd2
        · obtain ⟨m, hm, hdm⟩ := List.mem_map.mp hd2
          rw [← hdm] at hst
          simp at hst
        · obtain ⟨m, hm, hdm⟩ := List.mem_map.mp hd2
          rw [← hdm] at hname
          simp only at hname
          rw [← hname]
          have := (mem_setMinus _ _ m).mp hm
          rw [hmemA, hmemB] at this
          exact this
        · have := hchst d hd2
          rw [this] at hst
          simp at hst
      · intro ⟨hin, hout⟩
        have hm : n ∈ setMinus (pySet (JObj.keys B)) (pySet (JObj.keys A)) := by
          rw [mem_setMinus, hmemA, hmemB]
          exact ⟨hin, hout⟩
        refine ⟨⟨n, "added", []⟩, ?_, rfl, rfl⟩
        rw [hmemrem]
        right; left
        exact List.mem_map_of_mem _ hm
    · intro d hd _
      rcases (hmemrem d).mp hd with hd2 | hd2 | hd2
      · obtain ⟨m, hm, hdm⟩ := List.mem_map.mp hd2
        rw [← hdm]
      · obtain ⟨m, hm, hdm⟩ := List.mem_map.mp hd2
        rw [← hdm]
      · rename_i hstat
        have := hchst d hd2
        rcases hstat with hstat | hstat <;> rw [this] at hstat <;> simp at hstat
    · intro d hd
      rcases (hmemrem d).mp hd with hd2 | hd2 | hd2
      · obtain ⟨m, hm, hdm⟩ := List.mem_map.mp hd2
        left; rw [← hdm]
      · obtain ⟨m, hm, hdm⟩ := List.mem_map.mp hd2
        right; left; rw [← hdm]
      · right; right; exact hchst d hd2
    · intro n
      constructor
      · intro hun
        by_cases hia : n ∈ JObj.keys A <;> by_cases hib : n ∈ JObj.keys B
        · by_cases heq : pyDumpsSorted (JObj.getD A n) = pyDumpsSorted (JObj.getD B n)
          · right; exact ⟨hia, hib, heq⟩
          · left
            have hint : n ∈ setInter (pySet (JObj.keys A)) (pySet (JObj.keys B)) := by
              rw [mem_setInter, hmemA, hmemB]
              exact ⟨hia, hib⟩
            obtain ⟨d, hdch, hdn⟩ := (hchmem n).mpr ⟨hint, heq⟩
            refine ⟨d, ?_, hdn⟩
            rw [hmemrem]
            right; right
            exact hdch
        · left
          refine ⟨⟨n, "removed", []⟩, ?_, rfl⟩
          rw [hmemrem]
          left
          refine List.mem_map_of_mem _ ?_
          rw [mem_setMinus, hmemA, hmemB]
          exact ⟨hia, hib⟩
        · left
          refine ⟨⟨n, "added", []⟩, ?_, rfl⟩
          rw [hmemrem]
          right; left
          refine List.mem_map_of_mem _ ?_
          rw [mem_setMinus, hmemA, hmemB]
          exact ⟨hib, hia⟩
        · rcases hun with hun | hun
          · exact absurd hun hia
          · exact absurd hun hib
      · intro hcov
        rcases hcov with ⟨d, hd, hdn⟩ | ⟨hia, _, _⟩
        · rcases (hmemrem d).mp hd with hd2 | hd2 | hd2
          · obtain ⟨m, hm, hdm⟩ := List.mem_map.mp hd2
            rw [← hdm] at hdn
            simp only at hdn
            rw [← hdn]
            left
            exact (hmemA m).mp ((mem_setMinus _ _ m).mp hm).1
          · obtain ⟨m, hm, hdm⟩ := List.mem_map.mp hd2
            rw [← hdm] at hdn
            simp only at hdn
            rw [← hdn]
            right
            exact (hmemB m).mp ((mem_setMinus _ _ m).mp hm).1
          · obtain ⟨hint, _⟩ := (hchmem d.action_name).mp ⟨d, hd2, rfl⟩
            rw [← hdn]
            left
            exact (hmemA d.action_name).mp ((mem_setInter _ _ _).mp hint).1
        · left; exact hia

/-- C6 witness: concrete flow definitions whose action sets share
`Common` (changed) and `Same` (identical), with `Gone` only in the
first and `New` only in the second. -/
theorem c6_action_diff_witness :
    (actionsOrEmpty (extract_actions c6JsonA) = .obj c6A) ∧
    (actionsOrEmpty (extract_actions c6JsonB) = .obj c6B) ∧
    (compute_action_differences c6JsonA c6JsonB = .ok c6List) ∧
    ((∀ n, (∃ d ∈ c6List, d.status = "removed" ∧ d.action_name = n) ↔
        (n ∈ JObj.keys c6A ∧ n ∉ JObj.keys c6B)) ∧
     (∀ n, (∃ d ∈ c6List, d.status = "added" ∧ d.action_name = n) ↔
        (n ∈ JObj.keys c6B ∧ n ∉ JObj.keys c6A)) ∧
     (∀ d ∈ c6List, (d.status = "removed" ∨ d.status = "added") → d.changed_properties = []) ∧
     (∀ d ∈ c6List, d.status = "removed" ∨ d.status = "added" ∨ d.status = "changed") ∧
     (∀ n, (n ∈ JObj.keys c6A ∨ n ∈ JObj.keys c6B) ↔
        ((∃ d ∈ c6List, d.action_name = n) ∨
         (n ∈ JObj.keys c6A ∧ n ∈ JObj.keys c6B ∧
           pyDumpsSorted (JObj.getD c6A n) = pyDumpsSorted (JObj.getD c6B n))))) :=
  ⟨by decide, by decide, by decide,
   c6_action_diff_characterization c6JsonA c6JsonB c6A c6B (by decide) (by decide)
     c6List (by decide)⟩

theorem maskGuidsF_stable : ∀ (f g : Nat) (l : List Char),
    l.length ≤ f → l.length ≤ g → maskGuidsF f l = maskGuidsF g l := by
  intro f
  induction f with
  | zero =>
    intro g l hf _
    have : l = [] := List.eq_nil_of_length_eq_zero (Nat.le_zero.mp hf)
    subst this
    cases g <;> rfl
  | succ f ih =>
    intro g l hf hg
    cases l with
    | nil => cases g <;> rfl
    | cons c cs =>
      cases g with
      | zero => simp at hg
      | succ g =>
        simp only [List.length_cons, Nat.succ_le_succ_iff] at hf hg
        simp only [maskGuidsF]
        by_cases hguid : guidAt (c :: cs) = true
        · rw [if_pos hguid, if_pos hguid]
          have h1 : (List.drop 35 cs).length ≤ f :=
            le_trans (by simpa using List.length_drop_le 35 cs) hf
          have h2 : (List.drop 35 cs).length ≤ g :=
            le_trans (by simpa using List.length_drop_le 35 cs) hg
          rw [ih g (List.drop 35 cs) h1 h2]
        · rw [if_neg hguid, if_neg hguid, ih g cs hf hg]

theorem mask_guids_cons_pos {c : Char} {cs : List Char} (h : guidAt (c :: cs) = true) :
    mask_guids (c :: cs) = guidTok ++ mask_guids (List.drop 35 cs) := by
  unfold mask_guids
  simp only [List.length_cons, maskGuidsF, if_pos h]
  rw [maskGuidsF_stable cs.length (List.drop 35 cs).length (List.drop 35 cs)
    (by simpa using List.length_drop_le 35 cs) (le_refl _)]

theorem mask_guids_cons_neg {c : Char} {cs : List Char} (h : guidAt (c :: cs) = false) :
    mask_guids (c :: cs) = c :: mask_guids cs := by
  unfold mask_guids
  simp only [List.length_cons, maskGuidsF, h, Bool.false_eq_true, if_false]

theorem replaceAllF_stable (old tok : List Char) : ∀ (f g : Nat) (l : List Char),
    l.length ≤ f → l.length ≤ g → replaceAllF old tok f l = replaceAllF old tok g l := by
  intro f
  induction f with
  | zero =>
    intro g l hf _
    have : l = [] := List.eq_nil_of_length_eq_zero (Nat.le_zero.mp hf)
    subst this
    cases g <;> rfl
  | succ f ih =>
    intro g l hf hg
    cases l with
    | nil => cases g <;> rfl
    | cons c cs =>
      cases g with
      | zero => simp at hg
      | succ g =>
        simp only [List.length_cons, Nat.succ_le_succ_iff] at hf hg
        simp only [replaceAllF]
        by_cases hp : (old.isPrefixOf (c :: cs) && !old.isEmpty) = true
        · rw [if_pos hp, if_pos hp]
          have h1 : (List.drop (old.length - 1) cs).length ≤ f :=
            le_trans (by simpa using List.length_drop_le (old.length - 1) cs) hf
          have h2 : (List.drop (old.length - 1) cs).length ≤ g :=
            le_trans (by simpa using List.length_drop_le (old.length - 1) cs) hg
          rw [ih g _ h1 h2]
        · rw [if_neg hp, if_neg hp, ih g cs hf hg]

theorem replaceAll_cons_pos {old tok : List Char} {c : Char} {cs : List Char}
    (h : (old.isPrefixOf (c :: cs) && !old.isEmpty) = true) :
    replaceAll old tok (c :: cs) = tok ++ replaceAll old tok (List.drop (old.length - 1) cs) := by
  unfold replaceAll
  simp only [List.length_cons, replaceAllF, if_pos h]
  rw [replaceAllF_stable old tok cs.length (List.drop (old.length - 1) cs).length _
    (by simpa using List.length_drop_le (old.length - 1) cs) (le_refl _)]

theorem replaceAll_cons_neg {old tok : List Char} {c : Char} {cs : List Char}
    (h : (old.isPrefixOf (c :: cs) && !old.isEmpty) = false) :
    replaceAll old tok (c :: cs) = c :: replaceAll old tok cs := by
  unfold replaceAll
  simp only [List.length_cons, replaceAllF, h, Bool.false_eq_true, if_false]

theorem mask_guids_of_guidFree : ∀ {l : List Char}, guidFree l = true → mask_guids l = l := by
  intro l
  induction l with
  | nil => intro _; rfl
  | cons c cs ih =>
    intro h
    rw [guidFree, Bool.and_eq_true] at h
    have hneg : guidAt (c :: cs) = false := by
      rcases h with ⟨h1, _⟩
      simp only [Bool.not_eq_true'] at h1
      exact h1
    rw [mask_guids_cons_neg hneg, ih h.2]

theorem replaceAll_of_noOcc : ∀ {old tok l : List Char}, noOcc old l = true →
    replaceAll old tok l = l := by
  intro old tok l
  induction l with
  | nil => intro _; rfl
  | cons c cs ih =>
    intro h
    rw [noOcc, Bool.and_eq_true] at h
    have hneg : (old.isPrefixOf (c :: cs) && !old.isEmpty) = false := by
      rcases h with ⟨h1, _⟩
      simp only [Bool.not_eq_true'] at h1
      simp [h1]
    rw [replaceAll_cons_neg hneg, ih h.2]
theorem mask_guids_exact {s : String} (h : isExactGuid s = true) :
    mask_guids s.data = guidTok := by
  rw [isExactGuid, Bool.and_eq_true, beq_iff_eq] at h
  obtain ⟨hlen, hat⟩ := h
  cases hd : s.data with
  | nil => rw [hd] at hlen; simp at hlen
  | cons c cs =>
    rw [hd] at hlen hat
    rw [mask_guids_cons_pos hat]
    have hcs : cs.length = 35 := by simp at hlen; omega
    have : List.drop 35 cs = [] := by
      apply List.eq_nil_of_length_eq_zero
      simp [hcs]
    rw [this]
    rfl

theorem mask_host_self {h : String} (hne : h.data ≠ []) :
    mask_host_urls h h.data = envTok := by
  rw [mask_host_urls]
  rw [if_neg (by simpa using hne)]
  cases hd : h.data with
  | nil => exact absurd hd hne
  | cons c cs =>
    have hpre : (h.data.isPrefixOf (c :: cs) && !h.data.isEmpty) = true := by
      rw [hd]
      simp [List.isPrefixOf_iff_prefix]
    rw [hd] at hpre
    rw [replaceAll_cons_pos hpre]
    have : List.drop ((c :: cs).length - 1) cs = [] := by
      apply List.eq_nil_of_length_eq_zero
      simp
    rw [this]
    rfl

theorem maskFull_self {h : String} (hne : h.data ≠ []) (hg : guidFree h.data = true) :
    maskFull h h.data = envTok := by
  rw [maskFull, mask_guids_of_guidFree hg, mask_host_self hne]

theorem maskFull_exact {h : String} {s : String} (hs : isExactGuid s = true)
    (hn : noOcc h.data guidTok = true) :
    maskFull h s.data = guidTok := by
  rw [maskFull, mask_guids_exact hs, mask_host_urls]
  split
  · rfl
  · exact replaceAll_of_noOcc hn

theorem relO_keys (hA hB : String) : ∀ kvs qvs : JObj,
    relO hA hB kvs qvs = true → JObj.keys kvs = JObj.keys qvs := by
  intro kvs
  induction kvs using jobjTailInd with
  | h0 =>
    intro qvs h
    cases qvs with
    | nil => rfl
    | cons k v t => exact absurd h (by simp [relO])
  | h1 k v t ih =>
    intro qvs h
    cases qvs with
    | nil => exact absurd h (by simp [relO])
    | cons k2 v2 t2 =>
      have h' : (k == k2 && relJ hA hB v v2 && relO hA hB t t2) = true := by
        simpa [relO] using h
      rw [Bool.and_eq_true, Bool.and_eq_true] at h'
      obtain ⟨⟨hk, _⟩, ht⟩ := h'
      rw [JObj.keys, JObj.keys, beq_iff_eq.mp hk, ih t2 ht]

theorem jcount_pos : ∀ t : Json, 1 ≤ jcount t := by
  intro t
  cases t <;> simp [jcount]

theorem relJ_traverse_aux (hA hB : String) (hne1 : hA.data ≠ []) (hne2 : hB.data ≠ [])
    (hg1 : guidFree hA.data = true) (hg2 : guidFree hB.data = true)
    (hn1 : noOcc hA.data guidTok = true) (hn2 : noOcc hB.data guidTok = true) :
    ∀ n : Nat, ∀ tA tB : Json, jcount tA ≤ n → relJ hA hB tA tB = true →
      traverse hA tA = traverse hB tB := by
  intro n
  induction n using Nat.strong_induction_on with
  | _ n ihn =>
    intro tA tB hsz hrel
    cases tA with
    | null =>
      cases tB with
      | null => rfl
      | bool b => exact absurd hrel (by simp [relJ])
      | num m => exact absurd hrel (by simp [relJ])
      | str s => exact absurd hrel (by simp [relJ])
      | arr xs => exact absurd hrel (by simp [relJ])
      | obj kvs => exact absurd hrel (by simp [relJ])
    | bool a =>
      cases tB with
      | bool b =>
        have hab : a = b := by simpa [relJ] using hrel
        rw [hab]
        rfl
      | null => exact absurd hrel (by simp [relJ])
      | num m => exact absurd hrel (by simp [relJ])
      | str s => exact absurd hrel (by simp [relJ])
      | arr xs => exact absurd hrel (by simp [relJ])
      | obj kvs => exact absurd hrel (by simp [relJ])
    | num a =>
      cases tB with
      | num b =>
        have hab : a = b := by simpa [relJ] using hrel
        rw [hab]
        rfl
      | null => exact absurd hrel (by simp [relJ])
      | bool b => exact absurd hrel (by simp [relJ])
      | str s => exact absurd hrel (by simp [relJ])
      | arr xs => exact absurd hrel (by simp [relJ])
      | obj kvs => exact absurd hrel (by simp [relJ])
    | str a =>
      cases tB with
      | str b =>
        have h' : (((isExactGuid a && isExactGuid b) || (a == hA && b == hB)) ||
            (a == b && maskFull hA a.data == a.data && maskFull hB b.data == b.data)) = true := hrel
        rw [Bool.or_eq_true, Bool.or_eq_true] at h'
        show Json.str (String.mk (maskFull hA a.data)) = Json.str (String.mk (maskFull hB b.data))
        rcases h' with (hguid | hhost) | hplain
        · rw [Bool.and_eq_true] at hguid
          rw [maskFull_exact hguid.1 hn1, maskFull_exact hguid.2 hn2]
        · rw [Bool.and_eq_true, beq_iff_eq, beq_iff_eq] at hhost
          rw [hhost.1, hhost.2, maskFull_self hne1 hg1, maskFull_self hne2 hg2]
        · rw [Bool.and_eq_true, Bool.and_eq_true] at hplain
          obtain ⟨⟨hab, hfa⟩, hfb⟩ := hplain
          rw [beq_iff_eq] at hab hfa hfb
          rw [hfa, hfb, hab]
      | null => exact absurd hrel (by simp [relJ])
      | bool b => exact absurd hrel (by simp [relJ])
      | num m => exact absurd hrel (by simp [relJ])
      | arr xs => exact absurd hrel (by simp [relJ])
      | obj kvs => exact absurd hrel (by simp [relJ])
    | arr xs =>
      cases tB with
      | arr ys =>
        have h' : relA hA hB xs ys = true := by simpa [relJ] using hrel
        have hsz' : jcountA xs < n := by
          have : jcount (Json.arr xs) = 1 + jcountA xs := rfl
          omega
        show Json.arr (traverseA hA xs) = Json.arr (traverseA hB ys)
        congr 1
        clear hrel hsz
        induction xs using jarrTailInd generalizing ys with
        | h0 =>
          cases ys with
          | nil => rfl
          | cons y t => exact absurd h' (by simp [relA])
        | h1 x t ih =>
          cases ys with
          | nil => exact absurd h' (by simp [relA])
          | cons y t2 =>
            have h2 : (relJ hA hB x y && relA hA hB t t2) = true := by
              simpa [relA] using h'
            rw [Bool.and_eq_true] at h2
            have hxc : jcount x ≤ jcountA (JArr.cons x t) := by
              rw [jcountA]; omega
            have htc : jcountA t ≤ jcountA (JArr.cons x t) := by
              have := jcount_pos x
              rw [jcountA]; omega
            rw [traverseA, traverseA]
            rw [ihn (jcount x) (by omega) x y (le_refl _) h2.1]
            rw [ih t2 h2.2 (by omega)]
      | null => exact absurd hrel (by simp [relJ])
      | bool b => exact absurd hrel (by simp [relJ])
      | num m => exact absurd hrel (by simp [relJ])
      | str s => exact absurd hrel (by simp [relJ])
      | obj kvs => exact absurd hrel (by simp [relJ])
    | obj kvs =>
      cases tB with
      | obj qvs =>
        have h' : relO hA hB kvs qvs = true := by simpa [relJ] using hrel
        have hsz' : jcountO kvs < n := by
          have : jcount (Json.obj kvs) = 1 + jcountO kvs := rfl
          omega
        have hkeys : JObj.keys kvs = JObj.keys qvs := relO_keys hA hB kvs qvs h'
        have hto : traverseO hA kvs = traverseO hB qvs := by
          clear hrel hsz hkeys
          induction kvs using jobjTailInd generalizing qvs with
          | h0 =>
            cases qvs with
            | nil => rfl
            | cons k v t => exact absurd h' (by simp [relO])
          | h1 k v t ih =>
            cases qvs with
            | nil => exact absurd h' (by simp [relO])
            | cons k2 v2 t2 =>
              have h2 : (k == k2 && relJ hA hB v v2 && relO hA hB t t2) = true := by
                simpa [relO] using h'
              rw [Bool.and_eq_true, Bool.and_eq_true] at h2
              obtain ⟨⟨hk, hv⟩, ht⟩ := h2
              have hvc : jcount v ≤ jcountO (JObj.cons k v t) := by
                rw [jcountO]; omega
              have htc : jcountO t ≤ jcountO (JObj.cons k v t) := by
                have := jcount_pos v
                rw [jcountO]; omega
              rw [traverseO, traverseO]
              rw [beq_iff_eq.mp hk]
              rw [ihn (jcount v) (by omega) v v2 (le_refl _) hv]
              rw [ih t2 ht (by omega)]
        show Json.obj (buildNormAcc (traverseO hA kvs) .nil (sortStrs (JObj.keys kvs))) =
          Json.obj (buildNormAcc (traverseO hB qvs) .nil (sortStrs (JObj.keys qvs)))
        rw [hkeys, hto]
      | null => exact absurd hrel (by simp [relJ])
      | bool b => exact absurd hrel (by simp [relJ])
      | num m => exact absurd hrel (by simp [relJ])
      | str s => exact absurd hrel (by simp [relJ])
      | arr ys => exact absurd hrel (by simp [relJ])

/-- C1: the claim as stated fails: substituting the (different) host
into a leaf where the old host bordered other text gives trees related
by host substitution whose canonical strings — and hashes — differ, with
no GUID involved anywhere. -/
theorem c1_counterexample :
    replaceAll "hostA".data "ss".data "shostA".data = "sss".data ∧
    guidFree "shostA".data = true ∧ guidFree "sss".data = true ∧
    ("hostA" : String) ≠ "ss" ∧
    normalize_flow_definition (Json.str "shostA") "hostA" ≠
      normalize_flow_definition (Json.str "sss") "ss" ∧
    compute_hash (normalize_flow_definition (Json.str "shostA") "hostA") ≠
      compute_hash (normalize_flow_definition (Json.str "sss") "ss") := by
  refine ⟨by decide, by decide, by decide, by decide, by decide, by decide⟩

/-- C1 (amended): for non-empty GUID-free hosts that do not occur inside
the literal token `<GUID>`, two trees related leafwise — exact-GUID
leaves paired with exact-GUID leaves, each host leaf paired with the
other host, all other leaves equal and fixed by both maskings —
canonicalize to byte-identical strings and hence equal hashes. -/
theorem c1_amended (hA hB : String) (tA tB : Json)
    (hne1 : hA.data ≠ []) (hne2 : hB.data ≠ [])
    (hg1 : guidFree hA.data = true) (hg2 : guidFree hB.data = true)
    (hn1 : noOcc hA.data guidTok = true) (hn2 : noOcc hB.data guidTok = true)
    (hrel : relJ hA hB tA tB = true) :
    normalize_flow_definition tA hA = normalize_flow_definition tB hB ∧
    compute_hash (normalize_flow_definition tA hA) =
      compute_hash (normalize_flow_definition tB hB) := by
  have ht := relJ_traverse_aux hA hB hne1 hne2 hg1 hg2 hn1 hn2 (jcount tA) tA tB (le_refl _) hrel
  unfold normalize_flow_definition
  rw [ht]
  exact ⟨rfl, rfl⟩

/-- Concrete instance of the amended C1 statement: realistic hosts, a
GUID swap and a host swap inside a mapping. -/
theorem c1_amended_witness :
    relJ "src.crm.dynamics.com" "tgt.crm.dynamics.com" c1TreeA c1TreeB = true ∧
    normalize_flow_definition c1TreeA "src.crm.dynamics.com" =
      normalize_flow_definition c1TreeB "tgt.crm.dynamics.com" ∧
    compute_hash (normalize_flow_definition c1TreeA "src.crm.dynamics.com") =
      compute_hash (normalize_flow_definition c1TreeB "tgt.crm.dynamics.com") := by
  refine ⟨by decide, ?_⟩
  exact c1_amended "src.crm.dynamics.com" "tgt.crm.dynamics.com" c1TreeA c1TreeB
    (by decide) (by decide) (by decide) (by decide) (by decide) (by decide) (by decide)

theorem guidPat_head : guidPat = false :: List.tail guidPat := by decide

theorem guidPat_head2 : List.tail guidPat = false :: List.tail (List.tail guidPat) := by decide

theorem guidAt_cons (c : Char) (l : List Char) :
    guidAt (c :: l) = (hexc c && matchPat (List.tail guidPat) l) := by
  rw [guidAt, guidPat_head]
  rfl

theorem guidAt_one {c : Char} (h : hexc c = false) (l : List Char) :
    guidAt (c :: l) = false := by
  rw [guidAt_cons, h, Bool.false_and]

theorem guidAt_two {c2 : Char} (h : hexc c2 = false) (c1 : Char) (l : List Char) :
    guidAt (c1 :: c2 :: l) = false := by
  rw [guidAt_cons, guidPat_head2]
  have hred : matchPat (false :: List.tail (List.tail guidPat)) (c2 :: l) =
      (hexc c2 && matchPat (List.tail (List.tail guidPat)) l) := rfl
  rw [hred, h, Bool.false_and, Bool.and_false]

theorem matchPat_mask_guids_transfer : ∀ (n : Nat) (l : List Char), l.length ≤ n →
    ∀ pat, matchPat pat (mask_guids l) = true → matchPat pat l = true := by
  intro n
  induction n using Nat.strong_induction_on with
  | _ n ihn =>
    intro l hlen pat hm
    cases l with
    | nil => exact hm
    | cons c cs =>
      by_cases hg : guidAt (c :: cs) = true
      · rw [mask_guids_cons_pos hg] at hm
        cases pat with
        | nil => rfl
        | cons b bs =>
          rw [guidTok] at hm
          cases b <;> exact Bool.noConfusion hm
      · rw [mask_guids_cons_neg (Bool.not_eq_true _ ▸ (by simpa using hg))] at hm
        cases pat with
        | nil => rfl
        | cons b bs =>
          have hm' : (patStep b c && matchPat bs (mask_guids cs)) = true := hm
          rw [Bool.and_eq_true] at hm'
          show (patStep b c && matchPat bs cs) = true
          rw [Bool.and_eq_true]
          have hlen' : cs.length < n := by simp at hlen; omega
          exact ⟨hm'.1, ihn cs.length hlen' cs (le_refl _) bs hm'.2⟩

theorem guidFree_tail {c : Char} {cs : List Char} (h : guidFree (c :: cs) = true) :
    guidFree cs = true := by
  rw [guidFree, Bool.and_eq_true] at h
  exact h.2

theorem guidFree_cons_of {c : Char} {l : List Char} (hc : guidAt (c :: l) = false)
    (hl : guidFree l = true) : guidFree (c :: l) = true := by
  rw [guidFree, hc]
  simp [hl]

theorem guidFree_drop : ∀ (k : Nat) {l : List Char}, guidFree l = true →
    guidFree (List.drop k l) = true := by
  intro k
  induction k with
  | zero => intro l h; simpa using h
  | succ k ih =>
    intro l h
    cases l with
    | nil => exact h
    | cons c cs => exact ih (guidFree_tail h)

theorem guidFree_guidTok_append {Y : List Char} (h : guidFree Y = true) :
    guidFree (guidTok ++ Y) = true := by
  show guidFree ('<' :: 'G' :: 'U' :: 'I' :: 'D' :: '>' :: Y) = true
  apply guidFree_cons_of (guidAt_one (by decide) _)
  apply guidFree_cons_of (guidAt_one (by decide) _)
  apply guidFree_cons_of (guidAt_one (by decide) _)
  apply guidFree_cons_of (guidAt_one (by decide) _)
  apply guidFree_cons_of (guidAt_two (by decide) _ _)
  apply guidFree_cons_of (guidAt_one (by decide) _)
  exact h

theorem guidFree_envTok_append {Y : List Char} (h : guidFree Y = true) :
    guidFree (envTok ++ Y) = true := by
  show guidFree ('<' :: 'E' :: 'N' :: 'V' :: '_' :: 'H' :: 'O' :: 'S' :: 'T' :: '>' :: Y) = true
  apply guidFree_cons_of (guidAt_one (by decide) _)
  apply guidFree_cons_of (guidAt_two (by decide) _ _)
  apply guidFree_cons_of (guidAt_one (by decide) _)
  apply guidFree_cons_of (guidAt_one (by decide) _)
  apply guidFree_cons_of (guidAt_one (by decide) _)
  apply guidFree_cons_of (guidAt_one (by decide) _)
  apply guidFree_cons_of (guidAt_one (by decide) _)
  apply guidFree_cons_of (guidAt_one (by decide) _)
  apply guidFree_cons_of (guidAt_one (by decide) _)
  apply guidFree_cons_of (guidAt_one (by decide) _)
  exact h

theorem guidFree_mask_guids : ∀ (n : Nat) (l : List Char), l.length ≤ n →
    guidFree (mask_guids l) = true := by
  intro n
  induction n using Nat.strong_induction_on with
  | _ n ihn =>
    intro l hlen
    cases l with
    | nil => rfl
    | cons c cs =>
      have hcs : cs.length < n := by simp at hlen; omega
      by_cases hg : guidAt (c :: cs) = true
      · rw [mask_guids_cons_pos hg]
        apply guidFree_guidTok_append
        have hd : (List.drop 35 cs).length ≤ cs.length := by
          simpa using List.length_drop_le 35 cs
        exact ihn cs.length hcs _ hd
      · have hg' : guidAt (c :: cs) = false := by simpa using hg
        rw [mask_guids_cons_neg hg']
        apply guidFree_cons_of
        · by_contra hcon
          have htrue : guidAt (c :: mask_guids cs) = true := by
            cases h2 : guidAt (c :: mask_guids cs)
            · exact absurd h2 hcon
            · rfl
          rw [guidAt_cons, Bool.and_eq_true] at htrue
          have := matchPat_mask_guids_transfer cs.length cs (le_refl _) _ htrue.2
          have : guidAt (c :: cs) = true := by
            rw [guidAt_cons, Bool.and_eq_true]
            exact ⟨htrue.1, this⟩
          exact absurd this hg
        · exact ihn cs.length hcs cs (le_refl _)

theorem matchPat_replaceAll_transfer (h : List Char) : ∀ (n : Nat) (l : List Char),
    l.length ≤ n →
    ∀ pat, matchPat pat (replaceAll h envTok l) = true → matchPat pat l = true := by
  intro n
  induction n using Nat.strong_induction_on with
  | _ n ihn =>
    intro l hlen pat hm
    cases l with
    | nil => exact hm
    | cons c cs =>
      by_cases hp : (h.isPrefixOf (c :: cs) && !h.isEmpty) = true
      · rw [replaceAll_cons_pos hp] at hm
        cases pat with
        | nil => rfl
        | cons b bs =>
          rw [envTok] at hm
          cases b <;> exact Bool.noConfusion hm
      · rw [replaceAll_cons_neg (by simpa using hp)] at hm
        cases pat with
        | nil => rfl
        | cons b bs =>
          have hm' : (patStep b c && matchPat bs (replaceAll h envTok cs)) = true := hm
          rw [Bool.and_eq_true] at hm'
          show (patStep b c && matchPat bs cs) = true
          rw [Bool.and_eq_true]
          have hlen' : cs.length < n := by simp at hlen; omega
          exact ⟨hm'.1, ihn cs.length hlen' cs (le_refl _) bs hm'.2⟩

theorem guidFree_replaceAll (h : String) : ∀ (n : Nat) (l : List Char), l.length ≤ n →
    guidFree l = true → guidFree (replaceAll h.data envTok l) = true := by
  intro n
  induction n using Nat.strong_induction_on with
  | _ n ihn =>
    intro l hlen hfree
    cases l with
    | nil => exact hfree
    | cons c cs =>
      have hcs : cs.length < n := by simp at hlen; omega
      by_cases hp : (h.data.isPrefixOf (c :: cs) && !h.data.isEmpty) = true
      · rw [replaceAll_cons_pos hp]
        apply guidFree_envTok_append
        have hd : (List.drop (h.data.length - 1) cs).length ≤ cs.length := by
          simpa using List.length_drop_le (h.data.length - 1) cs
        exact ihn cs.length hcs _ hd (guidFree_drop _ (guidFree_tail hfree))
      · rw [replaceAll_cons_neg (by simpa using hp)]
        apply guidFree_cons_of
        · by_contra hcon
          have htrue : guidAt (c :: replaceAll h.data envTok cs) = true := by
            cases h2 : guidAt (c :: replaceAll h.data envTok cs)
            · exact absurd h2 hcon
            · rfl
          rw [guidAt_cons, Bool.and_eq_true] at htrue
          have ht2 := matchPat_replaceAll_transfer h.data cs.length cs (le_refl _) _ htrue.2
          have ht3 : guidAt (c :: cs) = true := by
            rw [guidAt_cons, Bool.and_eq_true]
            exact ⟨htrue.1, ht2⟩
          rw [guidFree, Bool.and_eq_true] at hfree
          rw [ht3] at hfree
          exact Bool.noConfusion hfree.1
        · exact ihn cs.length hcs cs (le_refl _) (guidFree_tail hfree)

theorem isPrefixOf_replaceAll_transfer (h : String)
    (hdisj : ∀ c ∈ h.data, c ∉ envTok) : ∀ (n : Nat) (l : List Char), l.length ≤ n →
    ∀ g : List Char, (∀ c ∈ g, c ∈ h.data) →
    g.isPrefixOf (replaceAll h.data envTok l) = true → g.isPrefixOf l = true := by
  intro n
  induction n using Nat.strong_induction_on with
  | _ n ihn =>
    intro l hlen g hsub hpre
    cases l with
    | nil => exact hpre
    | cons c cs =>
      by_cases hp : (h.data.isPrefixOf (c :: cs) && !h.data.isEmpty) = true
      · rw [replaceAll_cons_pos hp] at hpre
        cases g with
        | nil => rfl
        | cons c0 g' =>
          rw [envTok] at hpre
          have hpre' : (c0 == '<' && g'.isPrefixOf
              ('E' :: 'N' :: 'V' :: '_' :: 'H' :: 'O' :: 'S' :: 'T' :: '>' ::
                replaceAll h.data envTok (List.drop (h.data.length - 1) cs))) = true := hpre
          rw [Bool.and_eq_true, beq_iff_eq] at hpre'
          have hc0 : c0 ∈ h.data := hsub c0 (List.mem_cons_self c0 g')
          have := hdisj c0 hc0
          rw [hpre'.1] at this
          exact absurd (by decide : ('<' : Char) ∈ envTok) this
      · rw [replaceAll_cons_neg (by simpa using hp)] at hpre
        cases g with
        | nil => rfl
        | cons c0 g' =>
          have hpre' : (c0 == c && g'.isPrefixOf (replaceAll h.data envTok cs)) = true := hpre
          rw [Bool.and_eq_true] at hpre'
          have hlen' : cs.length < n := by simp at hlen; omega
          have hg' : ∀ x ∈ g', x ∈ h.data := fun x hx => hsub x (List.mem_cons_of_mem c0 hx)
          have := ihn cs.length hlen' cs (le_refl _) g' hg' hpre'.2
          show (c0 == c && g'.isPrefixOf cs) = true
          rw [Bool.and_eq_true]
          exact ⟨hpre'.1, this⟩

theorem noOcc_tok_prepend (h : String) (hne : h.data ≠ []) :
    ∀ (T : List Char), (∀ t ∈ T, t ∉ h.data) → ∀ {Y : List Char}, noOcc h.data Y = true →
    noOcc h.data (T ++ Y) = true := by
  intro T
  induction T with
  | nil => intro _ Y hY; simpa using hY
  | cons t0 T' ih =>
    intro hT Y hY
    show noOcc h.data (t0 :: (T' ++ Y)) = true
    rw [noOcc, Bool.and_eq_true]
    refine ⟨?_, ih (fun t ht => hT t (List.mem_cons_of_mem t0 ht)) hY⟩
    cases hd : h.data with
    | nil => exact absurd hd hne
    | cons h0 h' =>
      have h0mem : h0 ∈ h.data := by rw [hd]; exact List.mem_cons_self h0 h'
      have hne0 : t0 ∉ h.data := hT t0 (List.mem_cons_self t0 T')
      have : h0 ≠ t0 := fun he => hne0 (he ▸ h0mem)
      have hred : (h0 :: h').isPrefixOf (t0 :: (T' ++ Y)) = (h0 == t0 && h'.isPrefixOf (T' ++ Y)) := rfl
      rw [hred]
      simp [this]

theorem noOcc_replaceAll_self (h : String) (hne : h.data ≠ [])
    (hdisj : ∀ c ∈ h.data, c ∉ envTok) : ∀ (n : Nat) (l : List Char), l.length ≤ n →
    noOcc h.data (replaceAll h.data envTok l) = true := by
  intro n
  induction n using Nat.strong_induction_on with
  | _ n ihn =>
    intro l hlen
    cases l with
    | nil =>
      show noOcc h.data [] = true
      rw [noOcc]
      cases hd : h.data with
      | nil => exact absurd hd hne
      | cons h0 h' => rfl
    | cons c cs =>
      have hcs : cs.length < n := by simp at hlen; omega
      by_cases hp : (h.data.isPrefixOf (c :: cs) && !h.data.isEmpty) = true
      · rw [replaceAll_cons_pos hp]
        have hdisj' : ∀ t ∈ envTok, t ∉ h.data := by
          intro t ht hth
          exact hdisj t hth ht
        have hd : (List.drop (h.data.length - 1) cs).length ≤ cs.length := by
          simpa using List.length_drop_le (h.data.length - 1) cs
        exact noOcc_tok_prepend h hne envTok hdisj' (ihn cs.length hcs _ hd)
      · rw [replaceAll_cons_neg (by simpa using hp)]
        rw [noOcc, Bool.and_eq_true]
        refine ⟨?_, ihn cs.length hcs cs (le_refl _)⟩
        by_contra hcon
        have htrue : h.data.isPrefixOf (c :: replaceAll h.data envTok cs) = true := by
          cases h2 : h.data.isPrefixOf (c :: replaceAll h.data envTok cs)
          · exfalso; apply hcon; rw [h2]; rfl
          · rfl
        cases hd : h.data with
        | nil => exact absurd hd hne
        | cons h0 h' =>
          rw [hd] at htrue
          have htrue' : (h0 == c && h'.isPrefixOf (replaceAll (h0 :: h') envTok cs)) = true := htrue
          rw [Bool.and_eq_true] at htrue'
          have hsub : ∀ x ∈ h', x ∈ h.data := by
            intro x hx
            rw [hd]
            exact List.mem_cons_of_mem h0 hx
          have hstep : h'.isPrefixOf (replaceAll h.data envTok cs) = true := by
            rw [hd]
            exact htrue'.2
          have hpc := isPrefixOf_replaceAll_transfer h hdisj cs.length cs (le_refl _) h' hsub hstep
          have hfull : h.data.isPrefixOf (c :: cs) = true := by
            rw [hd]
            show (h0 == c && h'.isPrefixOf cs) = true
            rw [Bool.and_eq_true]
            exact ⟨htrue'.1, hpc⟩
          have hnonempty : h.data.isEmpty = false := by
            rw [hd]; rfl
          rw [hfull, hnonempty] at hp
          exact hp rfl

theorem maskFull_idem (h : String) (hcond : hostAvoidsEnvTok h = true) (s : List Char) :
    maskFull h (maskFull h s) = maskFull h s := by
  have hdisj : ∀ c ∈ h.data, c ∉ envTok := by
    intro c hc
    rw [hostAvoidsEnvTok, List.all_eq_true] at hcond
    have hx := hcond c hc
    simp only [Bool.not_eq_true'] at hx
    intro hmem
    simp [List.elem_iff] at hx
    exact hx hmem
  by_cases hne : h.data = []
  · have hmh : ∀ t : List Char, mask_host_urls h t = t := by
      intro t
      rw [mask_host_urls, if_pos (by simp [hne])]
    rw [maskFull, maskFull, hmh, hmh]
    exact mask_guids_of_guidFree (guidFree_mask_guids s.length s (le_refl _))
  · have hgf : guidFree (mask_guids s) = true := guidFree_mask_guids s.length s (le_refl _)
    have hY : maskFull h s = replaceAll h.data envTok (mask_guids s) := by
      rw [maskFull, mask_host_urls, if_neg (by simpa using hne)]
    rw [maskFull, hY]
    have hgf2 : guidFree (replaceAll h.data envTok (mask_guids s)) = true :=
      guidFree_replaceAll h (mask_guids s).length (mask_guids s) (le_refl _) hgf
    rw [mask_guids_of_guidFree hgf2]
    rw [mask_host_urls, if_neg (by simpa using hne)]
    rw [replaceAll_of_noOcc (noOcc_replaceAll_self h hne hdisj (mask_guids s).length _ (le_refl _))]

theorem strLt_ne {a b : String} (h : strLt a b = true) : a ≠ b := by
  rw [strLt, Bool.and_eq_true] at h
  intro he
  rw [he] at h
  simp at h

theorem strLt_of_le_ne {a b : String} (h1 : strLe a b = true) (h2 : a ≠ b) :
    strLt a b = true := by
  rw [strLt, Bool.and_eq_true]
  refine ⟨h1, ?_⟩
  simp [h2]

theorem strLt_trans {a b c : String} (h1 : strLt a b = true) (h2 : strLt b c = true) :
    strLt a c = true := by
  rw [strLt, Bool.and_eq_true] at h1 h2
  apply strLt_of_le_ne (strLe_trans h1.1 h2.1)
  intro he
  have hba : strLe b a = true := he ▸ h2.1
  have := strLe_antisymm h1.1 hba
  rw [this] at h1
  simp at h1

theorem adjSorted_pairwise : ∀ M : JObj, adjSortedKeys M = true →
    (JObj.keys M).Pairwise (fun a b => strLt a b = true) := by
  intro M
  induction M using jobjTailInd with
  | h0 => intro _; simp [JObj.keys]
  | h1 k v t ih =>
    intro h
    cases t with
    | nil => simp [JObj.keys]
    | cons k2 v2 t2 =>
      have h' : (strLt k k2 && adjSortedKeys (JObj.cons k2 v2 t2)) = true := h
      rw [Bool.and_eq_true] at h'
      have hp := ih h'.2
      rw [JObj.keys, List.pairwise_cons]
      refine ⟨?_, hp⟩
      intro x hx
      rw [JObj.keys] at hx
      rcases List.mem_cons.mp hx with he | ht
      · rw [he]; exact h'.1
      · rw [JObj.keys, List.pairwise_cons] at hp
        exact strLt_trans h'.1 (hp.1 x ht)

theorem adjSorted_of_pairwise : ∀ M : JObj,
    (JObj.keys M).Pairwise (fun a b => strLt a b = true) → adjSortedKeys M = true := by
  intro M
  induction M using jobjTailInd with
  | h0 => intro _; rfl
  | h1 k v t ih =>
    intro h
    cases t with
    | nil => rfl
    | cons k2 v2 t2 =>
      rw [JObj.keys, List.pairwise_cons] at h
      show (strLt k k2 && adjSortedKeys (JObj.cons k2 v2 t2)) = true
      rw [Bool.and_eq_true]
      refine ⟨h.1 k2 (by rw [JObj.keys]; exact List.mem_cons_self _ _), ih h.2⟩

theorem nodup_of_pairwise_strLt {l : List String}
    (h : l.Pairwise (fun a b => strLt a b = true)) : l.Nodup :=
  h.imp (fun hab => strLt_ne hab)

theorem pairwise_strLt_of_le_nodup {l : List String}
    (h1 : l.Pairwise (fun a b => strLe a b = true)) (h2 : l.Nodup) :
    l.Pairwise (fun a b => strLt a b = true) :=
  (h1.and h2).imp (fun hab => strLt_of_le_ne hab.1 hab.2)

theorem insertStr_of_le : ∀ (l : List String) (x : String),
    (∀ y ∈ l, strLe x y = true) → insertStr x l = x :: l := by
  intro l x h
  cases l with
  | nil => rfl
  | cons y t =>
    rw [insertStr, if_pos (h y (List.mem_cons_self y t))]

theorem sortStrs_of_pairwise : ∀ l : List String,
    l.Pairwise (fun a b => strLe a b = true) → sortStrs l = l := by
  intro l
  induction l with
  | nil => intro _; rfl
  | cons x t ih =>
    intro h
    rw [List.pairwise_cons] at h
    rw [sortStrs, ih h.2]
    exact insertStr_of_le t x h.1

theorem keysNotIgnored_iff : ∀ M : JObj, keysNotIgnored M = true ↔
    ∀ k ∈ JObj.keys M, should_ignore k = false := by
  intro M
  induction M using jobjTailInd with
  | h0 => simp [keysNotIgnored, JObj.keys]
  | h1 k v t ih =>
    rw [keysNotIgnored, Bool.and_eq_true, ih, JObj.keys]
    constructor
    · rintro ⟨h1, h2⟩ k2 hk2
      rcases List.mem_cons.mp hk2 with he | ht
      · rw [he]
        simpa using h1
      · exact h2 k2 ht
    · intro hall
      refine ⟨by simp [hall k (List.mem_cons_self _ _)], fun k2 hk2 => hall k2 (List.mem_cons_of_mem _ hk2)⟩

theorem canonicalPO_iff (h : String) : ∀ M : JObj, canonicalPO h M = true ↔
    ∀ v ∈ objValues M, canonicalP h v = true := by
  intro M
  induction M using jobjTailInd with
  | h0 => simp [canonicalPO, objValues]
  | h1 k v t ih =>
    rw [canonicalPO, Bool.and_eq_true, ih, objValues]
    constructor
    · rintro ⟨h1, h2⟩ v2 hv2
      rcases List.mem_cons.mp hv2 with he | ht
      · rw [he]; exact h1
      · exact h2 v2 ht
    · intro hall
      exact ⟨hall v (List.mem_cons_self _ _), fun v2 hv2 => hall v2 (List.mem_cons_of_mem _ hv2)⟩

theorem canonicalPA_iff_mem (h : String) : ∀ xs : JArr, canonicalPA h xs = true ↔
    ∀ v ∈ JArr.toList xs, canonicalP h v = true := by
  intro xs
  induction xs using jarrTailInd with
  | h0 => simp [canonicalPA, JArr.toList]
  | h1 x t ih =>
    rw [canonicalPA, Bool.and_eq_true, ih, JArr.toList]
    constructor
    · rintro ⟨h1, h2⟩ v2 hv2
      rcases List.mem_cons.mp hv2 with he | ht
      · rw [he]; exact h1
      · exact h2 v2 ht
    · intro hall
      exact ⟨hall x (List.mem_cons_self _ _), fun v2 hv2 => hall v2 (List.mem_cons_of_mem _ hv2)⟩

theorem objValues_traverseO (h : String) : ∀ kvs : JObj,
    objValues (traverseO h kvs) = (objValues kvs).map (traverse h) := by
  intro kvs
  induction kvs using jobjTailInd with
  | h0 => rfl
  | h1 k v t ih =>
    show traverse h v :: objValues (traverseO h t) =
      traverse h v :: (objValues t).map (traverse h)
    rw [ih]

theorem keys_traverseO (h : String) : ∀ kvs : JObj,
    JObj.keys (traverseO h kvs) = JObj.keys kvs := by
  intro kvs
  induction kvs using jobjTailInd with
  | h0 => rfl
  | h1 k v t ih =>
    show JObj.keys (JObj.cons k (traverse h v) (traverseO h t)) = JObj.keys (JObj.cons k v t)
    rw [JObj.keys, JObj.keys, ih]

theorem getD_mem_values_or_null : ∀ (src : JObj) (k : String),
    JObj.getD src k ∈ objValues src ∨ JObj.getD src k = Json.null := by
  intro src k
  induction src using jobjTailInd with
  | h0 => right; rfl
  | h1 k2 v t ih =>
    rw [JObj.getD]
    by_cases he : k2 = k
    · rw [if_pos he]
      left
      exact List.mem_cons_self _ _
    · rw [if_neg he]
      rcases ih with hm | hn
      · left; exact List.mem_cons_of_mem _ hm
      · right; exact hn

theorem values_gatherNorm_sub : ∀ (ks : List String) (src : JObj) (v : Json),
    v ∈ objValues (gatherNorm src ks) → v ∈ objValues src ∨ v = Json.null := by
  intro ks
  induction ks with
  | nil => intro src v hv; exact absurd hv (by simp [gatherNorm, objValues])
  | cons k ks ih =>
    intro src v hv
    rw [gatherNorm] at hv
    by_cases hig : should_ignore k = true
    · rw [if_pos hig] at hv
      exact ih src v hv
    · rw [if_neg hig] at hv
      rw [objValues] at hv
      rcases List.mem_cons.mp hv with he | ht
      · rw [he]
        exact getD_mem_values_or_null src k
      · exact ih src v ht

theorem jcount_le_of_mem_objValues : ∀ (kvs : JObj) (v : Json),
    v ∈ objValues kvs → jcount v ≤ jcountO kvs := by
  intro kvs
  induction kvs using jobjTailInd with
  | h0 => intro v hv; exact absurd hv (by simp [objValues])
  | h1 k v2 t ih =>
    intro v hv
    rw [objValues] at hv
    rw [jcountO]
    rcases List.mem_cons.mp hv with he | ht
    · rw [he]; omega
    · have := ih v ht; omega

theorem jcount_le_of_mem_toList : ∀ (xs : JArr) (v : Json),
    v ∈ JArr.toList xs → jcount v ≤ jcountA xs := by
  intro xs
  induction xs using jarrTailInd with
  | h0 => intro v hv; exact absurd hv (by simp [JArr.toList])
  | h1 x t ih =>
    intro v hv
    rw [JArr.toList] at hv
    rw [jcountA]
    rcases List.mem_cons.mp hv with he | ht
    · rw [he]; omega
    · have := ih v ht; omega

theorem wf_of_mem_objValues : ∀ (kvs : JObj) (v : Json),
    wfO kvs = true → v ∈ objValues kvs → wfJson v = true := by
  intro kvs
  induction kvs using jobjTailInd with
  | h0 => intro v _ hv; exact absurd hv (by simp [objValues])
  | h1 k v2 t ih =>
    intro v hwf hv
    have hwf' : (wfJson v2 && wfO t) = true := hwf
    rw [Bool.and_eq_true] at hwf'
    rw [objValues] at hv
    rcases List.mem_cons.mp hv with he | ht
    · rw [he]; exact hwf'.1
    · exact ih v hwf'.2 ht

theorem wf_of_mem_toList : ∀ (xs : JArr) (v : Json),
    wfA xs = true → v ∈ JArr.toList xs → wfJson v = true := by
  intro xs
  induction xs using jarrTailInd with
  | h0 => intro v _ hv; exact absurd hv (by simp [JArr.toList])
  | h1 x t ih =>
    intro v hwf hv
    have hwf' : (wfJson x && wfA t) = true := hwf
    rw [Bool.and_eq_true] at hwf'
    rw [JArr.toList] at hv
    rcases List.mem_cons.mp hv with he | ht
    · rw [he]; exact hwf'.1
    · exact ih v hwf'.2 ht

theorem gatherNorm_congr : ∀ (ks : List String) (M M2 : JObj),
    (∀ k ∈ ks, JObj.getD M k = JObj.getD M2 k) →
    gatherNorm M ks = gatherNorm M2 ks := by
  intro ks
  induction ks with
  | nil => intro M M2 _; rfl
  | cons k ks ih =>
    intro M M2 h
    rw [gatherNorm, gatherNorm]
    have ht := ih M M2 (fun k2 hk2 => h k2 (List.mem_cons_of_mem _ hk2))
    by_cases hig : should_ignore k = true
    · rw [if_pos hig, if_pos hig, ht]
    · rw [if_neg hig, if_neg hig, ht, h k (List.mem_cons_self _ _)]

theorem gatherNorm_self : ∀ M : JObj, (JObj.keys M).Nodup → keysNotIgnored M = true →
    gatherNorm M (JObj.keys M) = M := by
  intro M
  induction M using jobjTailInd with
  | h0 => intro _ _; rfl
  | h1 k v t ih =>
    intro hnd hni
    have hni' : (!should_ignore k && keysNotIgnored t) = true := hni
    rw [Bool.and_eq_true] at hni'
    have hig : ¬should_ignore k = true := by
      simp only [Bool.not_eq_true'] at hni'
      simp [hni'.1]
    rw [JObj.keys] at hnd
    rw [List.nodup_cons] at hnd
    rw [JObj.keys, gatherNorm, if_neg hig]
    have hgd : JObj.getD (JObj.cons k v t) k = v := by
      rw [JObj.getD, if_pos rfl]
    rw [hgd]
    have hcongr : gatherNorm (JObj.cons k v t) (JObj.keys t) = gatherNorm t (JObj.keys t) := by
      apply gatherNorm_congr
      intro k2 hk2
      rw [JObj.getD, if_neg ?_]
      intro he
      rw [he] at hnd
      exact hnd.1 hk2
    rw [hcongr, ih hnd.2 hni'.2]

theorem toList_traverseA (h : String) : ∀ xs : JArr,
    JArr.toList (traverseA h xs) = (JArr.toList xs).map (traverse h) := by
  intro xs
  induction xs using jarrTailInd with
  | h0 => rfl
  | h1 x t ih =>
    show traverse h x :: JArr.toList (traverseA h t) =
      traverse h x :: (JArr.toList t).map (traverse h)
    rw [ih]

theorem strLe_of_strLt {a b : String} (h : strLt a b = true) : strLe a b = true := by
  rw [strLt, Bool.and_eq_true] at h
  exact h.1

theorem canonical_traverse (h : String) (hcond : hostAvoidsEnvTok h = true) :
    ∀ (n : Nat) (t : Json), jcount t ≤ n → wfJson t = true →
      canonicalP h (traverse h t) = true := by
  intro n
  induction n using Nat.strong_induction_on with
  | _ n ihn =>
    intro t hsz hwf
    cases t with
    | null => rfl
    | bool b => rfl
    | num m => rfl
    | str s =>
      show (maskFull h (String.mk (maskFull h s.data)).data ==
        (String.mk (maskFull h s.data)).data) = true
      have hd : (String.mk (maskFull h s.data)).data = maskFull h s.data := rfl
      rw [hd, maskFull_idem h hcond]
      simp
    | arr xs =>
      have hsz' : jcountA xs < n := by
        have hj : jcount (Json.arr xs) = 1 + jcountA xs := rfl
        omega
      have hwf' : wfA xs = true := hwf
      show canonicalPA h (traverseA h xs) = true
      rw [canonicalPA_iff_mem]
      intro v hv
      rw [toList_traverseA] at hv
      rcases List.mem_map.mp hv with ⟨v0, hv0, he⟩
      rw [← he]
      have hj := jcount_le_of_mem_toList xs v0 hv0
      exact ihn (jcount v0) (by omega) v0 (le_refl _) (wf_of_mem_toList xs v0 hwf' hv0)
    | obj kvs =>
      have hsz' : jcountO kvs < n := by
        have hj : jcount (Json.obj kvs) = 1 + jcountO kvs := rfl
        omega
      have hwf' : (nodupKeysB kvs && wfO kvs) = true := hwf
      rw [Bool.and_eq_true] at hwf'
      have hnd : (JObj.keys kvs).Nodup := nodupKeysB_nodup kvs hwf'.1
      have hks_nodup : (sortStrs (JObj.keys kvs)).Nodup := sortStrs_nodup hnd
      have hfresh : ∀ x ∈ sortStrs (JObj.keys kvs), x ∉ JObj.keys JObj.nil := by
        intro x _ hx
        exact absurd hx (by simp [JObj.keys])
      show canonicalP h
        (Json.obj (buildNormAcc (traverseO h kvs) JObj.nil (sortStrs (JObj.keys kvs)))) = true
      rw [buildNormAcc_eq _ _ _ hks_nodup hfresh]
      have hoa : objAppend JObj.nil (gatherNorm (traverseO h kvs) (sortStrs (JObj.keys kvs))) =
          gatherNorm (traverseO h kvs) (sortStrs (JObj.keys kvs)) := rfl
      rw [hoa]
      show (adjSortedKeys (gatherNorm (traverseO h kvs) (sortStrs (JObj.keys kvs))) &&
        keysNotIgnored (gatherNorm (traverseO h kvs) (sortStrs (JObj.keys kvs))) &&
        canonicalPO h (gatherNorm (traverseO h kvs) (sortStrs (JObj.keys kvs)))) = true
      rw [Bool.and_eq_true, Bool.and_eq_true]
      refine ⟨⟨?_, ?_⟩, ?_⟩
      · apply adjSorted_of_pairwise
        rw [keys_gatherNorm]
        exact List.Pairwise.filter _
          (pairwise_strLt_of_le_nodup (sortStrs_pairwise _) hks_nodup)
      · rw [keysNotIgnored_iff]
        intro k hk
        rw [keys_gatherNorm] at hk
        have := (List.mem_filter.mp hk).2
        simpa using this
      · rw [canonicalPO_iff]
        intro v hv
        rcases values_gatherNorm_sub _ _ v hv with hm | hnull
        · rw [objValues_traverseO] at hm
          rcases List.mem_map.mp hm with ⟨v0, hv0, he⟩
          rw [← he]
          have hj := jcount_le_of_mem_objValues kvs v0 hv0
          exact ihn (jcount v0) (by omega) v0 (le_refl _) (wf_of_mem_objValues kvs v0 hwf'.2 hv0)
        · rw [hnull]; rfl

theorem traverse_canonical_fix (h : String) :
    ∀ (n : Nat) (t : Json), jcount t ≤ n → canonicalP h t = true → traverse h t = t := by
  intro n
  induction n using Nat.strong_induction_on with
  | _ n ihn =>
    intro t hsz hc
    cases t with
    | null => rfl
    | bool b => rfl
    | num m => rfl
    | str s =>
      have hc' : (maskFull h s.data == s.data) = true := hc
      rw [beq_iff_eq] at hc'
      show Json.str (String.mk (maskFull h s.data)) = Json.str s
      rw [hc']
    | arr xs =>
      have hsz' : jcountA xs < n := by
        have hj : jcount (Json.arr xs) = 1 + jcountA xs := rfl
        omega
      have hc' : canonicalPA h xs = true := hc
      show Json.arr (traverseA h xs) = Json.arr xs
      congr 1
      clear hc hsz
      induction xs using jarrTailInd with
      | h0 => rfl
      | h1 x t ih =>
        have hc2 : (canonicalP h x && canonicalPA h t) = true := hc'
        rw [Bool.and_eq_true] at hc2
        have hjx : jcount x ≤ jcountA (JArr.cons x t) := by rw [jcountA]; omega
        have hjt : jcountA t ≤ jcountA (JArr.cons x t) := by
          have := jcount_pos x
          rw [jcountA]; omega
        rw [traverseA]
        rw [ihn (jcount x) (by omega) x (le_refl _) hc2.1]
        rw [ih (by omega) hc2.2]
    | obj kvs =>
      have hsz' : jcountO kvs < n := by
        have hj : jcount (Json.obj kvs) = 1 + jcountO kvs := rfl
        omega
      have hc' : (adjSortedKeys kvs && keysNotIgnored kvs && canonicalPO h kvs) = true := hc
      rw [Bool.and_eq_true, Bool.and_eq_true] at hc'
      obtain ⟨⟨hadj, hni⟩, hcv⟩ := hc'
      have hpstrict := adjSorted_pairwise kvs hadj
      have hnd : (JObj.keys kvs).Nodup := nodup_of_pairwise_strLt hpstrict
      have hple : (JObj.keys kvs).Pairwise (fun a b => strLe a b = true) :=
        hpstrict.imp (fun hab => strLe_of_strLt hab)
      have hsort : sortStrs (JObj.keys kvs) = JObj.keys kvs := sortStrs_of_pairwise _ hple
      have hto : traverseO h kvs = kvs := by
        clear hc hsz hadj hni hpstrict hnd hple hsort
        induction kvs using jobjTailInd with
        | h0 => rfl
        | h1 k v t ih =>
          have hc2 : (canonicalP h v && canonicalPO h t) = true := hcv
          rw [Bool.and_eq_true] at hc2
          have hjv : jcount v ≤ jcountO (JObj.cons k v t) := by rw [jcountO]; omega
          have hjt : jcountO t ≤ jcountO (JObj.cons k v t) := by
            have := jcount_pos v
            rw [jcountO]; omega
          rw [traverseO]
          rw [ihn (jcount v) (by omega) v (le_refl _) hc2.1]
          rw [ih (by omega) hc2.2]
      have hfresh : ∀ x ∈ JObj.keys kvs, x ∉ JObj.keys JObj.nil := by
        intro x _ hx
        exact absurd hx (by simp [JObj.keys])
      show Json.obj (buildNormAcc (traverseO h kvs) JObj.nil (sortStrs (JObj.keys kvs))) =
        Json.obj kvs
      rw [hsort, hto, buildNormAcc_eq _ _ _ hnd hfresh]
      have hoa : objAppend JObj.nil (gatherNorm kvs (JObj.keys kvs)) =
          gatherNorm kvs (JObj.keys kvs) := rfl
      rw [hoa, gatherNorm_self kvs hnd hni]

set_option maxHeartbeats 2000000 in
theorem parseStrChars_raw (c : Char) (R : List Char) (hq : c ≠ '"') (hb : c ≠ '\\') :
    parseStrChars (c :: R) =
      if c.toNat < 32 then .error "Invalid control character"
      else consParsed c (parseStrChars R) := by
  rw [parseStrChars.eq_def]
  split
  · rename_i heq
    exact absurd heq (by simp)
  · rename_i r heq
    rw [List.cons.injEq] at heq
    exact absurd heq.1 hq
  · rename_i r heq
    rw [List.cons.injEq] at heq
    exact absurd heq.1 hb
  · rename_i c2 r heq
    rw [List.cons.injEq] at heq
    rw [heq.1, heq.2]

theorem digit_enum (c : Char) (hd : c.isDigit = true) :
    c = '0' ∨ c = '1' ∨ c = '2' ∨ c = '3' ∨ c = '4' ∨
    c = '5' ∨ c = '6' ∨ c = '7' ∨ c = '8' ∨ c = '9' := by
  rw [Char.isDigit, Bool.and_eq_true, decide_eq_true_iff, decide_eq_true_iff] at hd
  have h1 : 48 ≤ c.toNat := UInt32.le_toNat_of_le (by decide) hd.1
  have h2 : c.toNat ≤ 57 := UInt32.toNat_le_of_le (by decide) hd.2
  have he : c = Char.ofNat c.toNat := (Char.ofNat_toNat c).symm
  interval_cases h : c.toNat <;> rw [he] <;> decide

theorem parseValue_digit (f : Nat) (c : Char) (r : List Char) (hd : c.isDigit = true) :
    parseValue (f + 1) (c :: r) = parseNumber (c :: r) := by
  rcases digit_enum c hd with h|h|h|h|h|h|h|h|h|h <;> rw [h] <;> rfl

theorem parseValue_minus (f : Nat) (r : List Char) :
    parseValue (f + 1) ('-' :: r) = parseNumber ('-' :: r) := rfl

set_option maxHeartbeats 2000000 in
theorem parseStrChars_u_bmp (a b c2 d : Char) (va vb vc vd : Nat)
    (ha : hexVal a = some va) (hb : hexVal b = some vb)
    (hc : hexVal c2 = some vc) (hd : hexVal d = some vd) (r : List Char)
    (hrange : 4096 * va + 256 * vb + 16 * vc + vd < 55296 ∨
      57344 ≤ 4096 * va + 256 * vb + 16 * vc + vd) :
    parseStrChars ('\\' :: 'u' :: a :: b :: c2 :: d :: r) =
      consParsed (Char.ofNat (4096 * va + 256 * vb + 16 * vc + vd)) (parseStrChars r) := by
  rw [parseStrChars.eq_def]
  split
  · rename_i heq
    exact absurd heq (by simp)
  · rename_i x rest heq
    exact absurd heq (by simp)
  · rename_i x rest heq
    rw [List.cons.injEq] at heq
    obtain ⟨-, hrest⟩ := heq
    subst hrest
    split
    · rename_i heq
      exact absurd heq (by simp)
    · rename_i heq
      exact absurd heq (by simp)
    · rename_i heq
      exact absurd heq (by simp)
    · rename_i heq
      exact absurd heq (by simp)
    · rename_i heq
      exact absurd heq (by simp)
    · rename_i heq
      exact absurd heq (by simp)
    · rename_i heq
      exact absurd heq (by simp)
    · rename_i heq
      exact absurd heq (by simp)
    · rename_i a2 b2 c3 d2 r2 heq
      rw [List.cons.injEq, List.cons.injEq, List.cons.injEq, List.cons.injEq,
        List.cons.injEq] at heq
      obtain ⟨-, h1, h2, h3, h4, h5⟩ := heq
      subst h1; subst h2; subst h3; subst h4; subst h5
      rw [ha, hb, hc, hd]
      dsimp only
      rw [if_neg (by omega), if_neg (by omega)]
    · rename_i hu
      exact (hu a b c2 d r rfl).elim
  · rename_i x cc rest hq1 hq2 heq
    rw [List.cons.injEq] at heq
    exact absurd heq.1.symm hq2

set_option maxHeartbeats 2000000 in
theorem parseStrChars_u_pair (a b c2 d a2 b2 c3 d2 : Char) (va vb vc vd la lb lc ld : Nat)
    (ha : hexVal a = some va) (hb : hexVal b = some vb)
    (hc : hexVal c2 = some vc) (hd : hexVal d = some vd)
    (hla : hexVal a2 = some la) (hlb : hexVal b2 = some lb)
    (hlc : hexVal c3 = some lc) (hld : hexVal d2 = some ld) (r : List Char)
    (hhi : 55296 ≤ 4096 * va + 256 * vb + 16 * vc + vd ∧
      4096 * va + 256 * vb + 16 * vc + vd < 56320)
    (hlo : 56320 ≤ 4096 * la + 256 * lb + 16 * lc + ld ∧
      4096 * la + 256 * lb + 16 * lc + ld < 57344) :
    parseStrChars ('\\' :: 'u' :: a :: b :: c2 :: d :: '\\' :: 'u' :: a2 :: b2 :: c3 :: d2 :: r) =
      consParsed (Char.ofNat (65536 + (4096 * va + 256 * vb + 16 * vc + vd - 55296) * 1024 +
        (4096 * la + 256 * lb + 16 * lc + ld - 56320))) (parseStrChars r) := by
  rw [parseStrChars.eq_def]
  split
  · rename_i heq
    exact absurd heq (by simp)
  · rename_i x rest heq
    exact absurd heq (by simp)
  · rename_i x rest heq
    rw [List.cons.injEq] at heq
    obtain ⟨-, hrest⟩ := heq
    subst hrest
    split
    · rename_i heq
      exact absurd heq (by simp)
    · rename_i heq
      exact absurd heq (by simp)
    · rename_i heq
      exact absurd heq (by simp)
    · rename_i heq
      exact absurd heq (by simp)
    · rename_i heq
      exact absurd heq (by simp)
    · rename_i heq
      exact absurd heq (by simp)
    · rename_i heq
      exact absurd heq (by simp)
    · rename_i heq
      exact absurd heq (by simp)
    · rename_i a9 b9 c9 d9 r9 heq
      rw [List.cons.injEq, List.cons.injEq, List.cons.injEq, List.cons.injEq,
        List.cons.injEq] at heq
      obtain ⟨-, h1, h2, h3, h4, h5⟩ := heq
      subst h1; subst h2; subst h3; subst h4; subst h5
      rw [ha, hb, hc, hd]
      dsimp only
      rw [if_pos (by omega)]
      split
      · rename_i a8 b8 c8 d8 r8 heq
        rw [List.cons.injEq, List.cons.injEq, List.cons.injEq, List.cons.injEq,
          List.cons.injEq, List.cons.injEq] at heq
        obtain ⟨-, -, h1, h2, h3, h4, h5⟩ := heq
        subst h1; subst h2; subst h3; subst h4; subst h5
        rw [hla, hlb, hlc, hld]
        dsimp only
        rw [if_pos (by omega)]
      · rename_i hu
        exact (hu a2 b2 c3 d2 r rfl).elim
    · rename_i hu
      exact (hu a b c2 d ('\\' :: 'u' :: a2 :: b2 :: c3 :: d2 :: r) rfl).elim
  · rename_i x cc rest hq1 hq2 heq
    rw [List.cons.injEq] at heq
    exact absurd heq.1.symm hq2

theorem hexVal_hexDigitChar : ∀ m : Nat, m < 16 → hexVal (hexDigitChar m) = some m := by
  decide

theorem hex4_recompose : ∀ t : Nat, t < 65536 →
    4096 * (t / 4096 % 16) + 256 * (t / 256 % 16) + 16 * (t / 16 % 16) + t % 16 = t := by
  omega

theorem char_range (c : Char) : c.toNat < 55296 ∨ (57343 < c.toNat ∧ c.toNat < 1114112) := by
  have h := c.valid
  rw [UInt32.isValidChar, Nat.isValidChar] at h
  rcases h with h | ⟨h1, h2⟩
  · left; exact h
  · right; exact ⟨h1, h2⟩

set_option maxHeartbeats 2000000 in
theorem parse_serStr : ∀ (cs : List Char) (rest : List Char),
    parseStrChars ((cs.map escapeChar).flatten ++ '"' :: rest) = .ok (cs, rest) := by
  intro cs
  induction cs with
  | nil => intro rest; rfl
  | cons c cs ih =>
    intro rest
    rw [List.map_cons, List.flatten_cons, List.append_assoc]
    rw [escapeChar]
    by_cases h1 : c = '"'
    · rw [if_pos h1]
      subst h1
      have e : parseStrChars ('\\' :: '"' :: ((cs.map escapeChar).flatten ++ '"' :: rest)) =
        consParsed '"' (parseStrChars ((cs.map escapeChar).flatten ++ '"' :: rest)) := rfl
      rw [show (['\\', '"'] : List Char) ++ ((cs.map escapeChar).flatten ++ '"' :: rest) =
        '\\' :: '"' :: ((cs.map escapeChar).flatten ++ '"' :: rest) from rfl, e, ih]
      rfl
    rw [if_neg h1]
    by_cases h2 : c = '\\'
    · rw [if_pos h2]
      subst h2
      have e : parseStrChars ('\\' :: '\\' :: ((cs.map escapeChar).flatten ++ '"' :: rest)) =
        consParsed '\\' (parseStrChars ((cs.map escapeChar).flatten ++ '"' :: rest)) := rfl
      rw [show (['\\', '\\'] : List Char) ++ ((cs.map escapeChar).flatten ++ '"' :: rest) =
        '\\' :: '\\' :: ((cs.map escapeChar).flatten ++ '"' :: rest) from rfl, e, ih]
      rfl
    rw [if_neg h2]
    by_cases h3 : c = '\x08'
    · rw [if_pos h3]
      subst h3
      have e : parseStrChars ('\\' :: 'b' :: ((cs.map escapeChar).flatten ++ '"' :: rest)) =
        consParsed '\x08' (parseStrChars ((cs.map escapeChar).flatten ++ '"' :: rest)) := rfl
      rw [show (['\\', 'b'] : List Char) ++ ((cs.map escapeChar).flatten ++ '"' :: rest) =
        '\\' :: 'b' :: ((cs.map escapeChar).flatten ++ '"' :: rest) from rfl, e, ih]
      rfl
    rw [if_neg h3]
    by_cases h4 : c = '\x09'
    · rw [if_pos h4]
      subst h4
      have e : parseStrChars ('\\' :: 't' :: ((cs.map escapeChar).flatten ++ '"' :: rest)) =
        consParsed '\x09' (parseStrChars ((cs.map escapeChar).flatten ++ '"' :: rest)) := rfl
      rw [show (['\\', 't'] : List Char) ++ ((cs.map escapeChar).flatten ++ '"' :: rest) =
        '\\' :: 't' :: ((cs.map escapeChar).flatten ++ '"' :: rest) from rfl, e, ih]
      rfl
    rw [if_neg h4]
    by_cases h5 : c = '\x0a'
    · rw [if_pos h5]
      subst h5
      have e : parseStrChars ('\\' :: 'n' :: ((cs.map escapeChar).flatten ++ '"' :: rest)) =
        consParsed '\x0a' (parseStrChars ((cs.map escapeChar).flatten ++ '"' :: rest)) := rfl
      rw [show (['\\', 'n'] : List Char) ++ ((cs.map escapeChar).flatten ++ '"' :: rest) =
        '\\' :: 'n' :: ((cs.map escapeChar).flatten ++ '"' :: rest) from rfl, e, ih]
      rfl
    rw [if_neg h5]
    by_cases h6 : c = '\x0c'
    · rw [if_pos h6]
      subst h6
      have e : parseStrChars ('\\' :: 'f' :: ((cs.map escapeChar).flatten ++ '"' :: rest)) =
        consParsed '\x0c' (parseStrChars ((cs.map escapeChar).flatten ++ '"' :: rest)) := rfl
      rw [show (['\\', 'f'] : List Char) ++ ((cs.map escapeChar).flatten ++ '"' :: rest) =
        '\\' :: 'f' :: ((cs.map escapeChar).flatten ++ '"' :: rest) from rfl, e, ih]
      rfl
    rw [if_neg h6]
    by_cases h7 : c = '\x0d'
    · rw [if_pos h7]
      subst h7
      have e : parseStrChars ('\\' :: 'r' :: ((cs.map escapeChar).flatten ++ '"' :: rest)) =
        consParsed '\x0d' (parseStrChars ((cs.map escapeChar).flatten ++ '"' :: rest)) := rfl
      rw [show (['\\', 'r'] : List Char) ++ ((cs.map escapeChar).flatten ++ '"' :: rest) =
        '\\' :: 'r' :: ((cs.map escapeChar).flatten ++ '"' :: rest) from rfl, e, ih]
      rfl
    rw [if_neg h7]
    by_cases h8 : c.toNat < 32
    · rw [if_pos h8, toHex4]
      rw [show ('\\' :: 'u' :: [hexDigitChar (c.toNat / 4096 % 16), hexDigitChar (c.toNat / 256 % 16),
          hexDigitChar (c.toNat / 16 % 16), hexDigitChar (c.toNat % 16)]) ++
          ((cs.map escapeChar).flatten ++ '"' :: rest) =
        '\\' :: 'u' :: hexDigitChar (c.toNat / 4096 % 16) :: hexDigitChar (c.toNat / 256 % 16) ::
          hexDigitChar (c.toNat / 16 % 16) :: hexDigitChar (c.toNat % 16) ::
          ((cs.map escapeChar).flatten ++ '"' :: rest) from rfl]
      rw [parseStrChars_u_bmp _ _ _ _ _ _ _ _
        (hexVal_hexDigitChar _ (by omega)) (hexVal_hexDigitChar _ (by omega))
        (hexVal_hexDigitChar _ (by omega)) (hexVal_hexDigitChar _ (by omega)) _
        (by rw [hex4_recompose c.toNat (by omega)]; omega)]
      rw [hex4_recompose c.toNat (by omega), Char.ofNat_toNat, ih]
      rfl
    rw [if_neg h8]
    by_cases h9 : c.toNat < 128
    · rw [if_pos h9]
      rw [show ([c] : List Char) ++ ((cs.map escapeChar).flatten ++ '"' :: rest) =
        c :: ((cs.map escapeChar).flatten ++ '"' :: rest) from rfl]
      rw [parseStrChars_raw c _ h1 h2, if_neg h8, ih]
      rfl
    rw [if_neg h9]
    by_cases h10 : c.toNat < 65536
    · rw [if_pos h10, toHex4]
      rw [show ('\\' :: 'u' :: [hexDigitChar (c.toNat / 4096 % 16), hexDigitChar (c.toNat / 256 % 16),
          hexDigitChar (c.toNat / 16 % 16), hexDigitChar (c.toNat % 16)]) ++
          ((cs.map escapeChar).flatten ++ '"' :: rest) =
        '\\' :: 'u' :: hexDigitChar (c.toNat / 4096 % 16) :: hexDigitChar (c.toNat / 256 % 16) ::
          hexDigitChar (c.toNat / 16 % 16) :: hexDigitChar (c.toNat % 16) ::
          ((cs.map escapeChar).flatten ++ '"' :: rest) from rfl]
      have hr := char_range c
      rw [parseStrChars_u_bmp _ _ _ _ _ _ _ _
        (hexVal_hexDigitChar _ (by omega)) (hexVal_hexDigitChar _ (by omega))
        (hexVal_hexDigitChar _ (by omega)) (hexVal_hexDigitChar _ (by omega)) _
        (by rw [hex4_recompose c.toNat (by omega)]; omega)]
      rw [hex4_recompose c.toNat (by omega), Char.ofNat_toNat, ih]
      rfl
    rw [if_neg h10, toHex4, toHex4]
    have hr := char_range c
    rw [show (('\\' :: 'u' :: [hexDigitChar ((55296 + (c.toNat - 65536) / 1024) / 4096 % 16),
          hexDigitChar ((55296 + (c.toNat - 65536) / 1024) / 256 % 16),
          hexDigitChar ((55296 + (c.toNat - 65536) / 1024) / 16 % 16),
          hexDigitChar ((55296 + (c.toNat - 65536) / 1024) % 16)]) ++
        ('\\' :: 'u' :: [hexDigitChar ((56320 + (c.toNat - 65536) % 1024) / 4096 % 16),
          hexDigitChar ((56320 + (c.toNat - 65536) % 1024) / 256 % 16),
          hexDigitChar ((56320 + (c.toNat - 65536) % 1024) / 16 % 16),
          hexDigitChar ((56320 + (c.toNat - 65536) % 1024) % 16)])) ++
        ((cs.map escapeChar).flatten ++ '"' :: rest) =
      '\\' :: 'u' :: hexDigitChar ((55296 + (c.toNat - 65536) / 1024) / 4096 % 16) ::
        hexDigitChar ((55296 + (c.toNat - 65536) / 1024) / 256 % 16) ::
        hexDigitChar ((55296 + (c.toNat - 65536) / 1024) / 16 % 16) ::
        hexDigitChar ((55296 + (c.toNat - 65536) / 1024) % 16) ::
        '\\' :: 'u' :: hexDigitChar ((56320 + (c.toNat - 65536) % 1024) / 4096 % 16) ::
        hexDigitChar ((56320 + (c.toNat - 65536) % 1024) / 256 % 16) ::
        hexDigitChar ((56320 + (c.toNat - 65536) % 1024) / 16 % 16) ::
        hexDigitChar ((56320 + (c.toNat - 65536) % 1024) % 16) ::
        ((cs.map escapeChar).flatten ++ '"' :: rest) from rfl]
    rw [parseStrChars_u_pair _ _ _ _ _ _ _ _ _ _ _ _ _ _ _ _
      (hexVal_hexDigitChar _ (by omega)) (hexVal_hexDigitChar _ (by omega))
      (hexVal_hexDigitChar _ (by omega)) (hexVal_hexDigitChar _ (by omega))
      (hexVal_hexDigitChar _ (by omega)) (hexVal_hexDigitChar _ (by omega))
      (hexVal_hexDigitChar _ (by omega)) (hexVal_hexDigitChar _ (by omega)) _
      (by rw [hex4_recompose (55296 + (c.toNat - 65536) / 1024) (by omega)]; omega)
      (by rw [hex4_recompose (56320 + (c.toNat - 65536) % 1024) (by omega)]; omega)]
    rw [hex4_recompose (55296 + (c.toNat - 65536) / 1024) (by omega),
      hex4_recompose (56320 + (c.toNat - 65536) % 1024) (by omega)]
    rw [show 65536 + (55296 + (c.toNat - 65536) / 1024 - 55296) * 1024 +
        (56320 + (c.toNat - 65536) % 1024 - 56320) = c.toNat from by omega]
    rw [Char.ofNat_toNat, ih]
    rfl

theorem natDigitsF_digit_form : ∀ (f n : Nat) (c : Char), c ∈ natDigitsF f n →
    ∃ m, m < 10 ∧ c = Char.ofNat (48 + m) := by
  intro f
  induction f with
  | zero =>
    intro n c hc
    rw [natDigitsF] at hc
    rcases List.mem_singleton.mp hc with he
    exact ⟨n % 10, Nat.mod_lt _ (by omega), he⟩
  | succ f ih =>
    intro n c hc
    rw [natDigitsF] at hc
    by_cases hn : n < 10
    · rw [if_pos hn] at hc
      exact ⟨n, hn, List.mem_singleton.mp hc⟩
    · rw [if_neg hn] at hc
      rcases List.mem_append.mp hc with hl | hr
      · exact ih (n / 10) c hl
      · exact ⟨n % 10, Nat.mod_lt _ (by omega), List.mem_singleton.mp hr⟩

theorem digit_char_toNat : ∀ m : Nat, m < 10 → (Char.ofNat (48 + m)).toNat = 48 + m := by
  decide

theorem digit_char_isDigit : ∀ m : Nat, m < 10 → (Char.ofNat (48 + m)).isDigit = true := by
  decide

theorem digit_char_nonzero : ∀ m : Nat, 1 ≤ m → m < 10 → Char.ofNat (48 + m) ≠ '0' := by
  decide

theorem takeDigits_append : ∀ (ds r : List Char), (∀ c ∈ ds, c.isDigit = true) →
    (match r with | [] => True | c :: _ => c.isDigit = false) →
    takeDigits (ds ++ r) = (ds, r) := by
  intro ds
  induction ds with
  | nil =>
    intro r _ hr
    cases r with
    | nil => rfl
    | cons c r' =>
      have hr' : c.isDigit = false := hr
      show takeDigits (c :: r') = ([], c :: r')
      have hred : takeDigits (c :: r') =
          (if c.isDigit = true then (c :: (takeDigits r').1, (takeDigits r').2)
           else ([], c :: r')) := rfl
      rw [hred, if_neg (by simp [hr'])]
  | cons d ds ih =>
    intro r hds hr
    show takeDigits (d :: (ds ++ r)) = (d :: ds, r)
    have hred : takeDigits (d :: (ds ++ r)) =
        (if d.isDigit = true then (d :: (takeDigits (ds ++ r)).1, (takeDigits (ds ++ r)).2)
         else ([], d :: (ds ++ r))) := rfl
    rw [hred, if_pos (hds d (List.mem_cons_self _ _))]
    rw [ih r (fun c hc => hds c (List.mem_cons_of_mem _ hc)) hr]

theorem digitsVal_append_one (ds : List Char) (d : Char) :
    digitsVal (ds ++ [d]) = 10 * digitsVal ds + (d.toNat - 48) := by
  rw [digitsVal, digitsVal, List.foldl_append]
  rfl

theorem digitsVal_natDigitsF : ∀ (f n : Nat), n ≤ f → digitsVal (natDigitsF f n) = n := by
  intro f
  induction f with
  | zero =>
    intro n hn
    have : n = 0 := by omega
    subst this
    decide
  | succ f ih =>
    intro n hn
    rw [natDigitsF]
    by_cases h10 : n < 10
    · rw [if_pos h10]
      show digitsVal [Char.ofNat (48 + n)] = n
      rw [digitsVal]
      show 10 * 0 + ((Char.ofNat (48 + n)).toNat - 48) = n
      rw [digit_char_toNat n h10]
      omega
    · rw [if_neg h10]
      rw [digitsVal_append_one, ih (n / 10) (by omega), digit_char_toNat (n % 10) (by omega)]
      omega

theorem natDigitsF_head_nonzero : ∀ (f n : Nat), 1 ≤ n → n ≤ f → ∀ (d : Char) (ds : List Char),
    natDigitsF f n = d :: ds → d ≠ '0' := by
  intro f
  induction f with
  | zero => intro n h1 h2; omega
  | succ f ih =>
    intro n h1 _ d ds heq
    rw [natDigitsF] at heq
    by_cases h10 : n < 10
    · rw [if_pos h10] at heq
      rw [List.cons.injEq] at heq
      rw [← heq.1]
      exact digit_char_nonzero n h1 h10
    · rw [if_neg h10] at heq
      cases hnd : natDigitsF f (n / 10) with
      | nil => exact absurd hnd (natDigitsF_ne_nil f (n / 10))
      | cons e es =>
        rw [hnd] at heq
        rw [List.cons_append, List.cons.injEq] at heq
        rw [← heq.1]
        exact ih (n / 10) (by omega) (by omega) e es hnd

theorem digit_char_ne : ∀ m : Nat, m < 10 → (Char.ofNat (48 + m) ≠ '-' ∧
    Char.ofNat (48 + m) ≠ '0' ∨ m = 0 ∧ Char.ofNat (48 + m) = '0') := by decide

theorem goodFollow_not_digit : ∀ {r : List Char}, goodFollow r = true →
    (match r with | [] => True | c :: _ => c.isDigit = false) := by
  intro r h
  cases r with
  | nil => trivial
  | cons c r' =>
    show c.isDigit = false
    have h' : (decide (c = ',') || decide (c = ']') || decide (c = '\x7d')) = true := h
    rw [Bool.or_eq_true, Bool.or_eq_true, decide_eq_true_iff, decide_eq_true_iff,
      decide_eq_true_iff] at h'
    rcases h' with (h1 | h1) | h1 <;> subst h1 <;> decide

theorem parseNumber_natRepr (m : Nat) (r : List Char) (hgf : goodFollow r = true) :
    parseNumber (natRepr m ++ r) = .ok (.num (Int.ofNat m), r) := by
  cases hrep : natRepr m with
  | nil => exact absurd hrep (natDigitsF_ne_nil m m)
  | cons d ds =>
    have hd_isdigit : ∀ c ∈ natRepr m, c.isDigit = true := by
      intro c hc
      obtain ⟨k, hk, he⟩ := natDigitsF_digit_form m m c hc
      rw [he]; exact digit_char_isDigit k hk
    have htd : takeDigits (d :: (ds ++ r)) = (d :: ds, r) := by
      rw [show d :: (ds ++ r) = (d :: ds) ++ r from rfl, ← hrep]
      exact takeDigits_append _ _ hd_isdigit (goodFollow_not_digit hgf)
    obtain ⟨k, hk, hdform⟩ := natDigitsF_digit_form m m d (by rw [show natDigitsF m m = d :: ds from hrep]; exact List.mem_cons_self d ds)
    rw [List.cons_append]
    rw [parseNumber.eq_def]
    dsimp only
    have hne : d ≠ '-' := by
      rw [hdform]
      rcases digit_char_ne k hk with ⟨h1, _⟩ | ⟨_, h1⟩
      · exact h1
      · rw [h1]; decide
    have hl2 : (match d :: (ds ++ r) with | '-' :: r => r | x => d :: (ds ++ r)) =
        d :: (ds ++ r) := by
      rcases digit_enum d (hd_isdigit d (by rw [hrep]; exact List.mem_cons_self d ds)) with h|h|h|h|h|h|h|h|h|h <;> rw [h] <;> rfl
    have hsgn : (match d :: (ds ++ r) with | '-' :: tail => true | x => false) = false := by
      rcases digit_enum d (hd_isdigit d (by rw [hrep]; exact List.mem_cons_self d ds)) with h|h|h|h|h|h|h|h|h|h <;> rw [h] <;> rfl
    rw [hl2, hsgn, htd]
    dsimp only
    have hno : ¬(d = '0' ∧ ds ≠ []) := by
      rintro ⟨hd0, hds⟩
      by_cases hm : m = 0
      · subst hm
        have h0 : natRepr 0 = ['0'] := by decide
        rw [h0] at hrep
        rw [List.cons.injEq] at hrep
        exact hds hrep.2.symm
      · exact natDigitsF_head_nonzero m m (by omega) (le_refl _) d ds hrep hd0
    rw [if_neg hno]
    have hval : digitsVal (d :: ds) = m := by
      rw [← hrep]
      exact digitsVal_natDigitsF m m (le_refl _)
    cases r with
    | nil =>
      dsimp only
      rw [hval]
      rfl
    | cons c r' =>
      have h' : (decide (c = ',') || decide (c = ']') || decide (c = '}')) = true := hgf
      rw [Bool.or_eq_true, Bool.or_eq_true, decide_eq_true_iff, decide_eq_true_iff,
        decide_eq_true_iff] at h'
      dsimp only
      rcases h' with (h1 | h1) | h1 <;> subst h1 <;>
        rw [if_neg (by decide)] <;> rw [hval] <;> rfl

theorem parseNumber_negRepr (m : Nat) (r : List Char) (hgf : goodFollow r = true) :
    parseNumber (('-' :: natRepr (m + 1)) ++ r) = .ok (.num (Int.negSucc m), r) := by
  rw [List.cons_append]
  cases hrep : natRepr (m + 1) with
  | nil => exact absurd hrep (natDigitsF_ne_nil (m + 1) (m + 1))
  | cons d ds =>
    have hd_isdigit : ∀ c ∈ natRepr (m + 1), c.isDigit = true := by
      intro c hc
      obtain ⟨k, hk, he⟩ := natDigitsF_digit_form (m + 1) (m + 1) c hc
      rw [he]; exact digit_char_isDigit k hk
    have htd : takeDigits (d :: (ds ++ r)) = (d :: ds, r) := by
      rw [show d :: (ds ++ r) = (d :: ds) ++ r from rfl, ← hrep]
      exact takeDigits_append _ _ hd_isdigit (goodFollow_not_digit hgf)
    rw [List.cons_append]
    rw [parseNumber.eq_def]
    dsimp only
    have hl2 : (match '-' :: (d :: (ds ++ r)) with | '-' :: r => r | x => '-' :: (d :: (ds ++ r))) =
        d :: (ds ++ r) := rfl
    have hsgn : (match '-' :: (d :: (ds ++ r)) with | '-' :: tail => true | x => false) =
        true := rfl
    rw [hl2, hsgn, htd]
    dsimp only
    have hno : ¬(d = '0' ∧ ds ≠ []) := by
      rintro ⟨hd0, -⟩
      exact natDigitsF_head_nonzero (m + 1) (m + 1) (by omega) (le_refl _) d ds hrep hd0
    rw [if_neg hno]
    have hval : digitsVal (d :: ds) = m + 1 := by
      rw [← hrep]
      exact digitsVal_natDigitsF (m + 1) (m + 1) (le_refl _)
    have hneg : -((digitsVal (d :: ds) : Int)) = Int.negSucc m := by
      rw [hval, Int.negSucc_eq]
      push_cast
      ring
    cases r with
    | nil =>
      dsimp only
      rw [hneg]
      rfl
    | cons c r' =>
      have h' : (decide (c = ',') || decide (c = ']') || decide (c = '\x7d')) = true := hgf
      rw [Bool.or_eq_true, Bool.or_eq_true, decide_eq_true_iff, decide_eq_true_iff,
        decide_eq_true_iff] at h'
      dsimp only
      rcases h' with (h1 | h1) | h1 <;> subst h1 <;>
        rw [if_neg (by decide)] <;> rw [hneg] <;> rfl

theorem serJson_length_pos (x : Json) : 1 ≤ (serJson x).length := by
  have := serJson_ne_nil x
  cases h : serJson x with
  | nil => exact absurd h this
  | cons c cs => simp

theorem serStr_length (s : String) : (serStr s).length = (s.data.map escapeChar).flatten.length + 2 := by
  rw [serStr]
  simp

theorem serJson_arr_length (xs : JArr) :
    (serJson (Json.arr xs)).length = (serArr xs).length + 2 := by
  show ('[' :: serArr xs ++ [']']).length = (serArr xs).length + 2
  simp

theorem serJson_obj_length (kvs : JObj) :
    (serJson (Json.obj kvs)).length = (serObjItems kvs).length + 2 := by
  show ('\x7b' :: serObjItems kvs ++ ['\x7d']).length = (serObjItems kvs).length + 2
  simp

theorem serArr_cons2_length (x y : Json) (ts : JArr) :
    (serArr (JArr.cons x (JArr.cons y ts))).length =
      (serJson x).length + 1 + (serArr (JArr.cons y ts)).length := by
  show (serJson x ++ ',' :: serArr (JArr.cons y ts)).length = _
  simp
  omega

theorem serObjItems_cons1_length (k : String) (v : Json) :
    (serObjItems (JObj.cons k v JObj.nil)).length = (serStr k).length + 1 + (serJson v).length := by
  show (serStr k ++ ':' :: serJson v).length = _
  simp
  omega

theorem serObjItems_cons2_length (k k2 : String) (v v2 : Json) (ts : JObj) :
    (serObjItems (JObj.cons k v (JObj.cons k2 v2 ts))).length =
      (serStr k).length + 1 + (serJson v).length + 1 +
        (serObjItems (JObj.cons k2 v2 ts)).length := by
  show (serStr k ++ ':' :: serJson v ++ ',' :: serObjItems (JObj.cons k2 v2 ts)).length = _
  simp
  omega

theorem skipWs_cons_not (c : Char) (r : List Char) (h : isWs c = false) :
    skipWs (c :: r) = c :: r := by
  have hred : skipWs (c :: r) = if isWs c then skipWs r else c :: r := rfl
  rw [hred, h]
  rfl

theorem digit_char_head_facts : ∀ m : Nat, m < 10 →
    (isWs (Char.ofNat (48 + m)) = false ∧ Char.ofNat (48 + m) ≠ ']') := by decide

theorem serJson_head_facts (x : Json) : ∀ c X, serJson x = c :: X →
    isWs c = false ∧ c ≠ ']' := by
  intro c X h
  cases x with
  | null =>
    rw [show serJson Json.null = ['n', 'u', 'l', 'l'] from rfl, List.cons.injEq] at h
    rw [← h.1]
    exact ⟨rfl, by decide⟩
  | bool b =>
    cases b
    · rw [show serJson (Json.bool false) = ['f', 'a', 'l', 's', 'e'] from rfl,
        List.cons.injEq] at h
      rw [← h.1]
      exact ⟨rfl, by decide⟩
    · rw [show serJson (Json.bool true) = ['t', 'r', 'u', 'e'] from rfl,
        List.cons.injEq] at h
      rw [← h.1]
      exact ⟨rfl, by decide⟩
  | num n =>
    cases n with
    | ofNat m =>
      rw [show serJson (Json.num (Int.ofNat m)) = natRepr m from rfl] at h
      have hm : c ∈ natRepr m := by rw [h]; exact List.mem_cons_self _ _
      obtain ⟨j, hj, he⟩ := natDigitsF_digit_form m m c hm
      rw [he]
      exact digit_char_head_facts j hj
    | negSucc m =>
      rw [show serJson (Json.num (Int.negSucc m)) = '-' :: natRepr (m + 1) from rfl,
        List.cons.injEq] at h
      rw [← h.1]
      exact ⟨rfl, by decide⟩
  | str s =>
    rw [show serJson (Json.str s) = '"' :: ((s.data.map escapeChar).flatten ++ ['"']) from rfl,
      List.cons.injEq] at h
    rw [← h.1]
    exact ⟨rfl, by decide⟩
  | arr xs =>
    rw [show serJson (Json.arr xs) = '[' :: (serArr xs ++ [']']) from rfl,
      List.cons.injEq] at h
    rw [← h.1]
    exact ⟨rfl, by decide⟩
  | obj kvs =>
    rw [show serJson (Json.obj kvs) = '\x7b' :: (serObjItems kvs ++ ['\x7d']) from rfl,
      List.cons.injEq] at h
    rw [← h.1]
    exact ⟨rfl, by decide⟩

set_option maxHeartbeats 4000000 in
theorem parse_ser_master : ∀ F : Nat,
    (∀ (x : Json) (rest : List Char), wfJson x = true → goodFollow rest = true →
      (serJson x).length + 1 ≤ F → parseValue F (serJson x ++ rest) = .ok (x, rest)) ∧
    (∀ (x : Json) (ts : JArr) (rest : List Char), wfJson x = true → wfA ts = true →
      goodFollow rest = true → (serArr (JArr.cons x ts)).length + 2 ≤ F →
      parseArrItems F (serArr (JArr.cons x ts) ++ ']' :: rest) = .ok (JArr.cons x ts, rest)) ∧
    (∀ (k : String) (v : Json) (ts : JObj) (rest : List Char) (acc : JObj),
      wfJson v = true → wfO ts = true → nodupKeysB (JObj.cons k v ts) = true →
      goodFollow rest = true →
      (∀ k2 ∈ JObj.keys (JObj.cons k v ts), k2 ∉ JObj.keys acc) →
      (serObjItems (JObj.cons k v ts)).length + 2 ≤ F →
      parseObjItems F (serObjItems (JObj.cons k v ts) ++ '\x7d' :: rest) acc =
        .ok (.obj (objAppend acc (JObj.cons k v ts)), rest)) := by
  intro F
  induction F using Nat.strong_induction_on with
  | _ F ihF =>
    refine ⟨?_, ?_, ?_⟩
    · -- part 1: parseValue
      intro x rest hwf hgf hlen
      cases F with
      | zero => omega
      | succ f =>
        cases x with
        | null => rfl
        | bool b => cases b <;> rfl
        | num n =>
          cases n with
          | ofNat m =>
            show parseValue (f + 1) (natRepr m ++ rest) = .ok (.num (Int.ofNat m), rest)
            cases hrep : natRepr m with
            | nil => exact absurd hrep (natDigitsF_ne_nil m m)
            | cons d ds =>
              rw [List.cons_append]
              have hdig : d.isDigit = true := by
                obtain ⟨j, hj, he⟩ := natDigitsF_digit_form m m d
                  (by rw [show natDigitsF m m = d :: ds from hrep]; exact List.mem_cons_self _ _)
                rw [he]
                exact digit_char_isDigit j hj
              rw [parseValue_digit f d (ds ++ rest) hdig]
              rw [← List.cons_append, ← hrep]
              exact parseNumber_natRepr m rest hgf
          | negSucc m =>
            show parseValue (f + 1) (('-' :: natRepr (m + 1)) ++ rest) =
              .ok (.num (Int.negSucc m), rest)
            rw [List.cons_append, parseValue_minus f (natRepr (m + 1) ++ rest),
              ← List.cons_append]
            exact parseNumber_negRepr m rest hgf
        | str s =>
          show parseValue (f + 1) (serStr s ++ rest) = .ok (.str s, rest)
          rw [show serStr s ++ rest =
            '"' :: ((s.data.map escapeChar).flatten ++ '"' :: rest) from by
              rw [serStr]
              simp]
          have hred : parseValue (f + 1)
              ('"' :: ((s.data.map escapeChar).flatten ++ '"' :: rest)) =
            (match parseStrChars ((s.data.map escapeChar).flatten ++ '"' :: rest) with
             | .ok (cs, r2) => .ok (.str (String.mk cs), r2)
             | .error e => .error e) := rfl
          rw [hred, parse_serStr s.data rest]
        | arr xs =>
          cases xs with
          | nil =>
            show parseValue (f + 1) ('[' :: ']' :: rest) = .ok (.arr .nil, rest)
            rfl
          | cons x ts =>
            show parseValue (f + 1) (('[' :: serArr (JArr.cons x ts) ++ [']']) ++ rest) =
              .ok (.arr (JArr.cons x ts), rest)
            rw [show ('[' :: serArr (JArr.cons x ts) ++ [']']) ++ rest =
              '[' :: (serArr (JArr.cons x ts) ++ ']' :: rest) from by simp]
            have hred : parseValue (f + 1) ('[' :: (serArr (JArr.cons x ts) ++ ']' :: rest)) =
              (match skipWs (serArr (JArr.cons x ts) ++ ']' :: rest) with
               | ']' :: r2 => .ok (.arr .nil, r2)
               | r2 =>
                 (match parseArrItems f r2 with
                  | .ok (items, r3) => .ok (.arr items, r3)
                  | .error e => .error e)) := rfl
            rw [hred]
            have hser : ∃ c X, serJson x = c :: X := by
              cases hs : serJson x with
              | nil => exact absurd hs (serJson_ne_nil x)
              | cons c X => exact ⟨c, X, rfl⟩
            obtain ⟨c, X, hcx⟩ := hser
            have hhead := serJson_head_facts x c X hcx
            have harr : ∃ Y, serArr (JArr.cons x ts) ++ ']' :: rest = c :: Y := by
              cases ts with
              | nil =>
                refine ⟨X ++ ']' :: rest, ?_⟩
                show serJson x ++ ']' :: rest = _
                rw [hcx]
                simp
              | cons y ts2 =>
                refine ⟨X ++ ',' :: (serArr (JArr.cons y ts2) ++ ']' :: rest), ?_⟩
                show (serJson x ++ ',' :: serArr (JArr.cons y ts2)) ++ ']' :: rest = _
                rw [hcx]
                simp
            obtain ⟨Y, hY⟩ := harr
            rw [hY, skipWs_cons_not c _ hhead.1]
            split
            · rename_i r2 heq
              rw [List.cons.injEq] at heq
              exact absurd heq.1 hhead.2
            · rw [← hY]
              have hlen2 : (serArr (JArr.cons x ts)).length + 2 ≤ f := by
                have := serJson_arr_length (JArr.cons x ts)
                omega
              have hwfa : (wfJson x && wfA ts) = true := hwf
              rw [Bool.and_eq_true] at hwfa
              rw [(ihF f (by omega)).2.1 x ts rest hwfa.1 hwfa.2 hgf hlen2]
        | obj kvs =>
          cases kvs with
          | nil =>
            show parseValue (f + 1) ('\x7b' :: '\x7d' :: rest) = .ok (.obj .nil, rest)
            rfl
          | cons k v ts =>
            show parseValue (f + 1) (('\x7b' :: serObjItems (JObj.cons k v ts) ++ ['\x7d']) ++ rest) =
              .ok (.obj (JObj.cons k v ts), rest)
            rw [show ('\x7b' :: serObjItems (JObj.cons k v ts) ++ ['\x7d']) ++ rest =
              '\x7b' :: (serObjItems (JObj.cons k v ts) ++ '\x7d' :: rest) from by simp]
            have hobjhead : ∃ Z, serObjItems (JObj.cons k v ts) ++ '\x7d' :: rest = '"' :: Z := by
              cases ts with
              | nil =>
                refine ⟨((k.data.map escapeChar).flatten ++ ['"']) ++
                  (':' :: serJson v) ++ '\x7d' :: rest, ?_⟩
                show (serStr k ++ ':' :: serJson v) ++ '\x7d' :: rest = _
                rw [serStr]
                simp
              | cons k2 v2 ts2 =>
                refine ⟨((k.data.map escapeChar).flatten ++ ['"']) ++
                  (':' :: serJson v ++ ',' :: serObjItems (JObj.cons k2 v2 ts2)) ++
                  '\x7d' :: rest, ?_⟩
                show (serStr k ++ ':' :: serJson v ++ ',' :: serObjItems (JObj.cons k2 v2 ts2)) ++
                  '\x7d' :: rest = _
                rw [serStr]
                simp
            obtain ⟨Z, hZ⟩ := hobjhead
            have hred : parseValue (f + 1) ('\x7b' :: ('"' :: Z)) =
              parseObjItems f ('"' :: Z) JObj.nil := rfl
            rw [hZ, hred, ← hZ]
            have hlen2 : (serObjItems (JObj.cons k v ts)).length + 2 ≤ f := by
              have := serJson_obj_length (JObj.cons k v ts)
              omega
            have hwfo : (nodupKeysB (JObj.cons k v ts) && wfO (JObj.cons k v ts)) = true := hwf
            rw [Bool.and_eq_true] at hwfo
            have hwfv : (wfJson v && wfO ts) = true := hwfo.2
            rw [Bool.and_eq_true] at hwfv
            rw [(ihF f (by omega)).2.2 k v ts rest JObj.nil hwfv.1 hwfv.2 hwfo.1 hgf
              (by intro k2 _ hk2; exact absurd hk2 (by simp [JObj.keys])) hlen2]
            rfl
    · -- part 2: parseArrItems
      intro x ts rest hwfx hwfts hgf hlen
      cases F with
      | zero => omega
      | succ f =>
        cases ts with
        | nil =>
          show parseArrItems (f + 1) (serJson x ++ ']' :: rest) = .ok (JArr.cons x JArr.nil, rest)
          have hred : parseArrItems (f + 1) (serJson x ++ ']' :: rest) =
            (match parseValue f (serJson x ++ ']' :: rest) with
             | .ok (v, r) =>
               (match skipWs r with
                | ',' :: r2 =>
                  (match parseArrItems f r2 with
                   | .ok (tl, r3) => .ok (JArr.cons v tl, r3)
                   | .error e => .error e)
                | ']' :: r2 => .ok (JArr.cons v .nil, r2)
                | _ => .error "Expecting comma or bracket")
             | .error e => .error e) := rfl
          have hlen1 : (serJson x).length + 1 ≤ f := by
            have : (serArr (JArr.cons x JArr.nil)).length = (serJson x).length := rfl
            omega
          rw [hred, (ihF f (by omega)).1 x (']' :: rest) hwfx (by rfl) hlen1]
          rfl
        | cons y ts2 =>
          show parseArrItems (f + 1)
              ((serJson x ++ ',' :: serArr (JArr.cons y ts2)) ++ ']' :: rest) =
            .ok (JArr.cons x (JArr.cons y ts2), rest)
          rw [show (serJson x ++ ',' :: serArr (JArr.cons y ts2)) ++ ']' :: rest =
            serJson x ++ ',' :: (serArr (JArr.cons y ts2) ++ ']' :: rest) from by simp]
          have hred : parseArrItems (f + 1)
              (serJson x ++ ',' :: (serArr (JArr.cons y ts2) ++ ']' :: rest)) =
            (match parseValue f (serJson x ++ ',' :: (serArr (JArr.cons y ts2) ++ ']' :: rest)) with
             | .ok (v, r) =>
               (match skipWs r with
                | ',' :: r2 =>
                  (match parseArrItems f r2 with
                   | .ok (tl, r3) => .ok (JArr.cons v tl, r3)
                   | .error e => .error e)
                | ']' :: r2 => .ok (JArr.cons v .nil, r2)
                | _ => .error "Expecting comma or bracket")
             | .error e => .error e) := rfl
          have hlen1 : (serJson x).length + 1 ≤ f := by
            have h2 := serArr_cons2_length x y ts2
            omega
          have hlen2 : (serArr (JArr.cons y ts2)).length + 2 ≤ f := by
            have h2 := serArr_cons2_length x y ts2
            have h3 := serJson_length_pos x
            omega
          rw [hred, (ihF f (by omega)).1 x
            (',' :: (serArr (JArr.cons y ts2) ++ ']' :: rest)) hwfx (by rfl) hlen1]
          have hwf2 : (wfJson y && wfA ts2) = true := hwfts
          rw [Bool.and_eq_true] at hwf2
          show (match parseArrItems f (serArr (JArr.cons y ts2) ++ ']' :: rest) with
             | .ok (tl, r3) => (.ok (JArr.cons x tl, r3) :
                 Except String (JArr × List Char))
             | .error e => .error e) = .ok (JArr.cons x (JArr.cons y ts2), rest)
          rw [(ihF f (by omega)).2.1 y ts2 rest hwf2.1 hwf2.2 hgf hlen2]
    · -- part 3: parseObjItems
      intro k v ts rest acc hwfv hwfts hnd hgf hfresh hlen
      cases F with
      | zero => omega
      | succ f =>
        have hndc : (!(JObj.keys ts).contains k && nodupKeysB ts) = true := hnd
        rw [Bool.and_eq_true] at hndc
        have hkfresh : k ∉ JObj.keys acc :=
          hfresh k (by rw [JObj.keys]; exact List.mem_cons_self _ _)
        have hsetacc : JObj.set acc k v = objAppend acc (JObj.cons k v JObj.nil) :=
          set_fresh acc k v hkfresh
        cases ts with
        | nil =>
          show parseObjItems (f + 1) ((serStr k ++ ':' :: serJson v) ++ '}' :: rest) acc =
            .ok (.obj (objAppend acc (JObj.cons k v JObj.nil)), rest)
          rw [show (serStr k ++ ':' :: serJson v) ++ '}' :: rest =
            '"' :: (((k.data.map escapeChar).flatten ++ '"' ::
              (':' :: (serJson v ++ '}' :: rest)))) from by
            rw [serStr]
            simp]
          have hred : parseObjItems (f + 1)
              ('"' :: ((k.data.map escapeChar).flatten ++ '"' ::
                (':' :: (serJson v ++ '}' :: rest)))) acc =
            (match parseStrChars ((k.data.map escapeChar).flatten ++ '"' ::
                (':' :: (serJson v ++ '}' :: rest))) with
             | .ok (kcs, r2) =>
               (match skipWs r2 with
                | ':' :: r3 =>
                  (match parseValue f r3 with
                   | .ok (v2, r4) =>
                     (match skipWs r4 with
                      | ',' :: r5 => parseObjItems f (skipWs r5) (JObj.set acc (String.mk kcs) v2)
                      | '}' :: r5 => .ok (.obj (JObj.set acc (String.mk kcs) v2), r5)
                      | _ => .error "Expecting comma or brace")
                   | .error e => .error e)
                | _ => .error "Expecting colon")
             | .error e => .error e) := rfl
          have hlen1 : (serJson v).length + 1 ≤ f := by
            have h2 := serObjItems_cons1_length k v
            have h3 : (serStr k).length = (k.data.map escapeChar).flatten.length + 2 :=
              serStr_length k
            omega
          rw [hred, parse_serStr k.data (':' :: (serJson v ++ '}' :: rest))]
          show (match parseValue f (serJson v ++ '}' :: rest) with
             | .ok (v2, r4) =>
               (match skipWs r4 with
                | ',' :: r5 => parseObjItems f (skipWs r5) (JObj.set acc (String.mk k.data) v2)
                | '}' :: r5 => (.ok (.obj (JObj.set acc (String.mk k.data) v2), r5) :
                    Except String (Json × List Char))
                | _ => .error "Expecting comma or brace")
             | .error e => .error e) = _
          rw [(ihF f (by omega)).1 v ('}' :: rest) hwfv (by rfl) hlen1]
          show Except.ok (Json.obj (JObj.set acc (String.mk k.data) v), rest) = _
          rw [show String.mk k.data = k from rfl, hsetacc]
        | cons k2 v2 ts2 =>
          show parseObjItems (f + 1)
              ((serStr k ++ ':' :: serJson v ++ ',' :: serObjItems (JObj.cons k2 v2 ts2)) ++
                '}' :: rest) acc =
            .ok (.obj (objAppend acc (JObj.cons k v (JObj.cons k2 v2 ts2))), rest)
          rw [show (serStr k ++ ':' :: serJson v ++ ',' :: serObjItems (JObj.cons k2 v2 ts2)) ++
              '}' :: rest =
            '"' :: ((k.data.map escapeChar).flatten ++ '"' ::
              (':' :: (serJson v ++ ',' ::
                (serObjItems (JObj.cons k2 v2 ts2) ++ '}' :: rest)))) from by
            rw [serStr]
            simp]
          have hred : parseObjItems (f + 1)
              ('"' :: ((k.data.map escapeChar).flatten ++ '"' ::
                (':' :: (serJson v ++ ',' ::
                  (serObjItems (JObj.cons k2 v2 ts2) ++ '}' :: rest))))) acc =
            (match parseStrChars ((k.data.map escapeChar).flatten ++ '"' ::
                (':' :: (serJson v ++ ',' ::
                  (serObjItems (JObj.cons k2 v2 ts2) ++ '}' :: rest)))) with
             | .ok (kcs, r2) =>
               (match skipWs r2 with
                | ':' :: r3 =>
                  (match parseValue f r3 with
                   | .ok (v3, r4) =>
                     (match skipWs r4 with
                      | ',' :: r5 => parseObjItems f (skipWs r5) (JObj.set acc (String.mk kcs) v3)
                      | '}' :: r5 => .ok (.obj (JObj.set acc (String.mk kcs) v3), r5)
                      | _ => .error "Expecting comma or brace")
                   | .error e => .error e)
                | _ => .error "Expecting colon")
             | .error e => .error e) := rfl
          have hlenk : (serStr k).length = (k.data.map escapeChar).flatten.length + 2 :=
            serStr_length k
          have hlall := serObjItems_cons2_length k k2 v v2 ts2
          have hlen1 : (serJson v).length + 1 ≤ f := by omega
          have hlen2 : (serObjItems (JObj.cons k2 v2 ts2)).length + 2 ≤ f := by
            have h3 := serJson_length_pos v
            omega
          rw [hred, parse_serStr k.data
            (':' :: (serJson v ++ ',' :: (serObjItems (JObj.cons k2 v2 ts2) ++ '}' :: rest)))]
          show (match parseValue f (serJson v ++ ',' ::
              (serObjItems (JObj.cons k2 v2 ts2) ++ '}' :: rest)) with
             | .ok (v3, r4) =>
               (match skipWs r4 with
                | ',' :: r5 => parseObjItems f (skipWs r5) (JObj.set acc (String.mk k.data) v3)
                | '}' :: r5 => (.ok (.obj (JObj.set acc (String.mk k.data) v3), r5) :
                    Except String (Json × List Char))
                | _ => .error "Expecting comma or brace")
             | .error e => .error e) = _
          rw [(ihF f (by omega)).1 v
            (',' :: (serObjItems (JObj.cons k2 v2 ts2) ++ '}' :: rest)) hwfv (by rfl) hlen1]
          have hoh : ∃ Z2, serObjItems (JObj.cons k2 v2 ts2) ++ '}' :: rest = '"' :: Z2 := by
            cases ts2 with
            | nil =>
              refine ⟨((k2.data.map escapeChar).flatten ++ ['"']) ++
                (':' :: serJson v2) ++ '}' :: rest, ?_⟩
              show (serStr k2 ++ ':' :: serJson v2) ++ '}' :: rest = _
              rw [serStr]
              simp
            | cons k3 v3 ts3 =>
              refine ⟨((k2.data.map escapeChar).flatten ++ ['"']) ++
                (':' :: serJson v2 ++ ',' :: serObjItems (JObj.cons k3 v3 ts3)) ++
                '}' :: rest, ?_⟩
              show (serStr k2 ++ ':' :: serJson v2 ++ ',' :: serObjItems (JObj.cons k3 v3 ts3)) ++
                '}' :: rest = _
              rw [serStr]
              simp
          obtain ⟨Z2, hZ2⟩ := hoh
          show parseObjItems f (skipWs (serObjItems (JObj.cons k2 v2 ts2) ++ '}' :: rest))
              (JObj.set acc (String.mk k.data) v) = _
          rw [hZ2, show skipWs ('"' :: Z2) = '"' :: Z2 from skipWs_cons_not _ _ rfl, ← hZ2]
          rw [show String.mk k.data = k from rfl, hsetacc]
          have hwf2 : (wfJson v2 && wfO ts2) = true := hwfts
          rw [Bool.and_eq_true] at hwf2
          have hnd2 : nodupKeysB (JObj.cons k2 v2 ts2) = true := hndc.2
          have hfresh2 : ∀ k3 ∈ JObj.keys (JObj.cons k2 v2 ts2),
              k3 ∉ JObj.keys (objAppend acc (JObj.cons k v JObj.nil)) := by
            intro k3 hk3
            rw [keys_objAppend]
            rw [List.mem_append]
            push_neg
            constructor
            · exact hfresh k3 (by rw [JObj.keys]; exact List.mem_cons_of_mem _ hk3)
            · show k3 ∉ JObj.keys (JObj.cons k v JObj.nil)
              rw [JObj.keys]
              intro hm
              rcases List.mem_cons.mp hm with he | habs
              · subst he
                have hcont := hndc.1
                rw [Bool.not_eq_true'] at hcont
                simp [List.elem_iff] at hcont
                exact hcont hk3
              · exact absurd habs (by simp [JObj.keys])
          rw [(ihF f (by omega)).2.2 k2 v2 ts2 rest (objAppend acc (JObj.cons k v JObj.nil))
            hwf2.1 hwf2.2 hnd2 hgf hfresh2 hlen2]
          rw [objAppend_assoc]
          rfl

theorem insertPair_of_le : ∀ (t : JObj) (k : String) (v : Json),
    (∀ k2 ∈ JObj.keys t, strLe k k2 = true) → insertPair k v t = JObj.cons k v t := by
  intro t k v h
  cases t with
  | nil => rfl
  | cons k2 v2 t2 =>
    rw [insertPair, if_pos (h k2 (by rw [JObj.keys]; exact List.mem_cons_self _ _))]

theorem sortObj_of_pairwise : ∀ M : JObj,
    (JObj.keys M).Pairwise (fun a b => strLe a b = true) → sortObj M = M := by
  intro M
  induction M using jobjTailInd with
  | h0 => intro _; rfl
  | h1 k v t ih =>
    intro h
    rw [JObj.keys, List.pairwise_cons] at h
    rw [sortObj, ih h.2]
    exact insertPair_of_le t k v h.1

theorem sortAll_canonical (h : String) : ∀ (n : Nat) (t : Json), jcount t ≤ n →
    canonicalP h t = true → sortAll t = t := by
  intro n
  induction n using Nat.strong_induction_on with
  | _ n ihn =>
    intro t hsz hc
    cases t with
    | null => rfl
    | bool b => rfl
    | num m => rfl
    | str s => rfl
    | arr xs =>
      have hsz' : jcountA xs < n := by
        have hj : jcount (Json.arr xs) = 1 + jcountA xs := rfl
        omega
      have hc' : canonicalPA h xs = true := hc
      show Json.arr (sortAllA xs) = Json.arr xs
      congr 1
      clear hc hsz
      induction xs using jarrTailInd with
      | h0 => rfl
      | h1 x t ih =>
        have hc2 : (canonicalP h x && canonicalPA h t) = true := hc'
        rw [Bool.and_eq_true] at hc2
        have hjx : jcount x ≤ jcountA (JArr.cons x t) := by rw [jcountA]; omega
        have hjt : jcountA t ≤ jcountA (JArr.cons x t) := by
          have := jcount_pos x
          rw [jcountA]; omega
        rw [sortAllA, ihn (jcount x) (by omega) x (le_refl _) hc2.1, ih (by omega) hc2.2]
    | obj kvs =>
      have hsz' : jcountO kvs < n := by
        have hj : jcount (Json.obj kvs) = 1 + jcountO kvs := rfl
        omega
      have hc' : (adjSortedKeys kvs && keysNotIgnored kvs && canonicalPO h kvs) = true := hc
      rw [Bool.and_eq_true, Bool.and_eq_true] at hc'
      obtain ⟨⟨hadj, hki⟩, hcv⟩ := hc'
      have hso : sortAllO kvs = kvs := by
        clear hc hsz hadj hki
        induction kvs using jobjTailInd with
        | h0 => rfl
        | h1 k v t ih =>
          have hc2 : (canonicalP h v && canonicalPO h t) = true := hcv
          rw [Bool.and_eq_true] at hc2
          have hjv : jcount v ≤ jcountO (JObj.cons k v t) := by rw [jcountO]; omega
          have hjt : jcountO t ≤ jcountO (JObj.cons k v t) := by
            have := jcount_pos v
            rw [jcountO]; omega
          rw [sortAllO, ihn (jcount v) (by omega) v (le_refl _) hc2.1, ih (by omega) hc2.2]
      show Json.obj (sortObj (sortAllO kvs)) = Json.obj kvs
      rw [hso, sortObj_of_pairwise kvs
        ((adjSorted_pairwise kvs hadj).imp (fun hab => strLe_of_strLt hab))]

theorem nodupKeysB_of_nodup : ∀ M : JObj, (JObj.keys M).Nodup → nodupKeysB M = true := by
  intro M
  induction M using jobjTailInd with
  | h0 => intro _; rfl
  | h1 k v t ih =>
    intro h
    rw [JObj.keys, List.nodup_cons] at h
    rw [nodupKeysB, Bool.and_eq_true]
    refine ⟨?_, ih h.2⟩
    rw [Bool.not_eq_true']
    by_contra hcon
    have hc2 : (JObj.keys t).contains k = true := by
      cases h2 : (JObj.keys t).contains k
      · exact absurd h2 hcon
      · rfl
    rw [List.elem_iff] at hc2
    exact h.1 hc2

theorem wf_of_canonical (h : String) : ∀ (n : Nat) (t : Json), jcount t ≤ n →
    canonicalP h t = true → wfJson t = true := by
  intro n
  induction n using Nat.strong_induction_on with
  | _ n ihn =>
    intro t hsz hc
    cases t with
    | null => rfl
    | bool b => rfl
    | num m => rfl
    | str s => rfl
    | arr xs =>
      have hsz' : jcountA xs < n := by
        have hj : jcount (Json.arr xs) = 1 + jcountA xs := rfl
        omega
      have hc' : canonicalPA h xs = true := hc
      show wfA xs = true
      clear hc hsz
      induction xs using jarrTailInd with
      | h0 => rfl
      | h1 x t ih =>
        have hc2 : (canonicalP h x && canonicalPA h t) = true := hc'
        rw [Bool.and_eq_true] at hc2
        have hjx : jcount x ≤ jcountA (JArr.cons x t) := by rw [jcountA]; omega
        have hjt : jcountA t ≤ jcountA (JArr.cons x t) := by
          have := jcount_pos x
          rw [jcountA]; omega
        rw [wfA, Bool.and_eq_true]
        exact ⟨ihn (jcount x) (by omega) x (le_refl _) hc2.1, ih (by omega) hc2.2⟩
    | obj kvs =>
      have hsz' : jcountO kvs < n := by
        have hj : jcount (Json.obj kvs) = 1 + jcountO kvs := rfl
        omega
      have hc' : (adjSortedKeys kvs && keysNotIgnored kvs && canonicalPO h kvs) = true := hc
      rw [Bool.and_eq_true, Bool.and_eq_true] at hc'
      obtain ⟨⟨hadj, hki⟩, hcv⟩ := hc'
      show (nodupKeysB kvs && wfO kvs) = true
      rw [Bool.and_eq_true]
      refine ⟨nodupKeysB_of_nodup kvs (nodup_of_pairwise_strLt (adjSorted_pairwise kvs hadj)), ?_⟩
      clear hc hsz hadj hki
      induction kvs using jobjTailInd with
      | h0 => rfl
      | h1 k v t ih =>
        have hc2 : (canonicalP h v && canonicalPO h t) = true := hcv
        rw [Bool.and_eq_true] at hc2
        have hjv : jcount v ≤ jcountO (JObj.cons k v t) := by rw [jcountO]; omega
        have hjt : jcountO t ≤ jcountO (JObj.cons k v t) := by
          have := jcount_pos v
          rw [jcountO]; omega
        rw [wfO, Bool.and_eq_true]
        exact ⟨ihn (jcount v) (by omega) v (le_refl _) hc2.1, ih (by omega) hc2.2⟩

theorem json_loads_of_parse (s : String) (v : Json)
    (hp : parseValue (s.length + 1) s.data = .ok (v, [])) : json_loads s = .ok v := by
  unfold json_loads
  rw [hp]
  rfl

/-- C2: the claim as stated fails: when the environment host shares a
character with the replacement token `<ENV_HOST>`, re-canonicalizing the
parsed canonical output masks inside the token that the first pass
produced, so the second canonical string differs from the first. -/
theorem c2_counterexample :
    json_loads (normalize_flow_definition (Json.str "H") "H") = .ok (Json.str "<ENV_HOST>") ∧
    normalize_flow_definition (Json.str "<ENV_HOST>") "H" ≠
      normalize_flow_definition (Json.str "H") "H" := by
  exact ⟨by decide, by decide⟩

/-- C2 (amended): for every well-formed tree (duplicate-free mapping
keys) and every host whose characters avoid the token `<ENV_HOST>` (true
of real hostnames), the canonical string parses back under the model's
`json.loads`, and canonicalizing the parsed tree with the same host
reproduces the canonical string byte for byte: canonical form is a
fixed point. -/
theorem c2_amended (t : Json) (h : String) (hwf : wfJson t = true)
    (hhost : hostAvoidsEnvTok h = true) :
    ∃ t2, json_loads (normalize_flow_definition t h) = .ok t2 ∧
      normalize_flow_definition t2 h = normalize_flow_definition t h := by
  have hcanon : canonicalP h (traverse h t) = true :=
    canonical_traverse h hhost (jcount t) t (le_refl _) hwf
  have hsort : sortAll (traverse h t) = traverse h t :=
    sortAll_canonical h (jcount (traverse h t)) (traverse h t) (le_refl _) hcanon
  have hwf2 : wfJson (traverse h t) = true :=
    wf_of_canonical h (jcount (traverse h t)) (traverse h t) (le_refl _) hcanon
  refine ⟨traverse h t, ?_, ?_⟩
  · rw [normalize_flow_definition, hsort]
    have hpv := (parse_ser_master ((serJson (traverse h t)).length + 1)).1
      (traverse h t) [] hwf2 (by rfl) (by omega)
    rw [List.append_nil] at hpv
    exact json_loads_of_parse (String.mk (serJson (traverse h t))) (traverse h t) hpv
  · rw [normalize_flow_definition, normalize_flow_definition]
    have hidem : traverse h (traverse h t) = traverse h t :=
      traverse_canonical_fix h (jcount (traverse h t)) (traverse h t) (le_refl _) hcanon
    rw [hidem]

/-- Concrete instance of the amended C2 statement on a mapping with a
GUID, a host leaf, nested values and an ignorable key, under a realistic
host. -/
theorem c2_amended_witness :
    wfJson c1TreeA = true ∧ hostAvoidsEnvTok "src.crm.dynamics.com" = true ∧
    (∃ t2, json_loads (normalize_flow_definition c1TreeA "src.crm.dynamics.com") = .ok t2 ∧
      normalize_flow_definition t2 "src.crm.dynamics.com" =
        normalize_flow_definition c1TreeA "src.crm.dynamics.com") :=
  ⟨by decide, by decide, c2_amended c1TreeA "src.crm.dynamics.com" (by decide) (by decide)⟩
